import Mathlib

/-!
# Consensus core of BetGenius

A shallow embedding of

* `src/pow.cpp`: `GetNextWorkRequired`, `CalculateNextWorkRequired`,
  `PermittedDifficultyTransition` and `CheckProofOfWork`, together with the part of
  `arith_uint256` these functions use;
* `src/crypto/ethash/lib/ethash/primes.c`: `ethash_find_largest_prime`;
* `src/crypto/ethash/lib/ethash/bit_manipulation.h`: `rotl32`, `rotr32`, `fnv1` and
  `fnv1a`;
* `src/hash.cpp`: `ETHash` and its single-slot cache of the epoch context;
* the block template assembler and the mempool entries it reads, after sections 4.4
  and 4.5 of the specification.

Conventions of the embedding:

* a `uint256` / `arith_uint256` is the natural number it denotes (`UintToArith256`
  reads the 32 bytes little-endian, so it is the identity on that number); every
  `arith_uint256` operation reduces its result modulo `2^256`;
* a `uint32_t` is a natural number, an `int` or `int64_t` is an integer;
* a `const CBlockIndex*` is the list of blocks reached by following `pprev`:
  the head of the list is the block pointed to, the tail is `pprev`, and the
  empty list is `nullptr`;
* a failed `assert` or a thrown `uint_error` is the result `none`, and so is a shift
  of a `uint32_t` by 32 or more positions;
* a loop whose number of iterations is not a parameter of the code runs under a bound
  that is shown to be large enough;
* a function-local `static` variable is an argument and a result of the function.
-/

namespace BetGenius

/-! ## arith_uint256 -/

/-- Modelled from the spec: the modulus of `arith_uint256` (arith_uint256.h is not
among the sources); the spec calls the type a 256-bit unsigned integer. -/
def UINT256_MOD : Nat := 2 ^ 256

/-- Modelled from the spec: `UintToArith256` (arith_uint256.cpp is not among the
sources). A `uint256` is represented by the number its bytes denote, so the
conversion keeps the number. -/
def UintToArith256 (a : Nat) : Nat := a

/-- Modelled from the spec: `arith_uint256 + arith_uint256`, 256-bit wrap-around. -/
def arith_add (a b : Nat) : Nat := (a + b) % UINT256_MOD

/-- Modelled from the spec: `arith_uint256 * uint32_t` and `operator*=(uint32_t)`
(arith_uint256.h is not among the sources). The scalar operand of the class is a
32-bit unsigned integer, so a wider integer argument is converted modulo `2^32`;
the product wraps around at 256 bits. -/
def arith_mul32 (a : Nat) (b : Int) : Nat := (a * (b % 2 ^ 32).toNat) % UINT256_MOD

/-- Modelled from the spec: `arith_uint256 / arith_uint256` and `operator/=`, where
an integer divisor is first converted through the `uint64_t` constructor. Division
by zero throws `uint_error`, the result `none`. -/
def arith_div64 (a : Nat) (b : Int) : Option Nat :=
  if (b % 2 ^ 64).toNat = 0 then none else some (a / (b % 2 ^ 64).toNat)

/-- Modelled from the spec: `arith_uint256::operator<<=`, bits shifted beyond bit 255
are lost. -/
def arith_shl (a n : Nat) : Nat := (a * 2 ^ n) % UINT256_MOD

/-- Modelled from the spec: `arith_uint256::operator>>`. -/
def arith_shr (a n : Nat) : Nat := a / 2 ^ n

/-- Scan of `base_uint::bits()` from bit position `pos - 1` downwards. -/
def bitsFrom : Nat → Nat → Nat
  | 0, _ => 0
  | pos + 1, a => if a / 2 ^ pos % 2 = 1 then pos + 1 else bitsFrom pos a

/-- Modelled from the spec: `base_uint::bits()`, the position of the highest set
bit plus one, and 0 for the value 0. -/
def bits (a : Nat) : Nat := bitsFrom 256 a

/-- Modelled from the spec: `base_uint::GetLow64()`. -/
def GetLow64 (a : Nat) : Nat := a % 2 ^ 64

/-- Result of `arith_uint256::SetCompact`: the decoded number and the two flags
written through `pfNegative` and `pfOverflow`. -/
structure CompactTarget where
  value : Nat
  fNegative : Bool
  fOverflow : Bool
deriving DecidableEq, Repr

/-- Modelled from the spec: `arith_uint256::SetCompact` (arith_uint256.cpp is not
among the sources). The compact value is one exponent byte `nSize`
(`nCompact >> 24`) and a 23-bit mantissa `nCompact & 0x007fffff`; bit `0x00800000`
is the sign flag. The number is `mantissa * 256^(nSize - 3)`. -/
def SetCompact (nCompact : Nat) : CompactTarget :=
  let nSize := nCompact / 2 ^ 24
  let nWord := nCompact % 2 ^ 23
  let nWord' := if nSize ≤ 3 then nWord / 2 ^ (8 * (3 - nSize)) else nWord
  let value := if nSize ≤ 3 then nWord' else arith_shl nWord (8 * (nSize - 3))
  { value := value
    fNegative := decide (nWord' ≠ 0) && decide (nCompact / 2 ^ 23 % 2 = 1)
    fOverflow := decide (nWord' ≠ 0) &&
      (decide (nSize > 34) || (decide (nWord' > 0xff) && decide (nSize > 33)) ||
        (decide (nWord' > 0xffff) && decide (nSize > 32))) }

/-- Modelled from the spec: `arith_uint256::GetCompact(bool fNegative)`
(arith_uint256.cpp is not among the sources). `nSize` is the number of significant
bytes; the mantissa is the top three of them; when the mantissa would have bit
`0x00800000` set it is shifted right by one byte and the exponent incremented.
The mantissa then lies below `2^23`, so or-ing in the exponent byte and the sign
flag is addition. -/
def GetCompact (a : Nat) (fNegative : Bool) : Nat :=
  let nSize := (bits a + 7) / 8
  let nCompact :=
    if nSize ≤ 3 then (GetLow64 a * 2 ^ (8 * (3 - nSize))) % 2 ^ 32
    else GetLow64 (arith_shr a (8 * (nSize - 3))) % 2 ^ 32
  let shifted := decide (nCompact / 2 ^ 23 % 2 = 1)
  let nCompact' := if shifted then nCompact / 2 ^ 8 else nCompact
  let nSize' := if shifted then nSize + 1 else nSize
  let nCompact'' := nCompact' + nSize' * 2 ^ 24
  if fNegative && decide (nCompact'' % 2 ^ 23 ≠ 0) then nCompact'' + 2 ^ 23 else nCompact''

/-! ## Consensus parameters and the block index -/

/-- Proof-of-work fields of `Consensus::Params` (`consensus/params.h`). -/
structure Params where
  powLimit : Nat
  fPowAllowMinDifficultyBlocks : Bool
  fPowNoRetargeting : Bool
  nPowTargetWindow : Int
  nPowTargetSpacing : Int
deriving DecidableEq, Repr

/-- Fields of `CBlockIndex` read by `pow.cpp`. `GetBlockTime()` is `(int64_t)nTime`. -/
structure CBlockIndex where
  nHeight : Int
  nTime : Nat
  nBits : Nat
deriving DecidableEq, Repr

/-- Value of `CBlockIndex::GetBlockTime()`. -/
def CBlockIndex.GetBlockTime (b : CBlockIndex) : Int := (b.nTime : Int)

/-- Fields of `CBlockHeader` read by `pow.cpp`. -/
structure CBlockHeader where
  nTime : Nat
  nBits : Nat
deriving DecidableEq, Repr

/-- Value of `CBlockHeader::GetBlockTime()`. -/
def CBlockHeader.GetBlockTime (b : CBlockHeader) : Int := (b.nTime : Int)

/-- A `const CBlockIndex*`: the pointee first, then its `pprev` chain; `[]` is
`nullptr`. -/
abbrev Chain := List CBlockIndex

/-! ## pow.cpp -/

/-- `CheckProofOfWork` of `pow.cpp`. -/
def CheckProofOfWork (hash nBits : Nat) (params : Params) : Bool :=
  let t := SetCompact nBits
  if t.fNegative || decide (t.value = 0) || t.fOverflow ||
      decide (t.value > UintToArith256 params.powLimit) then false
  else if UintToArith256 hash > t.value then false
  else true

/-- Body of the `for` loop of `CalculateNextWorkRequired` (lines 53-65), run for the
given number of remaining iterations: `nCountBlocks` is the loop counter, `pindex`
the walking pointer and `bnPastTargetAvg` the accumulator. `nHeight` is an `int`,
so fewer than `2^31` iterations run: the `unsigned int` counter does not wrap and
the divisor `nCountBlocks + 1` is never zero. A null `pprev` fails the `assert`. -/
def windowLoop (nPastBlocks : Int) : Nat → Nat → Chain → Nat → Option (Nat × Chain)
  | 0, _, pindex, bnPastTargetAvg => some (bnPastTargetAvg, pindex)
  | n + 1, nCountBlocks, pindex, bnPastTargetAvg =>
    match pindex with
    | [] => none
    | b :: pprev =>
      let bnTarget := (SetCompact b.nBits).value
      let avg :=
        if nCountBlocks = 1 then bnTarget
        else arith_add (arith_mul32 bnPastTargetAvg nCountBlocks) bnTarget / (nCountBlocks + 1)
      if (nCountBlocks : Int) ≠ nPastBlocks then
        match pprev with
        | [] => none
        | _ :: _ => windowLoop nPastBlocks n (nCountBlocks + 1) pprev avg
      else windowLoop nPastBlocks n (nCountBlocks + 1) pindex avg

/-- Lines 72-75 of `CalculateNextWorkRequired`: the two clamping `if`s; `/` on
`int64_t` truncates towards zero. -/
def clampTimespan (nActualTimespan nTargetTimespan : Int) : Int :=
  let t := if nActualTimespan < Int.tdiv nTargetTimespan 3 then Int.tdiv nTargetTimespan 3
    else nActualTimespan
  if t > nTargetTimespan * 3 then nTargetTimespan * 3 else t

/-- Lines 77-84 of `CalculateNextWorkRequired`: scale the average by
`nActualTimespan / nTargetTimespan`, cap at the power limit and encode. -/
def scaleTarget (params : Params) (bnPastTargetAvg : Nat) (nActualTimespan : Int) :
    Option Nat :=
  let bnPowLimit := UintToArith256 params.powLimit
  let nTargetTimespan := params.nPowTargetWindow * params.nPowTargetSpacing
  match arith_div64 (arith_mul32 bnPastTargetAvg nActualTimespan) nTargetTimespan with
  | none => none
  | some bnNew => some (GetCompact (if bnNew > bnPowLimit then bnPowLimit else bnNew) false)

/-- `CalculateNextWorkRequired` of `pow.cpp`. -/
def CalculateNextWorkRequired (pindexLast : Chain) (params : Params) : Option Nat :=
  let bnPowLimit := UintToArith256 params.powLimit
  let nPastBlocks := params.nPowTargetWindow
  match pindexLast with
  | [] => some (GetCompact bnPowLimit false)
  | last :: _ =>
    if last.nHeight < nPastBlocks then some (GetCompact bnPowLimit false)
    else
      match windowLoop nPastBlocks nPastBlocks.toNat 1 pindexLast 0 with
      | none => none
      | some (_, []) => none
      | some (bnPastTargetAvg, first :: _) =>
        let nActualTimespan := last.GetBlockTime - first.GetBlockTime
        let nTargetTimespan := nPastBlocks * params.nPowTargetSpacing
        scaleTarget params bnPastTargetAvg (clampTimespan nActualTimespan nTargetTimespan)

/-- `GetNextWorkRequired` of `pow.cpp`; both pointer arguments are asserted
non-null. -/
def GetNextWorkRequired (pindexLast : Chain) (pblock : Option CBlockHeader)
    (params : Params) : Option Nat :=
  match pindexLast, pblock with
  | [], _ => none
  | _ :: _, none => none
  | last :: _, some blk =>
    if params.fPowNoRetargeting then some last.nBits
    else
      let bnPowLimit := UintToArith256 params.powLimit
      if params.fPowAllowMinDifficultyBlocks then
        if blk.GetBlockTime > last.GetBlockTime + params.nPowTargetSpacing * 5 then
          let bnNew := arith_mul32 (SetCompact last.nBits).value 10
          if bnNew > bnPowLimit then some (GetCompact bnPowLimit false)
          else some (GetCompact bnNew false)
        else if blk.GetBlockTime > last.GetBlockTime + params.nPowTargetSpacing * 30 then
          some (GetCompact bnPowLimit false)
        else CalculateNextWorkRequired pindexLast params
      else CalculateNextWorkRequired pindexLast params

/-- `PermittedDifficultyTransition` of `pow.cpp`. `arith_uint256(old_nbits)` is the
constructor from an integer: it holds the compact word itself, not the target the
word encodes. The divisor is the constant 3. -/
def PermittedDifficultyTransition (params : Params) (old_nbits new_nbits : Nat) : Bool :=
  let bnPowLimit := UintToArith256 params.powLimit
  let maxIncreaseBound := arith_mul32 old_nbits 3
  let minDecreaseBound := old_nbits / 3
  let newDifficulty := new_nbits
  if decide (newDifficulty > bnPowLimit) || decide (newDifficulty > maxIncreaseBound) ||
      decide (newDifficulty < minDecreaseBound) then false
  else true

/-! ## Chain parameters (`kernel/chainparams.cpp`) and test data -/

/-- Proof-of-work parameters of the main network. -/
def mainParams : Params :=
  { powLimit := 0x000affffffffffffffffffffffffffffffffffffffffffffffffffffffffffff
    fPowAllowMinDifficultyBlocks := false
    fPowNoRetargeting := false
    nPowTargetWindow := 20
    nPowTargetSpacing := 60 }

/-- Proof-of-work parameters of the test network. -/
def testnetParams : Params :=
  { powLimit := 0x000affffffffffffffffffffffffffffffffffffffffffffffffffffffffffff
    fPowAllowMinDifficultyBlocks := true
    fPowNoRetargeting := false
    nPowTargetWindow := 20
    nPowTargetSpacing := 60 }

/-- Proof-of-work parameters of the regression-test network. -/
def regtestParams : Params :=
  { powLimit := 0x7fffffffffffffffffffffffffffffffffffffffffffffffffffffffffffffff
    fPowAllowMinDifficultyBlocks := true
    fPowNoRetargeting := true
    nPowTargetWindow := 20
    nPowTargetSpacing := 60 }

/-- The first `n + 1` blocks built by `GenerateBlockIndexes` in `pow_tests.cpp`
when every entry carries the same `nBits` and entries are `step` seconds apart,
seen from the block of height `n`. -/
def uniformChain (t0 step nBits : Nat) : Nat → Chain
  | 0 => [{ nHeight := 0, nTime := t0, nBits := nBits }]
  | n + 1 =>
    { nHeight := ((n + 1 : Nat) : Int), nTime := t0 + (n + 1) * step, nBits := nBits } ::
      uniformChain t0 step nBits n

/-! ## Specification-side definitions -/

/-- Number denoted by a mantissa `c` and an exponent byte `s` of the compact
format, `c * 256^(s - 3)` rounded down, before any reduction modulo `2^256`. -/
def compactNumber (c s : Nat) : Nat :=
  if s ≤ 3 then c / 2 ^ (8 * (3 - s)) else c * 2 ^ (8 * (s - 3))

/-- Target `t_k` of the claims about the window: the target decoded from the
`nBits` of the `(k-1)`-th ancestor of `pindexLast` (`t_1` is that of `pindexLast`
itself). -/
def windowTarget (chain : Chain) (k : Nat) : Nat :=
  match chain[k - 1]? with
  | some b => (SetCompact b.nBits).value
  | none => 0

/-- Recurrence `A_1 = t_1`, `A_k = floor((A_(k-1) * k + t_k) / (k + 1))` over the
unbounded natural numbers, as the specification writes it. -/
def exactAverage (chain : Chain) : Nat → Nat
  | 0 => 0
  | 1 => windowTarget chain 1
  | k + 2 => (exactAverage chain (k + 1) * (k + 2) + windowTarget chain (k + 2)) / (k + 3)

/-- The same recurrence with the numerator reduced modulo `2^256`:
`A_k = floor(((A_(k-1) * k + t_k) mod 2^256) / (k + 1))`. -/
def wrappedAverage (chain : Chain) : Nat → Nat
  | 0 => 0
  | 1 => windowTarget chain 1
  | k + 2 =>
    (wrappedAverage chain (k + 1) * (k + 2) + windowTarget chain (k + 2)) % 2 ^ 256 / (k + 3)

/-- Raw timespan of a window of `W` headers: the time of `pindexLast` minus the time
of its `(W-1)`-th ancestor. -/
def rawTimespan (chain : Chain) (W : Nat) : Int :=
  match chain[0]?, chain[W - 1]? with
  | some last, some first => last.GetBlockTime - first.GetBlockTime
  | _, _ => 0

/-- Result of the retargeting computation of `CalculateNextWorkRequired` when the
timespan is set to `nActualTimespan` instead of being measured and clamped: the
average of the loop, scaled by lines 77-84. -/
def CalculateWithTimespan (pindexLast : Chain) (params : Params) (nActualTimespan : Int) :
    Option Nat :=
  match windowLoop params.nPowTargetWindow params.nPowTargetWindow.toNat 1 pindexLast 0 with
  | none => none
  | some (bnPastTargetAvg, _) => scaleTarget params bnPastTargetAvg nActualTimespan

/-- The chain of `pow_tests.cpp` seen from its block of height 20: twenty-one
headers with `nBits = 0x1f0affff`, 30 seconds apart. -/
def testWindow : Chain := uniformChain 1712232000 30 0x1f0affff 20

/-- Last step of `GetCompact` for a non-negative number: the compact word built from
the byte count `n` and the 24-bit mantissa `m`; a mantissa with bit `0x00800000` set
is shifted right by one byte and the byte count incremented. -/
def encodeMantissa (n m : Nat) : Nat :=
  if m / 2 ^ 23 % 2 = 1 then m / 2 ^ 8 + (n + 1) * 2 ^ 24 else m + n * 2 ^ 24

/-- `nBits` passed to `CreateGenesisBlock` by `CMainParams` (`kernel/chainparams.cpp`). -/
def mainGenesisBits : Nat := 0x1f0affff

/-- `nBits` passed to `CreateGenesisBlock` by `CTestNetParams`. -/
def testnetGenesisBits : Nat := 0x1f0affff

/-- `nBits` passed to `CreateGenesisBlock` by `CRegTestParams`. -/
def regtestGenesisBits : Nat := 0x207fffff

/-! ## ethash: primes.c -/

/-- The `for` loop of `is_odd_prime` (`primes.c`), entered with the divisor `d`; the
first argument bounds the number of times the loop condition is evaluated, and
`none` is an exhausted bound. `(int64_t)d * (int64_t)d` does not overflow and `%` is
the remainder of the truncating division. -/
def is_odd_prime_loop (number : Int) : Nat → Int → Option Bool
  | 0, _ => none
  | fuel + 1, d =>
    if d * d ≤ number then
      if Int.tmod number d = 0 then some false
      else is_odd_prime_loop number fuel (d + 2)
    else some true

/-- `is_odd_prime` of `primes.c`: `some true` for the C result 1, `some false` for
0. The loop condition is evaluated at most `number + 1` times, and once for a number
below 9, which includes every number that is not positive. -/
def is_odd_prime (number : Int) : Option Bool :=
  is_odd_prime_loop number (number.toNat + 1) 3

/-- The `while (!is_odd_prime(n)) n -= 2;` loop of `ethash_find_largest_prime`,
followed by `return n`; the first argument bounds the number of tests. -/
def find_prime_loop : Nat → Int → Option Int
  | 0, _ => none
  | fuel + 1, n =>
    match is_odd_prime n with
    | none => none
    | some true => some n
    | some false => find_prime_loop fuel (n - 2)

/-- `ethash_find_largest_prime` of `primes.c`. The descending search tests at most
`n` candidates. -/
def ethash_find_largest_prime (upper_bound : Int) : Option Int :=
  let n := upper_bound
  if n < 2 then some 0
  else if n = 2 then some 2
  else
    let n' := if Int.tmod n 2 = 0 then n - 1 else n
    find_prime_loop n'.toNat n'

/-! ## ethash: the proof-of-work hash (`crypto/ethash`, `hash.cpp`) -/

/-- `KAWPOW_EPOCH_LENGTH` of `ethash.h`. -/
def KAWPOW_EPOCH_LENGTH : Int := 7500

/-- `union ethash_hash256` of `hash_types.h`, seen through its member `bytes[32]`. -/
abbrev hash256 := Fin 32 → Fin 256

/-- Modelled from the spec: the number a digest denotes when it is read as a
big-endian 256-bit integer (`bytes[0]` is the most significant byte). -/
def beValue (h : hash256) : Nat :=
  (List.finRange 32).foldl (fun acc i => acc * 256 + (h i).val) 0

/-- `struct ethash_result` of `ethash.h`. -/
structure ethash_result where
  final_hash : hash256
  hashMix : hash256

/-- Contents of an epoch context other than its number: the fields
`light_cache_num_items`, `light_cache`, `l1_cache` and `full_dataset_num_items` of
`struct ethash_epoch_context` (`ethash.h`), the caches as the words they hold. -/
structure EpochData where
  light_cache_num_items : Int
  light_cache : List Nat
  l1_cache : List Nat
  full_dataset_num_items : Int

/-- `struct ethash_epoch_context` of `ethash.h`. -/
structure ethash_epoch_context where
  epoch_number : Int
  data : EpochData

/-- Type of `progpow::hash(context, block_number, header_hash, nonce)`; progpow.cpp
is not among the sources, so the function is a parameter of the model. -/
abbrev ProgpowHash := ethash_epoch_context → Int → hash256 → Nat → ethash_result

/-- Modelled from the spec: `progpow::verify(context, block_number, header_hash,
mix_hash, nonce, boundary)` (progpow.cpp is not among the sources). It recomputes
the hash from the context and checks that the mix digest is equal to the claimed
one and that the final digest, read as a big-endian 256-bit integer, is at most
the boundary. -/
def verify (hash : ProgpowHash) (context : ethash_epoch_context) (block_number : Int)
    (header_hash mix_hash : hash256) (nonce : Nat) (boundary : hash256) : Bool :=
  let result := hash context block_number header_hash nonce
  decide (result.hashMix = mix_hash) &&
    decide (beValue result.final_hash ≤ beValue boundary)

/-- Modelled from the spec: `ethash::get_epoch_number` (ethash.hpp is not among the
sources): the height divided by the epoch length 7500. -/
def get_epoch_number (block_number : Int) : Int := Int.tdiv block_number KAWPOW_EPOCH_LENGTH

/-- Modelled from the spec: `ethash::create_epoch_context` (ethash.cpp is not among
the sources). The context is a pure function of the epoch number; `build` stands
for the construction of the caches. -/
def create_epoch_context (build : Int → EpochData) (epoch_number : Int) :
    ethash_epoch_context :=
  { epoch_number := epoch_number, data := build epoch_number }

/-- Fields of `CBlockHeader` read by `ETHash`: the height, the nonce and
`header_hash`, the value of `to_hash256(GetHeaderHash().GetHex())`. -/
structure PowHeader where
  nHeight : Nat
  nNonce : Nat
  header_hash : hash256

/-- What a call of `ETHash` can change: the function-local
`static ethash::epoch_context_ptr context` (`none` is the null pointer it is
initialised with), and the calls of `ethash::create_epoch_context` made so far, as the
epoch numbers passed to it in call order. -/
structure ETHashState where
  context : Option ethash_epoch_context
  created : List Int

/-- The state before the first call of `ETHash`: the static context is null and
`create_epoch_context` has not been called. -/
def ETHashState.init : ETHashState := { context := none, created := [] }

/-- `ETHash(blockHeader, hashMix)` of `hash.cpp`, with the state it reads and writes
threaded through. When the static context is null or holds another epoch number,
`create_epoch_context` is called (the call is recorded) and its result stored in the
static context; otherwise the state is left as it is. The second component is
`result`, computed by `progpow::hash` on the static context; its `final_hash` is
returned and its `hashMix` is stored in the reference argument. -/
def ETHash (build : Int → EpochData) (hash : ProgpowHash)
    (st : ETHashState) (blockHeader : PowHeader) : ETHashState × ethash_result :=
  let epoch_number := get_epoch_number (blockHeader.nHeight : Int)
  let created : ETHashState × ethash_result :=
    ({ context := some (create_epoch_context build epoch_number)
       created := st.created ++ [epoch_number] },
      hash (create_epoch_context build epoch_number) (blockHeader.nHeight : Int)
        blockHeader.header_hash blockHeader.nNonce)
  match st.context with
  | none => created
  | some c =>
    if c.epoch_number ≠ epoch_number then created
    else (st, hash c (blockHeader.nHeight : Int) blockHeader.header_hash blockHeader.nNonce)

/-- A sequence of calls of `ETHash`, each starting from the state the previous one
left: the final state and the results in call order. -/
def ETHashCalls (build : Int → EpochData) (hash : ProgpowHash) :
    ETHashState → List PowHeader → ETHashState × List ethash_result
  | st, [] => (st, [])
  | st, h :: rest =>
    let r := ETHash build hash st h
    let rs := ETHashCalls build hash r.1 rest
    (rs.1, r.2 :: rs.2)

/-! ## Mempool entries and the block template assembler

`txmempool.cpp` and `node/miner.cpp` are not among the sources; the definitions of
this section follow sections 3, 4.4 and 4.5 of the specification, and the fixtures
follow `test/miner_tests.cpp`. -/

/-- Modelled from the spec: a `MempoolEntry` (section 3; `CTxMemPoolEntry` is not
among the sources): the transaction identifier, the declared fee, the fee delta of
prioritisation, the virtual size, the weight, the signature-operation cost, whether
the transaction is final at the prospective height and median time past, and the
identifiers of all its in-mempool ancestors, from which the cached ancestor
aggregates derive. -/
structure MempoolEntry where
  txid : Nat
  nFee : Int
  feeDelta : Int
  vsize : Nat
  weight : Nat
  sigOpCost : Nat
  isFinal : Bool
  ancestors : List Nat
deriving DecidableEq, Repr

/-- Modelled from the spec: the mempool as the list of its entries in admission
order; the position of an entry is its entry sequence number. -/
abbrev Mempool := List MempoolEntry

/-- Modelled from the spec: the contribution of an entry to fee sums, its base fee
plus its prioritisation delta (section 4.4). -/
def MempoolEntry.modifiedFee (e : MempoolEntry) : Int := e.nFee + e.feeDelta

/-- Modelled from the spec: `PrioritiseTransaction(id, fee_delta)` adds `fee_delta`
to the override of the entry with that identifier (section 4.4). -/
def PrioritiseTransaction (pool : Mempool) (txid : Nat) (fee_delta : Int) : Mempool :=
  pool.map fun e => if e.txid = txid then { e with feeDelta := e.feeDelta + fee_delta } else e

/-- Modelled from the spec: the invariants of the mempool graph (sections 3 and
4.4): identifiers are unique, every entry has a positive virtual size, every
ancestor of an entry is in the pool and its own ancestors are ancestors of the entry
too, and no entry is an ancestor of itself or of an entry admitted before it. -/
def Mempool.WellFormed (pool : Mempool) : Prop :=
  (pool.map MempoolEntry.txid).Nodup ∧
    (∀ e ∈ pool, 0 < e.vsize) ∧
    (∀ e ∈ pool, ∀ a ∈ e.ancestors, ∃ u ∈ pool, u.txid = a ∧ ∀ b ∈ u.ancestors, b ∈ e.ancestors) ∧
    (pool.Pairwise fun x y => y.txid ∉ x.ancestors) ∧
    ∀ e ∈ pool, e.txid ∉ e.ancestors

/-- Modelled from the spec: the limits of a template, the block weight and
signature-operation budgets (section 4.5) and the minimum fee rate of a block, in
fee units per 1000 units of virtual size (`blockMinFeeRate` of
`BlockAssembler::Options` in `miner_tests.cpp`). -/
structure Options where
  nBlockMaxWeight : Nat
  nBlockMaxSigOps : Nat
  blockMinFeeRate : Int
deriving DecidableEq, Repr

/-- Modelled from the spec: the package of an entry (section 4.5): the entry plus
its yet-unselected ancestors, in admission order, which is a dependency order. -/
def package (pool : Mempool) (selected : List Nat) (e : MempoolEntry) : List MempoolEntry :=
  pool.filter fun t =>
    (decide (t.txid = e.txid) || decide (t.txid ∈ e.ancestors)) && !decide (t.txid ∈ selected)

/-- Modelled from the spec: fees of the package of an entry, prioritisation deltas
included. -/
def packageFees (pool : Mempool) (selected : List Nat) (e : MempoolEntry) : Int :=
  ((package pool selected e).map MempoolEntry.modifiedFee).sum

/-- Modelled from the spec: virtual size of the package of an entry. -/
def packageSize (pool : Mempool) (selected : List Nat) (e : MempoolEntry) : Nat :=
  ((package pool selected e).map MempoolEntry.vsize).sum

/-- Modelled from the spec: weight of the package of an entry. -/
def packageWeight (pool : Mempool) (selected : List Nat) (e : MempoolEntry) : Nat :=
  ((package pool selected e).map MempoolEntry.weight).sum

/-- Modelled from the spec: signature-operation cost of the package of an entry. -/
def packageSigOps (pool : Mempool) (selected : List Nat) (e : MempoolEntry) : Nat :=
  ((package pool selected e).map MempoolEntry.sigOpCost).sum

/-- A fee rate, fees divided by virtual size, kept as the pair. -/
structure FeeRate where
  fees : Int
  size : Nat
deriving DecidableEq, Repr

/-- The fee rate `a` is at most the fee rate `b`: `a.fees / a.size <= b.fees / b.size`
for positive sizes, compared by cross-multiplication. -/
def FeeRate.le (a b : FeeRate) : Prop := a.fees * b.size ≤ b.fees * a.size

/-- Modelled from the spec: the ancestor fee rate of an entry during assembly
(sections 4.4 and 4.5): the fees of the entry and its yet-unselected ancestors
divided by their virtual size; the contribution of committed entries is excluded. -/
def ancestorFeeRate (pool : Mempool) (selected : List Nat) (e : MempoolEntry) : FeeRate :=
  { fees := packageFees pool selected e, size := packageSize pool selected e }

/-- Modelled from the spec: the entries that can still be selected: not yet in the
template and not marked as not selectable. -/
def candidates (pool : Mempool) (selected failed : List Nat) : List MempoolEntry :=
  pool.filter fun t => !decide (t.txid ∈ selected) && !decide (t.txid ∈ failed)

/-- Choice of the better of the best entry so far and the next candidate: the
candidate replaces it only with a strictly higher ancestor fee rate, so ties go to
the lower entry sequence number (section 4.4). -/
def pickBetter (pool : Mempool) (selected : List Nat) (best : Option MempoolEntry)
    (t : MempoolEntry) : Option MempoolEntry :=
  match best with
  | none => some t
  | some b =>
    if (ancestorFeeRate pool selected b).fees * (ancestorFeeRate pool selected t).size <
        (ancestorFeeRate pool selected t).fees * (ancestorFeeRate pool selected b).size
    then some t else some b

/-- Modelled from the spec: the selectable entry with the best ancestor fee rate
(section 4.5). -/
def bestCandidate (pool : Mempool) (selected failed : List Nat) : Option MempoolEntry :=
  (candidates pool selected failed).foldl (pickBetter pool selected) none

/-- One selection of the assembler: the entry chosen by fee rate, the identifiers
of the package committed with it in block order, and the fee rate of the package at
the time of the selection. -/
structure Selection where
  chosen : Nat
  package : List Nat
  feeRate : FeeRate
deriving DecidableEq, Repr

/-- State of an assembly: the selections made so far in order, the identifiers
marked as not selectable, and the weight and signature-operation cost used. -/
structure AssemblerState where
  selections : List Selection
  failed : List Nat
  nBlockWeight : Nat
  nBlockSigOpsCost : Nat
deriving DecidableEq, Repr

/-- Transactions of the template so far, in block order. -/
def AssemblerState.selected (st : AssemblerState) : List Nat :=
  st.selections.flatMap Selection.package

/-- Modelled from the spec: whether the package of the chosen entry can be committed
(section 4.5): it fits the remaining weight and signature-operation budget, each of
its transactions is final, and its fees reach the minimum fee of the block for its
size (section 8, `miner_tests.cpp`). -/
def testPackage (pool : Mempool) (opts : Options) (st : AssemblerState) (e : MempoolEntry) :
    Bool :=
  decide (st.nBlockWeight + packageWeight pool st.selected e ≤ opts.nBlockMaxWeight) &&
    decide (st.nBlockSigOpsCost + packageSigOps pool st.selected e ≤ opts.nBlockMaxSigOps) &&
    (package pool st.selected e).all MempoolEntry.isFinal &&
    decide (opts.blockMinFeeRate * (packageSize pool st.selected e : Int) / 1000 ≤
      packageFees pool st.selected e)

/-- Modelled from the spec: one round of the assembler (section 4.5): take the
selectable entry with the best ancestor fee rate; commit its package in dependency
order when it passes `testPackage`, otherwise mark the entry as not selectable.
`none` when no selectable entry is left. -/
def selectRound (pool : Mempool) (opts : Options) (st : AssemblerState) :
    Option AssemblerState :=
  match bestCandidate pool st.selected st.failed with
  | none => none
  | some e =>
    if testPackage pool opts st e then
      some { selections := st.selections ++
               [{ chosen := e.txid
                  package := (package pool st.selected e).map MempoolEntry.txid
                  feeRate := ancestorFeeRate pool st.selected e }]
             failed := st.failed
             nBlockWeight := st.nBlockWeight + packageWeight pool st.selected e
             nBlockSigOpsCost := st.nBlockSigOpsCost + packageSigOps pool st.selected e }
    else some { st with failed := e.txid :: st.failed }

/-- Modelled from the spec: rounds of the assembler, at most as many as the first
argument, until no selectable entry is left. -/
def assemble (pool : Mempool) (opts : Options) : Nat → AssemblerState → AssemblerState
  | 0, st => st
  | n + 1, st =>
    match selectRound pool opts st with
    | none => st
    | some st' => assemble pool opts n st'

/-- State of an assembly before the first round. -/
def AssemblerState.init : AssemblerState :=
  { selections := [], failed := [], nBlockWeight := 0, nBlockSigOpsCost := 0 }

/-- Modelled from the spec: the assembly of a template (section 4.5). Every round
commits or marks one more entry, so as many rounds as the pool has entries reach the
end of the selection. -/
def assembleAll (pool : Mempool) (opts : Options) : AssemblerState :=
  assemble pool opts pool.length AssemblerState.init

/-- A transaction of a block template: the coinbase or a mempool transaction. -/
inductive BlockTx where
  | coinbase
  | tx (txid : Nat)
deriving DecidableEq, Repr

/-- Modelled from the spec: `CreateNewBlock`, the coinbase followed by the selected
transactions (`BlockTemplate`, section 3). -/
def CreateNewBlock (pool : Mempool) (opts : Options) : List BlockTx :=
  BlockTx.coinbase :: (assembleAll pool opts).selected.map BlockTx.tx

/-- Options of `AssemblerForTest` in `miner_tests.cpp`: the maximum block weight
4000000, the signature-operation budget 80000 and the minimum fee rate 1000 per
1000 units of virtual size. -/
def testOptions : Options :=
  { nBlockMaxWeight := 4000000, nBlockMaxSigOps := 80000, blockMinFeeRate := 1000 }

/-- An entry of the fixtures of `miner_tests.cpp`: every transaction has one input
and one output, modelled with virtual size 100, weight 400 and signature-operation
cost 4, and is final. -/
def testEntry (txid : Nat) (nFee feeDelta : Int) (ancestors : List Nat) : MempoolEntry :=
  { txid := txid, nFee := nFee, feeDelta := feeDelta, vsize := 100, weight := 400,
    sigOpCost := 4, isFinal := true, ancestors := ancestors }

/-- The first mempool of `TestPackageSelection`: the parent with fee 1000 (1), the
medium-fee transaction with fee 10000 (2) and the child of the parent with fee
50000 (3), in the order of `addUnchecked`. -/
def packageSelectionPool : Mempool :=
  [testEntry 1 1000 0 [], testEntry 2 10000 0 [], testEntry 3 50000 0 [1]]

/-- `COIN` of `consensus/amount.h`. -/
def COIN : Int := 100000000

/-- The mempool of `TestPrioritisedMining` after its calls of
`PrioritiseTransaction`: the free transaction prioritised by `5 * COIN` (1), the
parent with fee 1000 (2), the medium-fee transaction de-prioritised by `5 * COIN`
(3), the child of the parent prioritised by `2 * COIN` (4), and the chain
FreeParent (5, `+10 * COIN`), FreeChild (6, `+1 * COIN`), FreeGrandchild (7). -/
def prioritisedPool : Mempool :=
  [testEntry 1 0 (5 * COIN) [], testEntry 2 1000 0 [], testEntry 3 10000 (-5 * COIN) [],
    testEntry 4 1000 (2 * COIN) [2], testEntry 5 0 (10 * COIN) [],
    testEntry 6 0 (1 * COIN) [5], testEntry 7 0 0 [5, 6]]

/-- The template invariant of dependency order: no identifier is repeated, the
ancestors of a selected transaction are selected, and no transaction is followed by
one of its ancestors. -/
def DependencyOrdered (pool : Mempool) (selected : List Nat) : Prop :=
  selected.Nodup ∧
    (∀ e ∈ pool, e.txid ∈ selected → ∀ a ∈ e.ancestors, a ∈ selected) ∧
    selected.Pairwise fun x y => ∀ e ∈ pool, e.txid = x → y ∉ e.ancestors

/-- The invariant of greedy selection: each selection in the log records the
ancestor fee rate its chosen entry had when it was made, and that rate was at least
the rate, at that time, of every entry that is still selectable and of every entry
chosen by a later selection. -/
def GreedyLog (pool : Mempool) (st : AssemblerState) : Prop :=
  ∀ pre r post, st.selections = pre ++ r :: post →
    (∃ b ∈ pool, b.txid = r.chosen ∧
      r.feeRate = ancestorFeeRate pool (pre.flatMap Selection.package) b) ∧
    (∀ c ∈ candidates pool st.selected st.failed,
      (ancestorFeeRate pool (pre.flatMap Selection.package) c).le r.feeRate) ∧
    ∀ r' ∈ post, ∀ c ∈ pool, c.txid = r'.chosen →
      (ancestorFeeRate pool (pre.flatMap Selection.package) c).le r.feeRate

/-- A mempool in which two children of a free parent compete: the parent with fee 0
(1), a child with fee 10000 (2) and a child with fee 8000 (3). -/
def siblingsPool : Mempool :=
  [testEntry 1 0 0 [], testEntry 2 10000 0 [1], testEntry 3 8000 0 [1]]

/-! ## ethash: bit_manipulation.h -/

/-- Number of values of a `uint32_t` and of an `unsigned int`. -/
def UINT32_MOD : Nat := 2 ^ 32

/-- `a * b` on two `uint32_t`: the operands are not promoted (an `int` has 32 bits),
so the product is reduced modulo `2^32`. -/
def mul32 (a b : Nat) : Nat := (a * b) % UINT32_MOD

/-- `n << c` on a `uint32_t`: not defined for a count of 32 or more (`none`);
otherwise the low 32 bits of the shifted number. -/
def shl32 (n c : Nat) : Option Nat :=
  if c < 32 then some ((n <<< c) % UINT32_MOD) else none

/-- `n >> c` on a `uint32_t`: not defined for a count of 32 or more (`none`). -/
def shr32 (n c : Nat) : Option Nat :=
  if c < 32 then some (n >>> c) else none

/-- `(unsigned int)(-(int)c)` for a count `c` that fits an `int`: the negation is
converted back modulo `2^32`. -/
def neg_c (c : Nat) : Nat := ((-(c : Int)) % 2 ^ 32).toNat

/-- `rotl32` of `bit_manipulation.h`. -/
def rotl32 (n c : Nat) : Option Nat :=
  let mask := 31
  let c := c &&& mask
  match shl32 n c, shr32 n (neg_c c &&& mask) with
  | some hi, some lo => some (hi ||| lo)
  | _, _ => none

/-- `rotr32` of `bit_manipulation.h`. -/
def rotr32 (n c : Nat) : Option Nat :=
  let mask := 31
  let c := c &&& mask
  match shr32 n c, shl32 n (neg_c c &&& mask) with
  | some lo, some hi => some (lo ||| hi)
  | _, _ => none

/-- The constant `fnv_prime` of `bit_manipulation.h`. -/
def fnv_prime : Nat := 0x01000193

/-- `fnv1` of `bit_manipulation.h`: `(u * fnv_prime) ^ v` on `uint32_t`. -/
def fnv1 (u v : Nat) : Nat := mul32 u fnv_prime ^^^ v

/-- `fnv1a` of `bit_manipulation.h`: `(u ^ v) * fnv_prime` on `uint32_t`. -/
def fnv1a (u v : Nat) : Nat := mul32 (u ^^^ v) fnv_prime

/-! ## Further windows, parameters and specification-side definitions -/

/-- Ancestors of the last header of `skewedWindow`. -/
def skewedPrev : Chain :=
  List.replicate 18 { nHeight := 24, nTime := 1712232100, nBits := 0x1f0affff } ++
    [{ nHeight := 6, nTime := 1712232000 + 30, nBits := 0x1f0affff },
      { nHeight := 5, nTime := 5, nBits := 0x1e00ffff }]

/-- A chain seen from a block of height 25 that shares with `testWindow` the `nBits`
of the twenty headers of the window, the time of the last header and the time of
the 19th ancestor; the eighteen headers in between all carry another time, and the
header before the window differs. -/
def skewedWindow : Chain :=
  { nHeight := 25, nTime := 1712232000 + 20 * 30, nBits := 0x1f0affff } :: skewedPrev

/-- The weighted sum `2 * t_1 + t_2 + ... + t_W` of the targets of a window. -/
def weightedSum (chain : Chain) : Nat → Nat
  | 0 => 0
  | 1 => 2 * windowTarget chain 1
  | k + 2 => weightedSum chain (k + 1) + windowTarget chain (k + 2)

/-- The parameters of the regression-test network with a target spacing of one
second instead of sixty. -/
def oneSecondParams : Params :=
  { powLimit := 0x7fffffffffffffffffffffffffffffffffffffffffffffffffffffffffffffff
    fPowAllowMinDifficultyBlocks := true
    fPowNoRetargeting := true
    nPowTargetWindow := 20
    nPowTargetSpacing := 1 }

/-! ## ethash: the calls made by primes.c -/

/-- Values of `d` at which the loop condition of `is_odd_prime` (`primes.c`) is
evaluated, for a loop entered with the divisor `d`; the first argument bounds the
number of evaluations. -/
def is_odd_prime_divisors (number : Int) : Nat → Int → List Int
  | 0, _ => []
  | fuel + 1, d =>
    d :: (if d * d ≤ number then
      if Int.tmod number d = 0 then [] else is_odd_prime_divisors number fuel (d + 2)
    else [])

/-- Arguments with which the `while` loop of `ethash_find_largest_prime` calls
`is_odd_prime`, for a loop entered with `n`; the first argument bounds the number of
calls. -/
def find_prime_candidates : Nat → Int → List Int
  | 0, _ => []
  | fuel + 1, n =>
    n :: (match is_odd_prime n with
      | some false => find_prime_candidates fuel (n - 2)
      | _ => [])

/-! ## Theorems -/

/-! ### The compact codec -/

/-- The scan returns 0 on 0 and otherwise the position of the highest set bit plus one. -/
theorem bitsFrom_spec : ∀ (n a : Nat), a < 2 ^ n →
    (a = 0 ∧ bitsFrom n a = 0) ∨
      (0 < bitsFrom n a ∧ bitsFrom n a ≤ n ∧ 2 ^ (bitsFrom n a - 1) ≤ a ∧ a < 2 ^ bitsFrom n a) := by
  intro n
  induction n with
  | zero =>
    intro a ha
    left
    simp at ha
    simp [ha, bitsFrom]
  | succ n ih =>
    intro a ha
    unfold bitsFrom
    have hpos : 0 < 2 ^ n := Nat.pos_pow_of_pos n (by norm_num)
    have hq : a / 2 ^ n < 2 := by
      rw [Nat.div_lt_iff_lt_mul hpos]
      rw [pow_succ] at ha
      omega
    have hle : 1 ≤ a / 2 ^ n ↔ 2 ^ n ≤ a := by
      rw [Nat.le_div_iff_mul_le hpos]
      simp
    by_cases hbit : a / 2 ^ n % 2 = 1
    · right
      rw [if_pos hbit]
      have h2 : 2 ^ n ≤ a := by
        apply hle.1
        generalize a / 2 ^ n = q at *
        omega
      refine ⟨by omega, le_refl _, ?_, ha⟩
      simpa using h2
    · rw [if_neg hbit]
      have hlt : a < 2 ^ n := by
        by_contra hcon
        have h1 : 1 ≤ a / 2 ^ n := hle.2 (by omega)
        generalize a / 2 ^ n = q at *
        omega
      rcases ih a hlt with h | ⟨h1, h2, h3, h4⟩
      · left; exact h
      · right; exact ⟨h1, by omega, h3, h4⟩

/-- The byte count `(bits + 7) / 8` of a 256-bit number is at most 32 and is the
least number of bytes that hold it. -/
theorem nSize_bounds (x : Nat) (hx : x < 2 ^ 256) :
    (bits x + 7) / 8 ≤ 32 ∧ x < 2 ^ (8 * ((bits x + 7) / 8)) ∧
      (0 < x → 0 < (bits x + 7) / 8 ∧ 2 ^ (8 * ((bits x + 7) / 8 - 1)) ≤ x) := by
  unfold bits
  rcases bitsFrom_spec 256 x hx with ⟨h0, hb⟩ | ⟨h1, h2, h3, h4⟩
  · subst h0
    rw [hb]
    simp
  · generalize bitsFrom 256 x = b at *
    refine ⟨by omega, ?_, fun _ => ⟨by omega, ?_⟩⟩
    · exact lt_of_lt_of_le h4 (Nat.pow_le_pow_right (by norm_num) (by omega))
    · exact le_trans (Nat.pow_le_pow_right (by norm_num) (by omega)) h3

/-- The encoding of a 256-bit number is a mantissa below `2^23` (sign bit clear) and
an exponent byte, and the number they denote does not exceed the encoded number. -/
theorem GetCompact_parts (x : Nat) (hx : x < 2 ^ 256) :
    ∃ c s, GetCompact x false = c + s * 2 ^ 24 ∧ c < 2 ^ 23 ∧ s ≤ 33 ∧ compactNumber c s ≤ x := by
  obtain ⟨hn32, hhi, hlo⟩ := nSize_bounds x hx
  unfold GetCompact
  simp only [Bool.false_and, Bool.false_eq_true, if_false]
  generalize (bits x + 7) / 8 = n at *
  by_cases hn : n ≤ 3
  · simp only [if_pos hn]
    have hx24 : x * 2 ^ (8 * (3 - n)) < 2 ^ 24 := by
      calc x * 2 ^ (8 * (3 - n)) < 2 ^ (8 * n) * 2 ^ (8 * (3 - n)) :=
            Nat.mul_lt_mul_of_pos_right hhi (Nat.pos_pow_of_pos _ (by norm_num))
        _ = 2 ^ 24 := by rw [← pow_add]; congr 1; omega
    have hxs : x < 2 ^ 64 := lt_of_lt_of_le hhi (Nat.pow_le_pow_right (by norm_num) (by omega))
    have e1 : GetLow64 x = x := Nat.mod_eq_of_lt hxs
    have e2 : x * 2 ^ (8 * (3 - n)) % 2 ^ 32 = x * 2 ^ (8 * (3 - n)) :=
      Nat.mod_eq_of_lt (lt_trans hx24 (by norm_num))
    rw [e1, e2]
    have hcancel : x * 2 ^ (8 * (3 - n)) / 2 ^ (8 * (3 - n)) = x :=
      Nat.mul_div_cancel x (Nat.pos_pow_of_pos _ (by norm_num))
    generalize hX : x * 2 ^ (8 * (3 - n)) = X at *
    by_cases hb : X / 2 ^ 23 % 2 = 1
    · simp only [hb, decide_True, if_true]
      refine ⟨X / 2 ^ 8, n + 1, rfl, by omega, by omega, ?_⟩
      unfold compactNumber
      by_cases hn2 : n + 1 ≤ 3
      · rw [if_pos hn2, Nat.div_div_eq_div_mul, ← pow_add]
        have : 8 + 8 * (3 - (n + 1)) = 8 * (3 - n) := by omega
        rw [this, hcancel]
      · rw [if_neg hn2]
        have hn3 : n = 3 := by omega
        subst hn3
        simp at hcancel
        omega
    · simp only [hb, decide_False, if_false]
      refine ⟨X, n, rfl, by omega, by omega, ?_⟩
      unfold compactNumber
      rw [if_pos hn, hcancel]
  · simp only [if_neg hn]
    have hP : 0 < 2 ^ (8 * (n - 3)) := Nat.pos_pow_of_pos _ (by norm_num)
    have hq24 : x / 2 ^ (8 * (n - 3)) < 2 ^ 24 := by
      rw [Nat.div_lt_iff_lt_mul hP, ← pow_add]
      have : 24 + 8 * (n - 3) = 8 * n := by omega
      rw [this]
      exact hhi
    have hqle : x / 2 ^ (8 * (n - 3)) * 2 ^ (8 * (n - 3)) ≤ x := Nat.div_mul_le_self _ _
    have e1 : GetLow64 (arith_shr x (8 * (n - 3))) % 2 ^ 32 = x / 2 ^ (8 * (n - 3)) := by
      unfold GetLow64 arith_shr
      rw [Nat.mod_eq_of_lt (lt_trans hq24 (by norm_num)),
        Nat.mod_eq_of_lt (lt_trans hq24 (by norm_num))]
    rw [e1]
    generalize hq : x / 2 ^ (8 * (n - 3)) = q at *
    by_cases hb : q / 2 ^ 23 % 2 = 1
    · simp only [hb, decide_True, if_true]
      refine ⟨q / 2 ^ 8, n + 1, rfl, by omega, by omega, ?_⟩
      unfold compactNumber
      have hn2 : ¬ n + 1 ≤ 3 := by omega
      rw [if_neg hn2]
      have : 8 * (n + 1 - 3) = 8 + 8 * (n - 3) := by omega
      rw [this, pow_add, ← Nat.mul_assoc]
      have h8 : q / 2 ^ 8 * 2 ^ 8 ≤ q := Nat.div_mul_le_self _ _
      exact le_trans (Nat.mul_le_mul_right _ h8) hqle
    · simp only [hb, decide_False, if_false]
      refine ⟨q, n, rfl, by omega, by omega, ?_⟩
      unfold compactNumber
      rw [if_neg hn]
      exact hqle

/-- Decoding a word made of a 23-bit mantissa and an exponent byte. -/
theorem SetCompact_value_parts (c s : Nat) (hc : c < 2 ^ 23) :
    (SetCompact (c + s * 2 ^ 24)).value =
      if s ≤ 3 then compactNumber c s else compactNumber c s % 2 ^ 256 := by
  have hs : (c + s * 2 ^ 24) / 2 ^ 24 = s := by omega
  have hw : (c + s * 2 ^ 24) % 2 ^ 23 = c := by omega
  unfold SetCompact compactNumber
  simp only [hs, hw]
  by_cases h3 : s ≤ 3
  · simp only [if_pos h3]
  · simp only [if_neg h3, arith_shl, UINT256_MOD]

/-- Decoding the encoding of a 256-bit number rounds down. -/
theorem SetCompact_GetCompact_le (x : Nat) (hx : x < 2 ^ 256) :
    (SetCompact (GetCompact x false)).value ≤ x := by
  obtain ⟨c, s, hcs, hc, _, hle⟩ := GetCompact_parts x hx
  rw [hcs, SetCompact_value_parts c s hc]
  split
  · exact hle
  · exact le_trans (Nat.mod_le _ _) hle

/-! ### The averaging loop and the scaling step -/

/-- One step of the running average, for a counter below `2^32`. -/
theorem avgStep_eq (avg t k : Nat) (hk : k < 2 ^ 32) :
    arith_add (arith_mul32 avg (k : Int)) t = (avg * k + t) % 2 ^ 256 := by
  have hk' : (((k : Nat) : Int) % 2 ^ 32).toNat = k := by
    rw [Int.emod_eq_of_lt (by omega) (by exact_mod_cast hk)]
    simp
  unfold arith_add arith_mul32 UINT256_MOD
  rw [hk', Nat.mod_add_mod]

/-- Invariant of the averaging loop: entered at counter `k` on the `(k-1)`-th
ancestor, it ends on the `(W-1)`-th ancestor, and with the accumulator `A_(k-1)` it
ends with `A_W`. -/
theorem windowLoop_spec (chain : Chain) (Wn : Nat) (hlen : Wn ≤ chain.length) :
    ∀ (n k avg : Nat), 1 ≤ n → 1 ≤ k → k + n = Wn + 1 →
      ∃ a, windowLoop (Wn : Int) n k (chain.drop (k - 1)) avg =
          some (a, chain.drop (Wn - 1)) ∧
        (Wn < 2 ^ 32 → avg = wrappedAverage chain (k - 1) → a = wrappedAverage chain Wn) := by
  intro n
  induction n with
  | zero => intro k avg h; omega
  | succ n ih =>
    intro k avg _ hk hsum
    have hlt : k - 1 < chain.length := by omega
    have hcur : chain[k - 1]? = some chain[k - 1] := List.getElem?_eq_getElem hlt
    have hk1 : k - 1 + 1 = k := by omega
    rw [List.drop_eq_getElem_cons hlt, hk1]
    -- value of the accumulator after the body
    have havg : Wn < 2 ^ 32 → avg = wrappedAverage chain (k - 1) →
        (if k = 1 then (SetCompact chain[k - 1].nBits).value
          else arith_add (arith_mul32 avg (k : Int)) (SetCompact chain[k - 1].nBits).value /
            (k + 1)) = wrappedAverage chain k := by
      intro hW32 hprev
      by_cases h1 : k = 1
      · subst h1
        simp [wrappedAverage, windowTarget]
        cases chain with
        | nil => simp at hlt
        | cons b rest => simp
      · rw [if_neg h1, avgStep_eq _ _ _ (by omega)]
        obtain ⟨j, rfl⟩ : ∃ j, k = j + 2 := ⟨k - 2, by omega⟩
        simp only [wrappedAverage, windowTarget, Nat.add_sub_cancel] at hprev ⊢
        have : j + 2 - 1 = j + 1 := by omega
        simp only [this] at hcur
        rw [hprev]
        simp [hcur, this]
    generalize hA : (if k = 1 then (SetCompact chain[k - 1].nBits).value
          else arith_add (arith_mul32 avg (k : Int)) (SetCompact chain[k - 1].nBits).value /
            (k + 1)) = avg' at havg
    by_cases hlast : k = Wn
    · have hn0 : n = 0 := by omega
      subst hn0
      refine ⟨avg', ?_, fun hW32 hprev => hlast ▸ havg hW32 hprev⟩
      simp only [windowLoop, hA]
      have : ¬ ((k : Int) ≠ (Wn : Int)) := by simp [hlast]
      rw [if_neg this, ← hlast, List.drop_eq_getElem_cons hlt, hk1]
    · have hklt : k < chain.length := by omega
      obtain ⟨a, ha, hspec⟩ := ih (k + 1) avg' (by omega) (by omega) (by omega)
      refine ⟨a, ?_, fun hW32 hprev => hspec hW32 (by simpa using havg hW32 hprev)⟩
      simp only [windowLoop, hA]
      have : (k : Int) ≠ (Wn : Int) := by exact_mod_cast hlast
      rw [if_pos this, List.drop_eq_getElem_cons hklt]
      simp only []
      rw [← List.drop_eq_getElem_cons hklt]
      simpa using ha

/-- The clamped timespan lies in `[T/3, T*3]` when `0 <= T`. -/
theorem clampTimespan_bounds (raw T : Int) (hT : 0 ≤ T) :
    T / 3 ≤ clampTimespan raw T ∧ clampTimespan raw T ≤ T * 3 ∧
      (raw < T / 3 → clampTimespan raw T = T / 3) ∧
      (raw > T * 3 → clampTimespan raw T = T * 3) ∧
      (T / 3 ≤ raw → raw ≤ T * 3 → clampTimespan raw T = raw) := by
  unfold clampTimespan
  rw [Int.tdiv_eq_ediv hT (by norm_num)]
  simp only []
  split_ifs <;> refine ⟨?_, ?_, ?_, ?_, ?_⟩ <;> omega

/-- The scaling step returns when the target timespan is a positive `uint64_t`. -/
theorem scaleTarget_some (params : Params) (a : Nat) (ts : Int)
    (hT0 : 0 < params.nPowTargetWindow * params.nPowTargetSpacing)
    (hT : params.nPowTargetWindow * params.nPowTargetSpacing < 2 ^ 64) :
    scaleTarget params a ts =
      some (GetCompact (min (UintToArith256 params.powLimit)
        (arith_mul32 a ts /
          (params.nPowTargetWindow * params.nPowTargetSpacing).toNat)) false) := by
  unfold scaleTarget arith_div64
  simp only []
  rw [Int.emod_eq_of_lt (le_of_lt hT0) hT]
  have hne : (params.nPowTargetWindow * params.nPowTargetSpacing).toNat ≠ 0 := by omega
  simp only [if_neg hne]
  congr 2
  generalize arith_mul32 a ts / (params.nPowTargetWindow * params.nPowTargetSpacing).toNat = bnNew
  by_cases h : bnNew > UintToArith256 params.powLimit
  · rw [if_pos h, Nat.min_eq_left (Nat.le_of_lt h)]
  · rw [if_neg h, Nat.min_eq_right (Nat.le_of_not_lt h)]

/-- A value returned by the scaling step decodes to at most the power limit. -/
theorem scaleTarget_le (params : Params) (a : Nat) (ts : Int) (r : Nat)
    (hpl : params.powLimit < 2 ^ 256) (h : scaleTarget params a ts = some r) :
    (SetCompact r).value ≤ params.powLimit := by
  unfold scaleTarget at h
  simp only [] at h
  split at h
  · exact absurd h (by simp)
  · rename_i bnNew _
    simp only [Option.some.injEq] at h
    subst h
    unfold UintToArith256
    by_cases hgt : bnNew > params.powLimit
    · rw [if_pos hgt]
      exact SetCompact_GetCompact_le _ hpl
    · rw [if_neg hgt]
      exact le_trans (SetCompact_GetCompact_le _ (by omega)) (by omega)

/-- Outside the bootstrap case `CalculateNextWorkRequired` is the scaling step
applied to the result of the loop and the clamped raw timespan. -/
theorem CalculateNextWorkRequired_window (last : CBlockIndex) (pprev : Chain) (params : Params)
    (hW : 0 < params.nPowTargetWindow) (hH : params.nPowTargetWindow ≤ last.nHeight)
    (hlen : params.nPowTargetWindow ≤ ((last :: pprev).length : Int)) :
    ∃ a tail, windowLoop params.nPowTargetWindow params.nPowTargetWindow.toNat 1
          (last :: pprev) 0 = some (a, tail) ∧
        (params.nPowTargetWindow.toNat < 2 ^ 32 →
          a = wrappedAverage (last :: pprev) params.nPowTargetWindow.toNat) ∧
        CalculateNextWorkRequired (last :: pprev) params =
          scaleTarget params a
            (clampTimespan (rawTimespan (last :: pprev) params.nPowTargetWindow.toNat)
              (params.nPowTargetWindow * params.nPowTargetSpacing)) := by
  obtain ⟨Wn, hWn⟩ : ∃ Wn : Nat, params.nPowTargetWindow = (Wn : Int) :=
    ⟨params.nPowTargetWindow.toNat, (Int.toNat_of_nonneg (le_of_lt hW)).symm⟩
  have hlenN : Wn ≤ (last :: pprev).length := by
    rw [hWn] at hlen
    exact_mod_cast hlen
  have hpos : 1 ≤ Wn := by omega
  obtain ⟨a, ha, hspec⟩ := windowLoop_spec (last :: pprev) Wn hlenN Wn 1 0 hpos (le_refl 1) (by omega)
  have hlt : Wn - 1 < (last :: pprev).length := by omega
  rw [List.drop_eq_getElem_cons hlt] at ha
  simp only [Nat.sub_self, List.drop_zero] at ha
  have hToNat : params.nPowTargetWindow.toNat = Wn := by omega
  refine ⟨a, _, by rw [hToNat, hWn]; exact ha, ?_, ?_⟩
  · intro h32
    rw [hToNat] at h32 ⊢
    exact hspec h32 rfl
  · unfold CalculateNextWorkRequired
    simp only [if_neg (not_lt.mpr hH)]
    rw [hToNat, hWn, ha]
    simp only [rawTimespan, List.getElem?_cons_zero, List.getElem?_eq_getElem hlt]

/-! ### Claims -/

/-- C1: `CheckProofOfWork(hash, nBits, params)` returns true if and only if the
target decoded from `nBits` is not negative, is non-zero, does not overflow, is not
greater than `params.powLimit`, and `hash` read as an unsigned integer is less than
or equal to that target. -/
theorem CheckProofOfWork_iff (hash nBits : Nat) (params : Params) :
    CheckProofOfWork hash nBits params = true ↔
      ((SetCompact nBits).fNegative = false ∧ (SetCompact nBits).value ≠ 0 ∧
        (SetCompact nBits).fOverflow = false ∧
        (SetCompact nBits).value ≤ UintToArith256 params.powLimit ∧
        UintToArith256 hash ≤ (SetCompact nBits).value) := by
  unfold CheckProofOfWork
  simp only []
  generalize SetCompact nBits = t
  rcases t with ⟨value, fNegative, fOverflow⟩
  cases fNegative <;> cases fOverflow
  · simp
    omega
  · simp
  · simp
  · simp

/-- C2 as stated fails: on the regression-test parameters (window 20, spacing 60,
power limit `0x7fff...ff`) a chain whose headers all carry `nBits = 0x207fffff`
makes `avg * k + target` pass `2^256` already at `k = 2`; the function returns
`0x1f07cc56`, while the recurrence taken over the unbounded integers gives
`0x20799998`. -/
theorem CalculateNextWorkRequired_exact_counterexample :
    ¬ ∀ (last : CBlockIndex) (pprev : Chain) (params : Params),
      0 < params.nPowTargetWindow → 0 < params.nPowTargetSpacing →
      params.nPowTargetWindow * params.nPowTargetSpacing * 3 < 2 ^ 32 →
      params.nPowTargetWindow ≤ last.nHeight →
      params.nPowTargetWindow ≤ ((last :: pprev).length : Int) →
      CalculateNextWorkRequired (last :: pprev) params =
        some (GetCompact (min (UintToArith256 params.powLimit)
          (exactAverage (last :: pprev) params.nPowTargetWindow.toNat *
              (clampTimespan (rawTimespan (last :: pprev) params.nPowTargetWindow.toNat)
                (params.nPowTargetWindow * params.nPowTargetSpacing)).toNat /
            (params.nPowTargetWindow * params.nPowTargetSpacing).toNat)) false) := by
  intro h
  have := h { nHeight := 20, nTime := 1712232000 + 20 * 60, nBits := 0x207fffff }
    (uniformChain 1712232000 60 0x207fffff 19) regtestParams
    (by decide) (by decide) (by decide) (by decide) (by decide)
  revert this
  decide

/-- C2 (amended): for a chain with `pindexLast->nHeight >= W` that holds the `W`
headers of the window, with `0 < W`, `0 < S` and `3 * W * S < 2^32`,
`CalculateNextWorkRequired` equals
`GetCompact(min(powLimit, floor(((A_W * ts) mod 2^256) / (W * S))))`, where
`A_1 = t_1`, `A_k = floor(((A_(k-1) * k + t_k) mod 2^256) / (k + 1))` and `ts` is
the raw timespan clamped to `[W*S/3, W*S*3]`. -/
theorem CalculateNextWorkRequired_eq (last : CBlockIndex) (pprev : Chain) (params : Params)
    (hW : 0 < params.nPowTargetWindow) (hS : 0 < params.nPowTargetSpacing)
    (hT : params.nPowTargetWindow * params.nPowTargetSpacing * 3 < 2 ^ 32)
    (hH : params.nPowTargetWindow ≤ last.nHeight)
    (hlen : params.nPowTargetWindow ≤ ((last :: pprev).length : Int)) :
    CalculateNextWorkRequired (last :: pprev) params =
      some (GetCompact (min (UintToArith256 params.powLimit)
        ((wrappedAverage (last :: pprev) params.nPowTargetWindow.toNat *
              (clampTimespan (rawTimespan (last :: pprev) params.nPowTargetWindow.toNat)
                (params.nPowTargetWindow * params.nPowTargetSpacing)).toNat) % 2 ^ 256 /
          (params.nPowTargetWindow * params.nPowTargetSpacing).toNat)) false) := by
  have hWT : params.nPowTargetWindow ≤ params.nPowTargetWindow * params.nPowTargetSpacing :=
    le_mul_of_one_le_right (le_of_lt hW) hS
  have hT0 : 0 < params.nPowTargetWindow * params.nPowTargetSpacing := mul_pos hW hS
  obtain ⟨a, tail, _, ha, hcalc⟩ := CalculateNextWorkRequired_window last pprev params hW hH hlen
  rw [hcalc, scaleTarget_some params _ _ hT0 (by omega), ha (by omega)]
  obtain ⟨hlo, hhi, _⟩ := clampTimespan_bounds
    (rawTimespan (last :: pprev) params.nPowTargetWindow.toNat)
    (params.nPowTargetWindow * params.nPowTargetSpacing) (le_of_lt hT0)
  generalize clampTimespan (rawTimespan (last :: pprev) params.nPowTargetWindow.toNat)
    (params.nPowTargetWindow * params.nPowTargetSpacing) = ts at hlo hhi
  have hts : ts % 2 ^ 32 = ts := Int.emod_eq_of_lt (by omega) (by omega)
  unfold arith_mul32 UINT256_MOD
  rw [hts]

/-- Instance of C2 (amended), the test vector of `pow_tests.cpp`: on the main
network twenty-one headers with `nBits = 0x1f0affff` spaced 30 seconds apart give
`0x1f053999`. -/
theorem CalculateNextWorkRequired_eq_witness :
    CalculateNextWorkRequired testWindow mainParams = some 0x1f053999 :=
  (CalculateNextWorkRequired_eq
    { nHeight := 20, nTime := 1712232000 + 20 * 30, nBits := 0x1f0affff }
    (uniformChain 1712232000 30 0x1f0affff 19) mainParams
    (by decide) (by decide) (by decide) (by decide) (by decide)).trans (by decide)

/-- C3: for a window (`pindexLast->nHeight >= W`, `0 < W`, `0 < S`, no `int64_t`
overflow in `W * S * 3`) whose raw timespan is below `W*S/3`, the result of
`CalculateNextWorkRequired` is the result computed with the timespan `W*S/3`; when
the raw timespan is above `W*S*3` it is the result computed with `W*S*3`; and both
results exist. -/
theorem CalculateNextWorkRequired_clamped (last : CBlockIndex) (pprev : Chain)
    (params : Params)
    (hW : 0 < params.nPowTargetWindow) (hS : 0 < params.nPowTargetSpacing)
    (hT : params.nPowTargetWindow * params.nPowTargetSpacing * 3 < 2 ^ 63)
    (hH : params.nPowTargetWindow ≤ last.nHeight)
    (hlen : params.nPowTargetWindow ≤ ((last :: pprev).length : Int)) :
    (rawTimespan (last :: pprev) params.nPowTargetWindow.toNat <
          Int.tdiv (params.nPowTargetWindow * params.nPowTargetSpacing) 3 →
        CalculateNextWorkRequired (last :: pprev) params =
          CalculateWithTimespan (last :: pprev) params
            (Int.tdiv (params.nPowTargetWindow * params.nPowTargetSpacing) 3)) ∧
      (rawTimespan (last :: pprev) params.nPowTargetWindow.toNat >
          params.nPowTargetWindow * params.nPowTargetSpacing * 3 →
        CalculateNextWorkRequired (last :: pprev) params =
          CalculateWithTimespan (last :: pprev) params
            (params.nPowTargetWindow * params.nPowTargetSpacing * 3)) ∧
      (∃ r, CalculateNextWorkRequired (last :: pprev) params = some r) ∧
      ∀ ts, ∃ r, CalculateWithTimespan (last :: pprev) params ts = some r := by
  have hT0 : 0 < params.nPowTargetWindow * params.nPowTargetSpacing := mul_pos hW hS
  obtain ⟨a, tail, hloop, _, hcalc⟩ :=
    CalculateNextWorkRequired_window last pprev params hW hH hlen
  obtain ⟨_, _, hlow, hhigh, _⟩ := clampTimespan_bounds
    (rawTimespan (last :: pprev) params.nPowTargetWindow.toNat)
    (params.nPowTargetWindow * params.nPowTargetSpacing) (le_of_lt hT0)
  have hwith : ∀ ts, CalculateWithTimespan (last :: pprev) params ts =
      scaleTarget params a ts := by
    intro ts
    unfold CalculateWithTimespan
    rw [hloop]
  rw [Int.tdiv_eq_ediv (le_of_lt hT0) (by norm_num)]
  refine ⟨fun h => ?_, fun h => ?_, ?_, fun ts => ?_⟩
  · rw [hcalc, hwith, hlow h]
  · rw [hcalc, hwith, hhigh h]
  · rw [hcalc, scaleTarget_some params _ _ hT0 (by omega)]
    exact ⟨_, rfl⟩
  · rw [hwith, scaleTarget_some params _ _ hT0 (by omega)]
    exact ⟨_, rfl⟩

/-- Instance of C3 on the main network: headers 10 seconds apart have the raw
timespan 190 < 400 = 1200/3, and the result is the one computed with 400. -/
theorem CalculateNextWorkRequired_clamped_witness :
    CalculateNextWorkRequired (uniformChain 1712232000 10 0x1f0affff 20) mainParams =
      CalculateWithTimespan (uniformChain 1712232000 10 0x1f0affff 20) mainParams 400 :=
  (CalculateNextWorkRequired_clamped
    { nHeight := 20, nTime := 1712232000 + 20 * 10, nBits := 0x1f0affff }
    (uniformChain 1712232000 10 0x1f0affff 19) mainParams
    (by decide) (by decide) (by decide) (by decide) (by decide)).1 (by decide)

/-- C4: for every chain and every parameters with a 256-bit power limit, the target
decoded from a value returned by `CalculateNextWorkRequired` is at most
`params.powLimit`; and a value is returned whenever `0 < W`, `0 < S`, `W * S * 3`
does not overflow `int64_t` and the chain holds the `W` headers of the window
when it is not in the bootstrap case. -/
theorem CalculateNextWorkRequired_le_powLimit (pindexLast : Chain) (params : Params)
    (hpl : params.powLimit < 2 ^ 256) :
    (∀ r, CalculateNextWorkRequired pindexLast params = some r →
        (SetCompact r).value ≤ params.powLimit) ∧
      (0 < params.nPowTargetWindow → 0 < params.nPowTargetSpacing →
        params.nPowTargetWindow * params.nPowTargetSpacing * 3 < 2 ^ 63 →
        (∀ last ∈ pindexLast.head?, params.nPowTargetWindow ≤ last.nHeight →
          params.nPowTargetWindow ≤ (pindexLast.length : Int)) →
        ∃ r, CalculateNextWorkRequired pindexLast params = some r) := by
  have hboot : (SetCompact (GetCompact (UintToArith256 params.powLimit) false)).value ≤
      params.powLimit := SetCompact_GetCompact_le _ hpl
  constructor
  · intro r hr
    unfold CalculateNextWorkRequired at hr
    simp only [] at hr
    split at hr
    · simp only [Option.some.injEq] at hr
      subst hr
      exact hboot
    · split at hr
      · simp only [Option.some.injEq] at hr
        subst hr
        exact hboot
      · split at hr
        · exact absurd hr (by simp)
        · exact absurd hr (by simp)
        · exact scaleTarget_le params _ _ r hpl hr
  · intro hW hS hT hchain
    cases pindexLast with
    | nil => exact ⟨_, rfl⟩
    | cons last pprev =>
      by_cases hH : last.nHeight < params.nPowTargetWindow
      · exact ⟨GetCompact (UintToArith256 params.powLimit) false,
          by simp [CalculateNextWorkRequired, hH]⟩
      · have hlen := hchain last (by simp) (not_lt.mp hH)
        obtain ⟨a, tail, _, _, hcalc⟩ :=
          CalculateNextWorkRequired_window last pprev params hW (not_lt.mp hH) hlen
        rw [hcalc, scaleTarget_some params _ _ (mul_pos hW hS) (by omega)]
        exact ⟨_, rfl⟩

/-- Instance of C4 on the test vector of `pow_tests.cpp`: the returned
`0x1f053999` decodes to a target below the main-net power limit. -/
theorem CalculateNextWorkRequired_le_powLimit_witness :
    (SetCompact 0x1f053999).value ≤ mainParams.powLimit :=
  (CalculateNextWorkRequired_le_powLimit testWindow mainParams (by decide)).1 0x1f053999
    (by decide)

/-- C5: `CalculateNextWorkRequired` returns the compact encoding of
`params.powLimit`, whatever the `nBits` and timestamps of the chain, whenever
`pindexLast` is null or `pindexLast->nHeight + 1 < nPowTargetWindow`. -/
theorem CalculateNextWorkRequired_bootstrap (pindexLast : Chain) (params : Params)
    (h : ∀ last ∈ pindexLast.head?, last.nHeight + 1 < params.nPowTargetWindow) :
    CalculateNextWorkRequired pindexLast params =
      some (GetCompact (UintToArith256 params.powLimit) false) := by
  cases pindexLast with
  | nil => rfl
  | cons last rest =>
    have hlt : last.nHeight < params.nPowTargetWindow := by
      have := h last (by simp)
      omega
    simp [CalculateNextWorkRequired, hlt]

/-- Instance of C5 on the main network: a chain of height 18 gives the encoding
`0x1f0affff` of the main-net power limit. -/
theorem CalculateNextWorkRequired_bootstrap_witness :
    CalculateNextWorkRequired (uniformChain 1712232000 30 0x1e00ffff 18) mainParams =
      some (GetCompact (UintToArith256 mainParams.powLimit) false) :=
  CalculateNextWorkRequired_bootstrap (uniformChain 1712232000 30 0x1e00ffff 18) mainParams
    (by decide)

/-- C6 (failing input): with the main-net parameters the transition from
`0x1d00ffff` to `0x1e00ffff` is permitted although the new target is 256 times
the old target; the function compares the compact words, not the targets. -/
theorem PermittedDifficultyTransition_accepts_256x :
    PermittedDifficultyTransition mainParams 0x1d00ffff 0x1e00ffff = true ∧
      (SetCompact 0x1e00ffff).value = 256 * (SetCompact 0x1d00ffff).value ∧
      (SetCompact 0x1e00ffff).value ≤ UintToArith256 mainParams.powLimit := by
  decide

/-- C7 (failing input): with the main-net parameters a new compact word
`0x2000ffff`, whose target exceeds the power limit, is permitted. -/
theorem PermittedDifficultyTransition_accepts_above_powLimit :
    PermittedDifficultyTransition mainParams 0x2000ffff 0x2000ffff = true ∧
      (SetCompact 0x2000ffff).value > UintToArith256 mainParams.powLimit := by
  decide

/-- C8: when `params.fPowNoRetargeting` is set, `GetNextWorkRequired` returns
`pindexLast->nBits` unchanged, for every non-null `pindexLast` and `pblock` and
whatever the other parameters are. -/
theorem GetNextWorkRequired_noRetargeting (last : CBlockIndex) (pprev : Chain)
    (blk : CBlockHeader) (params : Params) (h : params.fPowNoRetargeting = true) :
    GetNextWorkRequired (last :: pprev) (some blk) params = some last.nBits := by
  simp [GetNextWorkRequired, h]

/-- Instance of C8 on the regression-test network. -/
theorem GetNextWorkRequired_noRetargeting_witness :
    GetNextWorkRequired
        ({ nHeight := 1, nTime := 1712232060, nBits := 0x207fffff } ::
          [{ nHeight := 0, nTime := 1712232000, nBits := 0x207fffff }])
        (some { nTime := 1712239999, nBits := 0 }) regtestParams = some 0x207fffff :=
  GetNextWorkRequired_noRetargeting _ _ _ regtestParams rfl

/-- C9 as stated fails: on the test network, with a last block whose `nBits` is
`0x20333334` (target `0x333334 * 2^232`), ten times the target passes `2^256`; the
product wraps to `2^235`, which is below the power limit, and the function returns
its encoding `0x1e080000` instead of the encoding of the power limit. -/
theorem GetNextWorkRequired_minDifficulty_counterexample :
    ¬ ∀ (last : CBlockIndex) (pprev : Chain) (blk : CBlockHeader) (params : Params),
      params.fPowNoRetargeting = false → params.fPowAllowMinDifficultyBlocks = true →
      blk.GetBlockTime > last.GetBlockTime + 5 * params.nPowTargetSpacing →
      GetNextWorkRequired (last :: pprev) (some blk) params =
        some (GetCompact (min (10 * (SetCompact last.nBits).value)
          (UintToArith256 params.powLimit)) false) := by
  intro h
  have := h { nHeight := 0, nTime := 1712232000, nBits := 0x20333334 } []
    { nTime := 1712232301, nBits := 0 } testnetParams rfl rfl (by decide)
  revert this
  decide

/-- C9 (amended): when `fPowNoRetargeting` is clear, `fPowAllowMinDifficultyBlocks`
is set and the time of `pblock` exceeds that of `pindexLast` by more than
`5 * nPowTargetSpacing`, `GetNextWorkRequired` returns
`GetCompact(min((10 * T_last) mod 2^256, powLimit))`. -/
theorem GetNextWorkRequired_minDifficulty (last : CBlockIndex) (pprev : Chain)
    (blk : CBlockHeader) (params : Params)
    (hno : params.fPowNoRetargeting = false)
    (hmin : params.fPowAllowMinDifficultyBlocks = true)
    (ht : blk.GetBlockTime > last.GetBlockTime + 5 * params.nPowTargetSpacing) :
    GetNextWorkRequired (last :: pprev) (some blk) params =
      some (GetCompact (min ((10 * (SetCompact last.nBits).value) % 2 ^ 256)
        (UintToArith256 params.powLimit)) false) := by
  have ht' : blk.GetBlockTime > last.GetBlockTime + params.nPowTargetSpacing * 5 := by omega
  have hmul : arith_mul32 (SetCompact last.nBits).value 10 =
      (10 * (SetCompact last.nBits).value) % 2 ^ 256 := by
    simp [arith_mul32, UINT256_MOD, Nat.mul_comm]
  simp only [GetNextWorkRequired, hno, hmin, ht', hmul]
  generalize (10 * (SetCompact last.nBits).value) % 2 ^ 256 = bnNew
  by_cases hgt : bnNew > UintToArith256 params.powLimit
  · simp [hgt, Nat.min_eq_right (Nat.le_of_lt hgt)]
  · simp [hgt, Nat.min_eq_left (Nat.le_of_not_lt hgt)]

/-- Instance of C9 (amended) on the test network: last target `0xffff * 2^216`,
new block 301 s later, result `0x1e09fff6`. -/
theorem GetNextWorkRequired_minDifficulty_witness :
    GetNextWorkRequired [{ nHeight := 0, nTime := 1712232000, nBits := 0x1e00ffff }]
        (some { nTime := 1712232301, nBits := 0 }) testnetParams =
      some (GetCompact (min ((10 * (SetCompact 0x1e00ffff).value) % 2 ^ 256)
        (UintToArith256 testnetParams.powLimit)) false) :=
  GetNextWorkRequired_minDifficulty _ _ _ testnetParams rfl rfl (by decide)

/-- C10 (failing input): on the test network a block 1801 s (more than
`30 * nPowTargetSpacing`) after a last block with `nBits = 0x1e00ffff` gets
`0x1e09fff6`, ten times the last target, and not the encoding `0x1f0affff` of the
power limit: the 5x rule is tested first and returns. -/
theorem GetNextWorkRequired_30x_returns_10x :
    testnetParams.fPowNoRetargeting = false ∧
      testnetParams.fPowAllowMinDifficultyBlocks = true ∧
      ((1712233500 + 1801 : Nat) : Int) >
        ((1712233500 : Nat) : Int) + 30 * testnetParams.nPowTargetSpacing ∧
      GetNextWorkRequired (uniformChain 1712232000 60 0x1e00ffff 25)
        (some { nTime := 1712233500 + 1801, nBits := 0 }) testnetParams = some 0x1e09fff6 ∧
      GetCompact (UintToArith256 testnetParams.powLimit) false = 0x1f0affff := by
  decide

/-- The value decoded by `SetCompact` is zero when the mantissa, shifted as for a
size of at most three bytes, is zero. -/
theorem SetCompact_value_zero_of_word_zero (nBits : Nat)
    (h : (if nBits / 2 ^ 24 ≤ 3 then nBits % 2 ^ 23 / 2 ^ (8 * (3 - nBits / 2 ^ 24))
      else nBits % 2 ^ 23) = 0) : (SetCompact nBits).value = 0 := by
  unfold SetCompact
  simp only []
  by_cases h3 : nBits / 2 ^ 24 ≤ 3
  · rw [if_pos h3] at h
    rw [if_pos h3, if_pos h3]
    exact h
  · rw [if_neg h3] at h
    rw [if_neg h3, h]
    simp [arith_shl]

/-- C11: a structurally invalid compact target is rejected whatever the hash and the
parameters: `CheckProofOfWork` returns false when `nBits` has the sign bit
`0x00800000` set, when it decodes to the zero target, and when it decodes with
overflow. -/
theorem CheckProofOfWork_rejects_invalid (hash nBits : Nat) (params : Params)
    (h : nBits / 2 ^ 23 % 2 = 1 ∨ (SetCompact nBits).value = 0 ∨
      (SetCompact nBits).fOverflow = true) :
    CheckProofOfWork hash nBits params = false := by
  have hzero : (SetCompact nBits).fNegative = true ∨ (SetCompact nBits).value = 0 ∨
      (SetCompact nBits).fOverflow = true := by
    rcases h with hs | hz | ho
    · by_cases hw : (if nBits / 2 ^ 24 ≤ 3 then nBits % 2 ^ 23 / 2 ^ (8 * (3 - nBits / 2 ^ 24))
          else nBits % 2 ^ 23) = 0
      · exact Or.inr (Or.inl (SetCompact_value_zero_of_word_zero nBits hw))
      · left
        unfold SetCompact
        simp only [hs, decide_True, Bool.and_true, decide_eq_true_eq]
        exact hw
    · exact Or.inr (Or.inl hz)
    · exact Or.inr (Or.inr ho)
  unfold CheckProofOfWork
  simp only []
  generalize SetCompact nBits = t at hzero
  rcases t with ⟨value, fNegative, fOverflow⟩
  rcases hzero with h1 | h1 | h1 <;> simp only [] at h1 <;> simp [h1]

/-- Instance of C11: the overflowing word `0xff7fffff` of `pow_tests.cpp` is rejected
with the zero hash on the main network. -/
theorem CheckProofOfWork_rejects_invalid_witness :
    CheckProofOfWork 0 0xff7fffff mainParams = false :=
  CheckProofOfWork_rejects_invalid 0 0xff7fffff mainParams (Or.inr (Or.inr (by decide)))

/-- The byte count of a number is determined by the powers of 256 around it. -/
theorem size_unique (y n : Nat) (hn : 1 ≤ n) (hn32 : n ≤ 32)
    (hlo : 2 ^ (8 * (n - 1)) ≤ y) (hhi : y < 2 ^ (8 * n)) : (bits y + 7) / 8 = n := by
  have hy : y < 2 ^ 256 :=
    lt_of_lt_of_le hhi (Nat.pow_le_pow_right (by norm_num) (by omega))
  have hpos : 0 < y := lt_of_lt_of_le (Nat.pos_pow_of_pos _ (by norm_num)) hlo
  unfold bits
  rcases bitsFrom_spec 256 y hy with ⟨h0, _⟩ | ⟨h1, _, h3, h4⟩
  · omega
  · generalize bitsFrom 256 y = b at *
    have ha : 8 * (n - 1) < b :=
      (Nat.pow_lt_pow_iff_right (by norm_num : 1 < 2)).1 (lt_of_le_of_lt hlo h4)
    have hb : b - 1 < 8 * n :=
      (Nat.pow_lt_pow_iff_right (by norm_num : 1 < 2)).1 (lt_of_le_of_lt h3 hhi)
    omega

/-- The encoding of a 256-bit number is the word built from its byte count and its
top three bytes. -/
theorem GetCompact_form (x : Nat) (hx : x < 2 ^ 256) :
    GetCompact x false =
      encodeMantissa ((bits x + 7) / 8)
        (if (bits x + 7) / 8 ≤ 3 then x * 2 ^ (8 * (3 - (bits x + 7) / 8))
          else x / 2 ^ (8 * ((bits x + 7) / 8 - 3))) ∧
      (if (bits x + 7) / 8 ≤ 3 then x * 2 ^ (8 * (3 - (bits x + 7) / 8))
          else x / 2 ^ (8 * ((bits x + 7) / 8 - 3))) < 2 ^ 24 := by
  obtain ⟨hn32, hhi, _⟩ := nSize_bounds x hx
  unfold GetCompact encodeMantissa
  simp only [Bool.false_and, Bool.false_eq_true, if_false]
  generalize (bits x + 7) / 8 = n at *
  by_cases hn : n ≤ 3
  · simp only [if_pos hn]
    have hx24 : x * 2 ^ (8 * (3 - n)) < 2 ^ 24 := by
      calc x * 2 ^ (8 * (3 - n)) < 2 ^ (8 * n) * 2 ^ (8 * (3 - n)) :=
            Nat.mul_lt_mul_of_pos_right hhi (Nat.pos_pow_of_pos _ (by norm_num))
        _ = 2 ^ 24 := by rw [← pow_add]; congr 1; omega
    have hxs : x < 2 ^ 64 := lt_of_lt_of_le hhi (Nat.pow_le_pow_right (by norm_num) (by omega))
    have e1 : GetLow64 x = x := Nat.mod_eq_of_lt hxs
    have e2 : x * 2 ^ (8 * (3 - n)) % 2 ^ 32 = x * 2 ^ (8 * (3 - n)) :=
      Nat.mod_eq_of_lt (lt_trans hx24 (by norm_num))
    rw [e1, e2]
    refine ⟨?_, hx24⟩
    generalize x * 2 ^ (8 * (3 - n)) = X
    by_cases hb : X / 2 ^ 23 % 2 = 1
    · simp only [hb, decide_True, if_true]
    · simp only [hb, decide_False, Bool.false_eq_true, if_false]
  · simp only [if_neg hn]
    have hP : 0 < 2 ^ (8 * (n - 3)) := Nat.pos_pow_of_pos _ (by norm_num)
    have hq24 : x / 2 ^ (8 * (n - 3)) < 2 ^ 24 := by
      rw [Nat.div_lt_iff_lt_mul hP, ← pow_add]
      have : 24 + 8 * (n - 3) = 8 * n := by omega
      rw [this]
      exact hhi
    have e1 : GetLow64 (arith_shr x (8 * (n - 3))) % 2 ^ 32 = x / 2 ^ (8 * (n - 3)) := by
      unfold GetLow64 arith_shr
      rw [Nat.mod_eq_of_lt (lt_trans hq24 (by norm_num)),
        Nat.mod_eq_of_lt (lt_trans hq24 (by norm_num))]
    rw [e1]
    refine ⟨?_, hq24⟩
    generalize x / 2 ^ (8 * (n - 3)) = q
    by_cases hb : q / 2 ^ 23 % 2 = 1
    · simp only [hb, decide_True, if_true]
    · simp only [hb, decide_False, Bool.false_eq_true, if_false]
/-- Decoding a word made of a mantissa below `2^23` and an exponent byte of at most
33 (with a mantissa below `2^16` for 33): the sign bit is clear, no flag is raised
and the value is the number the two parts denote. -/
theorem SetCompact_parts (c s : Nat) (hc : c < 2 ^ 23) (hs : s ≤ 33)
    (hc33 : s = 33 → c < 2 ^ 16) :
    (c + s * 2 ^ 24) / 2 ^ 23 % 2 = 0 ∧
      (SetCompact (c + s * 2 ^ 24)).fNegative = false ∧
      (SetCompact (c + s * 2 ^ 24)).fOverflow = false ∧
      (SetCompact (c + s * 2 ^ 24)).value = compactNumber c s := by
  have hsign : (c + s * 2 ^ 24) / 2 ^ 23 % 2 = 0 := by omega
  have hsz : (c + s * 2 ^ 24) / 2 ^ 24 = s := by omega
  have hw : (c + s * 2 ^ 24) % 2 ^ 23 = c := by omega
  refine ⟨hsign, ?_, ?_, ?_⟩
  · unfold SetCompact
    simp only [hsign]
    simp
  · unfold SetCompact
    simp only [hsz, hw]
    by_cases h3 : s ≤ 3
    · have h1 : ¬ s > 34 := by omega
      have h2 : ¬ s > 33 := by omega
      have h4 : ¬ s > 32 := by omega
      simp [h1, h2, h4]
    · have h1 : ¬ s > 34 := by omega
      have h2 : ¬ s > 33 := by omega
      simp only [if_neg h3, h1, h2, decide_False, Bool.and_false, Bool.false_or,
        Bool.and_eq_false_imp, Bool.and_eq_true, decide_eq_true_eq, decide_eq_false_iff_not]
      intro _ hbig hs32
      have : s = 33 := by omega
      have := hc33 this
      omega
  · rw [SetCompact_value_parts c s hc]
    by_cases h3 : s ≤ 3
    · rw [if_pos h3]
    · rw [if_neg h3]
      apply Nat.mod_eq_of_lt
      unfold compactNumber
      rw [if_neg h3]
      by_cases h33 : s = 33
      · subst h33
        have := hc33 rfl
        calc c * 2 ^ (8 * (33 - 3)) < 2 ^ 16 * 2 ^ (8 * (33 - 3)) :=
              Nat.mul_lt_mul_of_pos_right this (Nat.pos_pow_of_pos _ (by norm_num))
          _ = 2 ^ 256 := by norm_num
      · calc c * 2 ^ (8 * (s - 3)) < 2 ^ 23 * 2 ^ (8 * (s - 3)) :=
              Nat.mul_lt_mul_of_pos_right hc (Nat.pos_pow_of_pos _ (by norm_num))
          _ = 2 ^ (23 + 8 * (s - 3)) := by rw [← pow_add]
          _ ≤ 2 ^ 256 := Nat.pow_le_pow_right (by norm_num) (by omega)

/-- The word built from a byte count of at most 32 and a 24-bit mantissa, split
into the mantissa and the exponent byte it stores. -/
theorem encodeMantissa_parts (n m : Nat) (hn : n ≤ 32) (hm : m < 2 ^ 24) :
    ∃ c s, encodeMantissa n m = c + s * 2 ^ 24 ∧ c < 2 ^ 23 ∧ s ≤ 33 ∧
      (s = 33 → c < 2 ^ 16) ∧
      ((m / 2 ^ 23 % 2 = 1 ∧ c = m / 2 ^ 8 ∧ s = n + 1) ∨
        (m < 2 ^ 23 ∧ c = m ∧ s = n)) := by
  unfold encodeMantissa
  by_cases hb : m / 2 ^ 23 % 2 = 1
  · rw [if_pos hb]
    exact ⟨m / 2 ^ 8, n + 1, rfl, by omega, by omega, fun _ => by omega, Or.inl ⟨hb, rfl, rfl⟩⟩
  · rw [if_neg hb]
    exact ⟨m, n, rfl, by omega, by omega, fun _ => by omega, Or.inr ⟨by omega, rfl, rfl⟩⟩
/-- The encoding of a 256-bit number whose byte count is known. -/
theorem GetCompact_of_size (y n : Nat) (hy : y < 2 ^ 256) (hsz : (bits y + 7) / 8 = n) :
    GetCompact y false =
      encodeMantissa n (if n ≤ 3 then y * 2 ^ (8 * (3 - n)) else y / 2 ^ (8 * (n - 3))) := by
  rw [(GetCompact_form y hy).1, hsz]

/-- C14: for every 256-bit `x` the encoding `GetCompact(x)` has the sign bit
`0x00800000` clear, decoding it reports neither negative nor overflow and yields a
value at most `x`, and encoding that value gives `GetCompact(x)` again. -/
theorem GetCompact_roundtrip (x : Nat) (hx : x < 2 ^ 256) :
    GetCompact x false / 2 ^ 23 % 2 = 0 ∧
      (SetCompact (GetCompact x false)).fNegative = false ∧
      (SetCompact (GetCompact x false)).fOverflow = false ∧
      (SetCompact (GetCompact x false)).value ≤ x ∧
      GetCompact (SetCompact (GetCompact x false)).value false = GetCompact x false := by
  have hle := SetCompact_GetCompact_le x hx
  obtain ⟨hform, hm24⟩ := GetCompact_form x hx
  obtain ⟨hn32, hhi, hlo⟩ := nSize_bounds x hx
  generalize hn : (bits x + 7) / 8 = n at hform hm24 hn32 hhi hlo
  generalize hm : (if n ≤ 3 then x * 2 ^ (8 * (3 - n)) else x / 2 ^ (8 * (n - 3))) = m
    at hform hm24
  obtain ⟨c, s, hcs, hc, hs, hc33, hcase⟩ := encodeMantissa_parts n m hn32 hm24
  obtain ⟨h1, h2, h3, h4⟩ := SetCompact_parts c s hc hs hc33
  have hcode : GetCompact x false = c + s * 2 ^ 24 := hform.trans hcs
  rw [hcode] at hle ⊢
  refine ⟨h1, h2, h3, hle, ?_⟩
  rw [h4] at hle ⊢
  have hy : compactNumber c s < 2 ^ 256 := lt_of_le_of_lt hle hx
  -- it suffices to show that the decoded value has the same byte count and mantissa
  suffices hsame : compactNumber c s = x ∨
      ((bits (compactNumber c s) + 7) / 8 = n ∧
        encodeMantissa n (if n ≤ 3 then compactNumber c s * 2 ^ (8 * (3 - n))
          else compactNumber c s / 2 ^ (8 * (n - 3))) = encodeMantissa n m) by
    rcases hsame with heq | ⟨hsz, henc⟩
    · rw [heq, hcode]
    · rw [GetCompact_of_size _ n hy hsz, henc, hcs]
  by_cases hx0 : x = 0
  · left
    omega
  obtain ⟨hnpos, hxlo⟩ := hlo (Nat.pos_of_ne_zero hx0)
  by_cases hn3 : n ≤ 3
  · rw [if_pos hn3] at hm
    have hcancel : m / 2 ^ (8 * (3 - n)) = x := by
      rw [← hm]
      exact Nat.mul_div_cancel x (Nat.pos_pow_of_pos _ (by norm_num))
    rcases hcase with ⟨hb, hceq, hseq⟩ | ⟨hb, hceq, hseq⟩
    · subst hceq hseq
      by_cases hn2 : n + 1 ≤ 3
      · left
        unfold compactNumber
        rw [if_pos hn2, Nat.div_div_eq_div_mul, ← pow_add]
        have : 8 + 8 * (3 - (n + 1)) = 8 * (3 - n) := by omega
        rw [this, hcancel]
      · right
        have hn3' : n = 3 := by omega
        subst hn3'
        simp only [Nat.sub_self, Nat.mul_zero, pow_zero, Nat.mul_one] at hm
        subst hm
        have hval : compactNumber (x / 2 ^ 8) (3 + 1) = x / 2 ^ 8 * 2 ^ 8 := by
          simp [compactNumber]
        rw [hval]
        have hsz : (bits (x / 2 ^ 8 * 2 ^ 8) + 7) / 8 = 3 :=
          size_unique _ 3 (by norm_num) (by norm_num) (by norm_num; omega) (by norm_num; omega)
        refine ⟨hsz, ?_⟩
        simp only [le_refl, if_true, Nat.sub_self, Nat.mul_zero, pow_zero, Nat.mul_one]
        unfold encodeMantissa
        have hb' : x / 2 ^ 8 * 2 ^ 8 / 2 ^ 23 % 2 = 1 := by omega
        rw [if_pos hb', if_pos hb]
        congr 1
        omega
    · left
      subst hceq hseq
      unfold compactNumber
      rw [if_pos hn3, hcancel]
  · rw [if_neg hn3] at hm
    right
    have hP : 0 < 2 ^ (8 * (n - 3)) := Nat.pos_pow_of_pos _ (by norm_num)
    have hpow16 : 2 ^ (8 * (n - 1)) = 2 ^ 16 * 2 ^ (8 * (n - 3)) := by
      rw [← pow_add]; congr 1; omega
    have hpow24 : 2 ^ (8 * n) = 2 ^ 24 * 2 ^ (8 * (n - 3)) := by
      rw [← pow_add]; congr 1; omega
    have hmP : m * 2 ^ (8 * (n - 3)) ≤ x := by
      rw [← hm]; exact Nat.div_mul_le_self _ _
    have hm16 : 2 ^ 16 ≤ m := by
      rw [← hm, Nat.le_div_iff_mul_le hP, ← hpow16]
      exact hxlo
    rcases hcase with ⟨hb, hceq, hseq⟩ | ⟨hb, hceq, hseq⟩
    · subst hceq hseq
      have hval : compactNumber (m / 2 ^ 8) (n + 1) = m / 2 ^ 8 * 2 ^ 8 * 2 ^ (8 * (n - 3)) := by
        unfold compactNumber
        have hn2 : ¬ n + 1 ≤ 3 := by omega
        rw [if_neg hn2]
        have : 8 * (n + 1 - 3) = 8 + 8 * (n - 3) := by omega
        rw [this, pow_add, Nat.mul_assoc]
      rw [hval] at hy ⊢
      have hm' : 2 ^ 23 ≤ m / 2 ^ 8 * 2 ^ 8 ∧ m / 2 ^ 8 * 2 ^ 8 ≤ m := by omega
      have hsz : (bits (m / 2 ^ 8 * 2 ^ 8 * 2 ^ (8 * (n - 3))) + 7) / 8 = n := by
        apply size_unique _ n hnpos hn32
        · rw [hpow16]
          exact Nat.mul_le_mul_right _ (by omega)
        · rw [hpow24]
          exact Nat.mul_lt_mul_of_pos_right (by omega) hP
      refine ⟨hsz, ?_⟩
      rw [if_neg hn3, Nat.mul_div_cancel _ hP]
      unfold encodeMantissa
      have hb' : m / 2 ^ 8 * 2 ^ 8 / 2 ^ 23 % 2 = 1 := by omega
      rw [if_pos hb', if_pos hb]
      congr 1
      omega
    · subst hceq hseq
      have hval : compactNumber c s = c * 2 ^ (8 * (s - 3)) := by
        unfold compactNumber
        rw [if_neg hn3]
      rw [hval] at hy ⊢
      have hsz : (bits (c * 2 ^ (8 * (s - 3))) + 7) / 8 = s := by
        apply size_unique _ s hnpos hn32
        · rw [hpow16]
          exact Nat.mul_le_mul_right _ hm16
        · rw [hpow24]
          exact Nat.mul_lt_mul_of_pos_right hm24 hP
      refine ⟨hsz, ?_⟩
      rw [if_neg hn3, Nat.mul_div_cancel _ hP]

/-- Instance of C14 on the main-net power limit, whose encoding is `0x1f0affff`. -/
theorem GetCompact_roundtrip_witness :
    GetCompact mainParams.powLimit false / 2 ^ 23 % 2 = 0 ∧
      (SetCompact (GetCompact mainParams.powLimit false)).fNegative = false ∧
      (SetCompact (GetCompact mainParams.powLimit false)).fOverflow = false ∧
      (SetCompact (GetCompact mainParams.powLimit false)).value ≤ mainParams.powLimit ∧
      GetCompact (SetCompact (GetCompact mainParams.powLimit false)).value false =
        GetCompact mainParams.powLimit false :=
  GetCompact_roundtrip mainParams.powLimit (by decide)

/-- When the decoded target passes the range check, `CheckProofOfWork` is the
comparison of the hash with the target. -/
theorem CheckProofOfWork_in_range (hash nBits : Nat) (params : Params)
    (hneg : (SetCompact nBits).fNegative = false) (h0 : (SetCompact nBits).value ≠ 0)
    (hov : (SetCompact nBits).fOverflow = false)
    (hle : (SetCompact nBits).value ≤ UintToArith256 params.powLimit) :
    CheckProofOfWork hash nBits params =
      decide (UintToArith256 hash ≤ (SetCompact nBits).value) := by
  unfold CheckProofOfWork
  simp only []
  generalize SetCompact nBits = t at *
  rcases t with ⟨value, fNegative, fOverflow⟩
  simp only [] at hneg h0 hov hle
  subst hneg hov
  have hgt : ¬ value > UintToArith256 params.powLimit := by omega
  by_cases hh : UintToArith256 hash > value
  · have : ¬ UintToArith256 hash ≤ value := by omega
    simp [h0, hgt, hh, this]
  · have : UintToArith256 hash ≤ value := by omega
    simp [h0, hgt, hh, this]

/-- C19: on the main, test and regression-test networks the `nBits` of the genesis
block decodes to a target that is not negative, not zero, does not overflow and is
at most the power limit of the network, so `CheckProofOfWork` passes its range
check and accepts exactly the hashes up to that target. -/
theorem genesis_target_in_range :
    ((SetCompact mainGenesisBits).fNegative = false ∧
        (SetCompact mainGenesisBits).value ≠ 0 ∧
        (SetCompact mainGenesisBits).fOverflow = false ∧
        (SetCompact mainGenesisBits).value ≤ UintToArith256 mainParams.powLimit ∧
        ∀ hash, CheckProofOfWork hash mainGenesisBits mainParams =
          decide (UintToArith256 hash ≤ (SetCompact mainGenesisBits).value)) ∧
      ((SetCompact testnetGenesisBits).fNegative = false ∧
        (SetCompact testnetGenesisBits).value ≠ 0 ∧
        (SetCompact testnetGenesisBits).fOverflow = false ∧
        (SetCompact testnetGenesisBits).value ≤ UintToArith256 testnetParams.powLimit ∧
        ∀ hash, CheckProofOfWork hash testnetGenesisBits testnetParams =
          decide (UintToArith256 hash ≤ (SetCompact testnetGenesisBits).value)) ∧
      ((SetCompact regtestGenesisBits).fNegative = false ∧
        (SetCompact regtestGenesisBits).value ≠ 0 ∧
        (SetCompact regtestGenesisBits).fOverflow = false ∧
        (SetCompact regtestGenesisBits).value ≤ UintToArith256 regtestParams.powLimit ∧
        ∀ hash, CheckProofOfWork hash regtestGenesisBits regtestParams =
          decide (UintToArith256 hash ≤ (SetCompact regtestGenesisBits).value)) := by
  refine ⟨⟨by decide, by decide, by decide, by decide, fun hash => ?_⟩,
    ⟨by decide, by decide, by decide, by decide, fun hash => ?_⟩,
    ⟨by decide, by decide, by decide, by decide, fun hash => ?_⟩⟩
  · exact CheckProofOfWork_in_range hash _ _ (by decide) (by decide) (by decide) (by decide)
  · exact CheckProofOfWork_in_range hash _ _ (by decide) (by decide) (by decide) (by decide)
  · exact CheckProofOfWork_in_range hash _ _ (by decide) (by decide) (by decide) (by decide)

/-- An odd number from 3 on is prime exactly when no odd `k` from 3 on with
`k * k` at most the number divides it. -/
theorem odd_prime_iff (p : Nat) (h3 : 3 ≤ p) (hodd : p % 2 = 1) :
    p.Prime ↔ ∀ k : Nat, 3 ≤ k → k % 2 = 1 → k * k ≤ p → ¬ k ∣ p := by
  constructor
  · intro hp k hk3 _ hkk hdvd
    rcases hp.eq_one_or_self_of_dvd k hdvd with h1 | h1
    · omega
    · subst h1
      nlinarith
  · intro h
    by_contra hnp
    have hm_prime : p.minFac.Prime := Nat.minFac_prime (by omega)
    have hm_dvd : p.minFac ∣ p := Nat.minFac_dvd p
    have hsq : p.minFac ^ 2 ≤ p := Nat.minFac_sq_le_self (by omega) hnp
    have hne2 : p.minFac ≠ 2 := by
      intro h2
      rw [h2] at hm_dvd
      omega
    have hodd' : p.minFac % 2 = 1 := by
      rcases hm_prime.eq_two_or_odd with h2 | h2
      · exact absurd h2 hne2
      · exact h2
    have hge : 3 ≤ p.minFac := by
      have := hm_prime.two_le
      omega
    exact h p.minFac hge hodd' (by rw [← pow_two]; exact hsq) hm_dvd

/-- Invariant of the trial-division loop: entered at an odd `d` below which no odd
number from 3 on divides `number`, with enough evaluations left, it returns, and it
returns true exactly when no odd `k` from 3 on with `k * k <= number` divides. -/
theorem is_odd_prime_loop_spec (number : Int) (hn : 3 ≤ number) :
    ∀ (fuel : Nat) (d : Int), 3 ≤ d → d % 2 = 1 →
      (∀ k : Int, 3 ≤ k → k % 2 = 1 → k < d → ¬ k ∣ number) →
      1 ≤ fuel →
      number < (d + 2 * ((fuel : Int) - 1)) * (d + 2 * ((fuel : Int) - 1)) →
      ∃ b, is_odd_prime_loop number fuel d = some b ∧
        (b = true ↔ ∀ k : Int, 3 ≤ k → k % 2 = 1 → k * k ≤ number → ¬ k ∣ number) := by
  intro fuel
  induction fuel with
  | zero => intro d _ _ _ h; omega
  | succ fuel ih =>
    intro d hd3 hdodd hinv _ hfuel
    unfold is_odd_prime_loop
    have htmod : Int.tmod number d = number % d := Int.tmod_eq_emod (by omega) (by omega)
    by_cases hdd : d * d ≤ number
    · rw [if_pos hdd, htmod]
      by_cases hdiv : number % d = 0
      · rw [if_pos hdiv]
        refine ⟨false, rfl, ?_⟩
        constructor
        · intro h; exact absurd h (by simp)
        · intro h
          exact absurd (Int.dvd_of_emod_eq_zero hdiv) (h d hd3 hdodd hdd)
      · rw [if_neg hdiv]
        have hfuel1 : 1 ≤ fuel := by
          by_contra hc
          have h0 : fuel = 0 := by omega
          subst h0
          simp at hfuel
          omega
        apply ih (d + 2) (by omega) (by omega) _ hfuel1
        · have : d + 2 + 2 * ((fuel : Int) - 1) = d + 2 * (((fuel + 1 : Nat) : Int) - 1) := by
            push_cast; ring
          rw [this]
          exact hfuel
        · intro k hk3 hkodd hklt
          by_cases hkd : k < d
          · exact hinv k hk3 hkodd hkd
          · have hkeq : k = d := by omega
            subst hkeq
            intro hdvd
            exact hdiv (Int.emod_eq_zero_of_dvd hdvd)
    · rw [if_neg hdd]
      refine ⟨true, rfl, ?_⟩
      constructor
      · intro _ k hk3 hkodd hkk
        apply hinv k hk3 hkodd
        by_contra hge
        have : d * d ≤ k * k := by nlinarith
        omega
      · intro _; rfl

/-- On an odd number from 3 on `is_odd_prime` returns, and it returns whether the
number is prime. -/
theorem is_odd_prime_eq (p : Nat) (h3 : 3 ≤ p) (hodd : p % 2 = 1) :
    is_odd_prime (p : Int) = some (decide p.Prime) := by
  unfold is_odd_prime
  have hfuel : (p : Int) < (3 + 2 * ((((p : Int).toNat + 1 : Nat) : Int) - 1)) *
      (3 + 2 * ((((p : Int).toNat + 1 : Nat) : Int) - 1)) := by
    simp only [Int.toNat_ofNat]
    have : (3 : Int) ≤ p := by exact_mod_cast h3
    push_cast
    nlinarith
  obtain ⟨b, hb, hspec⟩ := is_odd_prime_loop_spec (p : Int) (by exact_mod_cast h3)
    ((p : Int).toNat + 1) 3 (le_refl 3) (by norm_num) (fun k hk3 _ hklt => by omega)
    (by omega) hfuel
  rw [hb]
  congr 1
  have hiff : b = true ↔ p.Prime := by
    rw [hspec, odd_prime_iff p h3 hodd]
    constructor
    · intro h k hk3 hkodd hkk hdvd
      exact h (k : Int) (by exact_mod_cast hk3) (by omega) (by exact_mod_cast hkk)
        (Int.natCast_dvd_natCast.2 hdvd)
    · intro h k hk3 hkodd hkk hdvd
      lift k to Nat using (by omega)
      exact h k (by exact_mod_cast hk3) (by omega) (by exact_mod_cast hkk)
        (Int.natCast_dvd_natCast.1 hdvd)
  cases b
  · simp only [Bool.false_eq_true, false_iff] at hiff
    simp [hiff]
  · simp only [true_iff] at hiff
    simp [hiff]

/-- Invariant of the descending search: started at an odd `n` from 3 on with enough
tests left, it returns an odd prime at most `n` above which no number up to `n` is
prime. -/
theorem find_prime_loop_spec :
    ∀ (fuel n : Nat), 3 ≤ n → n % 2 = 1 → n ≤ 2 * fuel + 1 →
      ∃ p : Nat, find_prime_loop fuel (n : Int) = some (p : Int) ∧ p.Prime ∧ 3 ≤ p ∧
        p ≤ n ∧ ∀ q : Nat, q.Prime → p < q → ¬ q ≤ n := by
  intro fuel
  induction fuel with
  | zero => intro n h3 _ hle; omega
  | succ fuel ih =>
    intro n h3 hodd hle
    unfold find_prime_loop
    rw [is_odd_prime_eq n h3 hodd]
    by_cases hp : n.Prime
    · simp only [hp, decide_True]
      exact ⟨n, rfl, hp, h3, le_refl n, fun q _ hlt hqle => by omega⟩
    · simp only [hp, decide_False]
      have hn3 : n ≠ 3 := fun h => hp (h ▸ Nat.prime_three)
      have hcast : (n : Int) - 2 = ((n - 2 : Nat) : Int) := by omega
      rw [hcast]
      obtain ⟨p, hres, hpp, hp3, hple, hmax⟩ := ih (n - 2) (by omega) (by omega) (by omega)
      refine ⟨p, hres, hpp, hp3, by omega, ?_⟩
      intro q hq hlt hqle
      by_cases hq2 : q ≤ n - 2
      · exact hmax q hq hlt hq2
      · by_cases hqn : q = n
        · subst hqn
          exact hp hq
        · have hqeq : q = n - 1 := by omega
          rcases hq.eq_two_or_odd with h2 | h2 <;> omega

/-- C20: `ethash_find_largest_prime(upper_bound)` returns 0 when `upper_bound <= 1`,
and otherwise returns a prime `p <= upper_bound` such that no prime `q` satisfies
`p < q <= upper_bound`. -/
theorem ethash_find_largest_prime_spec (upper_bound : Int) :
    (upper_bound ≤ 1 → ethash_find_largest_prime upper_bound = some 0) ∧
      (1 < upper_bound →
        ∃ p : Nat, ethash_find_largest_prime upper_bound = some (p : Int) ∧ p.Prime ∧
          (p : Int) ≤ upper_bound ∧
          ∀ q : Nat, q.Prime → p < q → ¬ (q : Int) ≤ upper_bound) := by
  constructor
  · intro h
    unfold ethash_find_largest_prime
    simp only []
    rw [if_pos (by omega)]
  · intro h
    unfold ethash_find_largest_prime
    simp only []
    rw [if_neg (by omega)]
    by_cases h2 : upper_bound = 2
    · rw [if_pos h2]
      subst h2
      exact ⟨2, rfl, Nat.prime_two, by norm_num, fun q _ hlt hle => by omega⟩
    · rw [if_neg h2]
      lift upper_bound to Nat using (by omega)
      have htmod : Int.tmod (upper_bound : Int) 2 = (upper_bound : Int) % 2 :=
        Int.tmod_eq_emod (by omega) (by norm_num)
      rw [htmod]
      by_cases heven : (upper_bound : Int) % 2 = 0
      · simp only [heven, if_true]
        have hcast : (upper_bound : Int) - 1 = ((upper_bound - 1 : Nat) : Int) := by omega
        rw [hcast, Int.toNat_ofNat]
        obtain ⟨p, hres, hpp, _, hple, hmax⟩ :=
          find_prime_loop_spec (upper_bound - 1) (upper_bound - 1) (by omega) (by omega) (by omega)
        refine ⟨p, hres, hpp, by omega, ?_⟩
        intro q hq hlt hqle
        by_cases hq1 : q ≤ upper_bound - 1
        · exact hmax q hq hlt hq1
        · have hqeq : q = upper_bound := by omega
          rcases hq.eq_two_or_odd with h2' | h2' <;> omega
      · simp only [heven, if_false]
        rw [Int.toNat_ofNat]
        obtain ⟨p, hres, hpp, _, hple, hmax⟩ :=
          find_prime_loop_spec upper_bound upper_bound (by omega) (by omega) (by omega)
        exact ⟨p, hres, hpp, by omega, fun q hq hlt hqle => hmax q hq hlt (by omega)⟩

/-- C12: with `(mix, final) = progpow::hash(context, height, header_hash, nonce)`,
`progpow::verify` succeeds on `mix` and the boundary `final`, fails for every
claimed mix that differs from `mix` in at least one byte, and fails for every
boundary smaller than `final` as a big-endian 256-bit integer. -/
theorem verify_hash_consistent (hash : ProgpowHash) (context : ethash_epoch_context)
    (block_number : Int) (header_hash : hash256) (nonce : Nat) :
    verify hash context block_number header_hash
        (hash context block_number header_hash nonce).hashMix nonce
        (hash context block_number header_hash nonce).final_hash = true ∧
      (∀ mix : hash256,
        (∃ i, mix i ≠ (hash context block_number header_hash nonce).hashMix i) →
        verify hash context block_number header_hash mix nonce
          (hash context block_number header_hash nonce).final_hash = false) ∧
      (∀ boundary : hash256,
        beValue boundary < beValue (hash context block_number header_hash nonce).final_hash →
        verify hash context block_number header_hash
          (hash context block_number header_hash nonce).hashMix nonce boundary = false) := by
  refine ⟨?_, ?_, ?_⟩
  · simp [verify]
  · rintro mix ⟨i, hi⟩
    have hne : (hash context block_number header_hash nonce).hashMix ≠ mix := by
      intro h
      exact hi (by rw [h])
    simp [verify, hne]
  · intro boundary hlt
    have : ¬ beValue (hash context block_number header_hash nonce).final_hash ≤
        beValue boundary := by omega
    simp [verify, this]

/-- One call of `ETHash` on a state whose static context, when it holds a context,
holds the one `create_epoch_context` builds for its epoch number: the result is the
hash on a freshly created context of the requested epoch, that context is the static
context afterwards, a stale or null static context makes the call create one context,
and a static context of the requested epoch leaves the state as it is. -/
theorem ETHash_step (build : Int → EpochData) (hash : ProgpowHash)
    (st : ETHashState) (blockHeader : PowHeader)
    (hinv : ∀ c, st.context = some c → c = create_epoch_context build c.epoch_number) :
    (ETHash build hash st blockHeader).1.context =
        some (create_epoch_context build (get_epoch_number (blockHeader.nHeight : Int))) ∧
      (ETHash build hash st blockHeader).2 =
        hash (create_epoch_context build (get_epoch_number (blockHeader.nHeight : Int)))
          (blockHeader.nHeight : Int) blockHeader.header_hash blockHeader.nNonce ∧
      ((st.context = none ∨ ∃ c, st.context = some c ∧
            c.epoch_number ≠ get_epoch_number (blockHeader.nHeight : Int)) →
        (ETHash build hash st blockHeader).1.created =
          st.created ++ [get_epoch_number (blockHeader.nHeight : Int)]) ∧
      ((∃ c, st.context = some c ∧
            c.epoch_number = get_epoch_number (blockHeader.nHeight : Int)) →
        (ETHash build hash st blockHeader).1 = st) := by
  rcases st with ⟨context, created⟩
  cases context with
  | none =>
    refine ⟨rfl, rfl, fun _ => rfl, ?_⟩
    rintro ⟨c, hc, _⟩
    cases hc
  | some c =>
    have hc := hinv c rfl
    by_cases he : c.epoch_number ≠ get_epoch_number (blockHeader.nHeight : Int)
    · refine ⟨by simp [ETHash, he], by simp [ETHash, he], fun _ => by simp [ETHash, he], ?_⟩
      rintro ⟨c2, hc2, he2⟩
      simp only [Option.some.injEq] at hc2
      subst hc2
      exact absurd he2 he
    · have he2 : c.epoch_number = get_epoch_number (blockHeader.nHeight : Int) :=
        not_not.mp he
      have hceq : c = create_epoch_context build (get_epoch_number (blockHeader.nHeight : Int)) := by
        rw [← he2]; exact hc
      refine ⟨?_, ?_, ?_, fun _ => by simp [ETHash, he2]⟩
      · simp only [ETHash, he2, ne_eq, not_true_eq_false, if_false]
        rw [← hceq]
      · simp only [ETHash, he2, ne_eq, not_true_eq_false, if_false]
        rw [← hceq]
      · rintro (h | ⟨c2, hc2, hne⟩)
        · cases h
        · simp only [Option.some.injEq] at hc2
          subst hc2
          exact absurd he2 hne

/-- A sequence of calls followed by one more call. -/
theorem ETHashCalls_append (build : Int → EpochData) (hash : ProgpowHash) :
    ∀ (hs : List PowHeader) (st : ETHashState) (h : PowHeader),
      ETHashCalls build hash st (hs ++ [h]) =
        ((ETHash build hash (ETHashCalls build hash st hs).1 h).1,
          (ETHashCalls build hash st hs).2 ++
            [(ETHash build hash (ETHashCalls build hash st hs).1 h).2]) := by
  intro hs
  induction hs with
  | nil => intro st h; rfl
  | cons x rest ih =>
    intro st h
    have e : x :: rest ++ [h] = x :: (rest ++ [h]) := rfl
    rw [e]
    simp only [ETHashCalls]
    rw [ih]
    rfl

/-- After any sequence of calls started from the initial state the static context is
null when no call was made, and otherwise the context `create_epoch_context` builds
for the epoch of the last call. -/
theorem ETHashCalls_context (build : Int → EpochData) (hash : ProgpowHash)
    (hs : List PowHeader) :
    (ETHashCalls build hash ETHashState.init hs).1.context =
      hs.getLast?.map fun h =>
        create_epoch_context build (get_epoch_number (h.nHeight : Int)) := by
  induction hs using List.reverseRecOn with
  | nil => rfl
  | append_singleton l h ih =>
    rw [ETHashCalls_append, List.getLast?_concat]
    simp only [Option.map_some']
    refine (ETHash_step build hash _ h ?_).1
    intro c hc
    rw [ih] at hc
    cases hl : l.getLast? with
    | none => rw [hl] at hc; cases hc
    | some x =>
      rw [hl] at hc
      simp only [Option.map_some', Option.some.injEq] at hc
      subst hc
      rfl

/-- The first element of the list that `destutter'` returns is its first argument. -/
theorem destutter'_cons_tail (a : Int) (l : List Int) :
    List.destutter' (fun x y => x ≠ y) a l = a :: (List.destutter' (fun x y => x ≠ y) a l).tail := by
  induction l with
  | nil => rfl
  | cons b l ih =>
    rw [List.destutter'_cons]
    split
    · rfl
    · exact ih

/-- The calls of `create_epoch_context` made by a sequence of calls of `ETHash`
started with a context of epoch `e` in the static context: one for each height whose
epoch differs from the epoch of the height before it. -/
theorem ETHashCalls_created_some (build : Int → EpochData) (hash : ProgpowHash) :
    ∀ (hs : List PowHeader) (st : ETHashState) (c : ethash_epoch_context),
      st.context = some c → c = create_epoch_context build c.epoch_number →
      (ETHashCalls build hash st hs).1.created =
        st.created ++ (List.destutter' (fun x y => x ≠ y) c.epoch_number
          (hs.map fun h => get_epoch_number (h.nHeight : Int))).tail := by
  intro hs
  induction hs with
  | nil => intro st c _ _; simp [ETHashCalls]
  | cons h rest ih =>
    intro st c hc hcinv
    have hinv : ∀ c2, st.context = some c2 → c2 = create_epoch_context build c2.epoch_number := by
      intro c2 hc2
      rw [hc] at hc2
      cases hc2
      exact hcinv
    obtain ⟨hctx, _, hcreate, hkeep⟩ := ETHash_step build hash st h hinv
    simp only [ETHashCalls, List.map_cons]
    rw [List.destutter'_cons]
    by_cases he : c.epoch_number ≠ get_epoch_number (h.nHeight : Int)
    · rw [if_pos he, ih _ _ hctx rfl, hcreate (Or.inr ⟨c, hc, he⟩)]
      simp only [List.tail_cons, create_epoch_context]
      rw [List.append_assoc, List.singleton_append, ← destutter'_cons_tail]
    · rw [if_neg he, hkeep ⟨c, hc, not_not.mp he⟩]
      exact ih st c hc hcinv

/-- The calls of `create_epoch_context` made by a sequence of calls of `ETHash`
started from the initial state: one for the first height and one for each height
whose epoch differs from the epoch of the height before it. -/
theorem ETHashCalls_created (build : Int → EpochData) (hash : ProgpowHash)
    (hs : List PowHeader) :
    (ETHashCalls build hash ETHashState.init hs).1.created =
      List.destutter (fun x y => x ≠ y) (hs.map fun h => get_epoch_number (h.nHeight : Int)) := by
  cases hs with
  | nil => rfl
  | cons h rest =>
    obtain ⟨hctx, _, hcreate, _⟩ := ETHash_step build hash ETHashState.init h
      (fun c hc => by cases hc)
    simp only [ETHashCalls, List.map_cons, List.destutter_cons']
    rw [ETHashCalls_created_some build hash rest _ _ hctx rfl, hcreate (Or.inl rfl)]
    simp only [ETHashState.init, List.nil_append, create_epoch_context, List.singleton_append]
    rw [← destutter'_cons_tail]

/-- The results of a sequence of calls of `ETHash` started from the initial state:
each is the hash on a freshly created context for the epoch of its height. -/
theorem ETHashCalls_results (build : Int → EpochData) (hash : ProgpowHash)
    (hs : List PowHeader) :
    (ETHashCalls build hash ETHashState.init hs).2 =
      hs.map fun h =>
        hash (create_epoch_context build (get_epoch_number (h.nHeight : Int)))
          (h.nHeight : Int) h.header_hash h.nNonce := by
  induction hs using List.reverseRecOn with
  | nil => rfl
  | append_singleton l h ih =>
    rw [ETHashCalls_append, List.map_append, ih]
    simp only [List.map_cons, List.map_nil]
    congr 2
    refine (ETHash_step build hash _ h ?_).2.1
    intro c hc
    rw [ETHashCalls_context] at hc
    cases hl : l.getLast? with
    | none => rw [hl] at hc; cases hc
    | some x =>
      rw [hl] at hc
      simp only [Option.map_some', Option.some.injEq] at hc
      subst hc
      rfl

/-- C13: in every sequence of calls of `ETHash` started from the initial state, the
call on `blockHeader` after the calls on `earlier` returns what `progpow::hash` gives
on a freshly created context for the epoch `get_epoch_number(nHeight)`, the height
divided by 7500, and leaves that context in the static context. It calls
`create_epoch_context`, once and for that epoch, when the static context is null or
holds another epoch number; when the static context holds that epoch number it
leaves the state as it is: no context is created and the cached one is kept. The
static context before the call is null when no call was made and otherwise the
context of the epoch of the last call. Over the whole sequence
`create_epoch_context` is called for the first height and for each height whose
epoch differs from the epoch of the height before it, and for no other, and every
result is the hash on a fresh context of the epoch of its height. -/
theorem ETHash_uses_epoch_of_height (build : Int → EpochData) (hash : ProgpowHash)
    (earlier : List PowHeader) (blockHeader : PowHeader) :
    (ETHash build hash (ETHashCalls build hash ETHashState.init earlier).1 blockHeader).2 =
        hash (create_epoch_context build (get_epoch_number (blockHeader.nHeight : Int)))
          (blockHeader.nHeight : Int) blockHeader.header_hash blockHeader.nNonce ∧
      (ETHash build hash (ETHashCalls build hash ETHashState.init earlier).1
          blockHeader).1.context =
        some (create_epoch_context build (get_epoch_number (blockHeader.nHeight : Int))) ∧
      (((ETHashCalls build hash ETHashState.init earlier).1.context = none ∨
          ∃ c, (ETHashCalls build hash ETHashState.init earlier).1.context = some c ∧
            c.epoch_number ≠ get_epoch_number (blockHeader.nHeight : Int)) →
        (ETHash build hash (ETHashCalls build hash ETHashState.init earlier).1
            blockHeader).1.created =
          (ETHashCalls build hash ETHashState.init earlier).1.created ++
            [get_epoch_number (blockHeader.nHeight : Int)]) ∧
      ((∃ c, (ETHashCalls build hash ETHashState.init earlier).1.context = some c ∧
            c.epoch_number = get_epoch_number (blockHeader.nHeight : Int)) →
        (ETHash build hash (ETHashCalls build hash ETHashState.init earlier).1 blockHeader).1 =
          (ETHashCalls build hash ETHashState.init earlier).1) ∧
      (ETHashCalls build hash ETHashState.init earlier).1.context =
        (earlier.getLast?.map fun h =>
          create_epoch_context build (get_epoch_number (h.nHeight : Int))) ∧
      (ETHashCalls build hash ETHashState.init (earlier ++ [blockHeader])).1.created =
        List.destutter (fun x y => x ≠ y)
          ((earlier ++ [blockHeader]).map fun h => get_epoch_number (h.nHeight : Int)) ∧
      (ETHashCalls build hash ETHashState.init (earlier ++ [blockHeader])).2 =
        ((earlier ++ [blockHeader]).map fun h =>
          hash (create_epoch_context build (get_epoch_number (h.nHeight : Int)))
            (h.nHeight : Int) h.header_hash h.nNonce) ∧
      get_epoch_number (blockHeader.nHeight : Int) =
        ((blockHeader.nHeight / 7500 : Nat) : Int) := by
  have hctx := ETHashCalls_context build hash earlier
  have hinv : ∀ c, (ETHashCalls build hash ETHashState.init earlier).1.context = some c →
      c = create_epoch_context build c.epoch_number := by
    intro c hc
    rw [hctx] at hc
    cases hl : earlier.getLast? with
    | none => rw [hl] at hc; cases hc
    | some x =>
      rw [hl] at hc
      simp only [Option.map_some', Option.some.injEq] at hc
      subst hc
      rfl
  obtain ⟨h1, h2, h3, h4⟩ := ETHash_step build hash
    (ETHashCalls build hash ETHashState.init earlier).1 blockHeader hinv
  refine ⟨h2, h1, h3, h4, hctx, ETHashCalls_created build hash _,
    ETHashCalls_results build hash _, ?_⟩
  unfold get_epoch_number KAWPOW_EPOCH_LENGTH
  rw [Int.tdiv_eq_ediv (by omega) (by norm_num)]
  norm_cast

/-- Five calls of `ETHash` at the heights 0, 7499, 7500, 7500 and 0, started from the
initial state, create three contexts, for the epochs 0, 1 and 0. -/
theorem ETHashCalls_created_example (build : Int → EpochData) (hash : ProgpowHash)
    (x : hash256) :
    (ETHashCalls build hash ETHashState.init
      [{ nHeight := 0, nNonce := 0, header_hash := x },
        { nHeight := 7499, nNonce := 1, header_hash := x },
        { nHeight := 7500, nNonce := 2, header_hash := x },
        { nHeight := 7500, nNonce := 3, header_hash := x },
        { nHeight := 0, nNonce := 4, header_hash := x }]).1.created = [0, 1, 0] := by
  rw [ETHashCalls_created]
  simp only [List.map_cons, List.map_nil]
  decide

/-! ### The block template assembler -/

/-- Two entries of a well-formed pool with the same identifier are the same entry. -/
theorem Mempool.WellFormed.eq_of_txid {pool : Mempool} (hwf : pool.WellFormed)
    {x y : MempoolEntry} (hx : x ∈ pool) (hy : y ∈ pool) (h : x.txid = y.txid) : x = y :=
  List.inj_on_of_nodup_map hwf.1 hx hy h

/-- The transactions of a state after one more selection. -/
theorem selected_append (sels : List Selection) (r : Selection) (failed : List Nat)
    (w s : Nat) :
    AssemblerState.selected
        { selections := sels ++ [r], failed := failed, nBlockWeight := w,
          nBlockSigOpsCost := s } =
      (sels.flatMap Selection.package) ++ r.package := by
  simp [AssemblerState.selected, List.flatMap_append]

/-- The best candidate, when there is one, is a candidate. -/
theorem foldl_pickBetter_mem (pool : Mempool) (selected : List Nat) :
    ∀ (l : List MempoolEntry) (init : Option MempoolEntry) (b : MempoolEntry),
      l.foldl (pickBetter pool selected) init = some b → b ∈ l ∨ init = some b := by
  intro l
  induction l with
  | nil => intro init b h; exact Or.inr h
  | cons t rest ih =>
    intro init b h
    simp only [List.foldl_cons] at h
    rcases ih _ b h with hmem | hinit
    · exact Or.inl (List.mem_cons_of_mem _ hmem)
    · cases init with
      | none =>
        simp only [pickBetter, Option.some.injEq] at hinit
        exact Or.inl (hinit ▸ List.mem_cons_self _ _)
      | some b0 =>
        simp only [pickBetter] at hinit
        split at hinit
        · simp only [Option.some.injEq] at hinit
          exact Or.inl (hinit ▸ List.mem_cons_self _ _)
        · exact Or.inr hinit

/-- The best candidate is an entry of the pool that is neither selected nor marked. -/
theorem bestCandidate_mem {pool : Mempool} {selected failed : List Nat} {b : MempoolEntry}
    (h : bestCandidate pool selected failed = some b) :
    b ∈ candidates pool selected failed := by
  rcases foldl_pickBetter_mem pool selected _ none b h with hmem | hinit
  · exact hmem
  · cases hinit

/-- Membership in the list of candidates. -/
theorem mem_candidates {pool : Mempool} {selected failed : List Nat} {c : MempoolEntry} :
    c ∈ candidates pool selected failed ↔ c ∈ pool ∧ c.txid ∉ selected ∧ c.txid ∉ failed := by
  simp [candidates, List.mem_filter, and_assoc]

/-- Membership in a package. -/
theorem mem_package {pool : Mempool} {selected : List Nat} {e t : MempoolEntry} :
    t ∈ package pool selected e ↔
      t ∈ pool ∧ (t.txid = e.txid ∨ t.txid ∈ e.ancestors) ∧ t.txid ∉ selected := by
  simp [package, List.mem_filter]

/-- The cross-multiplied comparison is the comparison of the quotients. -/
theorem FeeRate.le_iff_div (a b : FeeRate) (ha : 0 < a.size) (hb : 0 < b.size) :
    a.le b ↔ (a.fees : ℚ) / (a.size : ℚ) ≤ (b.fees : ℚ) / (b.size : ℚ) := by
  unfold FeeRate.le
  have ha' : (0 : ℚ) < (a.size : ℚ) := by exact_mod_cast ha
  have hb' : (0 : ℚ) < (b.size : ℚ) := by exact_mod_cast hb
  rw [div_le_div_iff₀ ha' hb']
  constructor
  · intro h
    exact_mod_cast h
  · intro h
    exact_mod_cast h

/-- The comparison of fee rates with positive sizes is transitive. -/
theorem FeeRate.le_trans {a b c : FeeRate} (hb : 0 < b.size)
    (hab : a.le b) (hbc : b.le c) (ha : 0 < a.size) (hc : 0 < c.size) : a.le c := by
  unfold FeeRate.le at *
  have ha' : (0 : Int) < (a.size : Int) := by exact_mod_cast ha
  have hb' : (0 : Int) < (b.size : Int) := by exact_mod_cast hb
  have hc' : (0 : Int) < (c.size : Int) := by exact_mod_cast hc
  have h1 := mul_le_mul_of_nonneg_right hab (le_of_lt hc')
  have h2 := mul_le_mul_of_nonneg_right hbc (le_of_lt ha')
  apply le_of_mul_le_mul_right (a := (b.size : Int)) _ hb'
  nlinarith

/-- An element of a list of sizes is at most their sum. -/
theorem le_sum_map_of_mem {α : Type} (f : α → Nat) :
    ∀ (l : List α) (x : α), x ∈ l → f x ≤ (l.map f).sum := by
  intro l
  induction l with
  | nil => intro x hx; cases hx
  | cons y rest ih =>
    intro x hx
    simp only [List.map_cons, List.sum_cons]
    rcases List.mem_cons.1 hx with h | h
    · subst h; omega
    · have := ih x h; omega

/-- The package of an unselected entry of a well-formed pool has a positive size. -/
theorem packageSize_pos {pool : Mempool} (hwf : pool.WellFormed) {selected : List Nat}
    {c : MempoolEntry} (hc : c ∈ pool) (hns : c.txid ∉ selected) :
    0 < (ancestorFeeRate pool selected c).size := by
  have hmem : c ∈ package pool selected c := mem_package.2 ⟨hc, Or.inl rfl, hns⟩
  have h1 := le_sum_map_of_mem MempoolEntry.vsize _ c hmem
  have h2 := hwf.2.1 c hc
  simp only [ancestorFeeRate, packageSize]
  omega

/-- The entry kept by the fold has the highest ancestor fee rate of the list and of
the initial entry. -/
theorem foldl_pickBetter_max (pool : Mempool) (selected : List Nat) :
    ∀ (l : List MempoolEntry) (init : Option MempoolEntry) (b : MempoolEntry),
      (∀ c ∈ l, 0 < (ancestorFeeRate pool selected c).size) →
      (∀ i, init = some i → 0 < (ancestorFeeRate pool selected i).size) →
      l.foldl (pickBetter pool selected) init = some b →
      0 < (ancestorFeeRate pool selected b).size ∧
        (∀ c ∈ l, (ancestorFeeRate pool selected c).le (ancestorFeeRate pool selected b)) ∧
        ∀ i, init = some i →
          (ancestorFeeRate pool selected i).le (ancestorFeeRate pool selected b) := by
  intro l
  induction l with
  | nil =>
    intro init b _ hinit h
    simp only [List.foldl_nil] at h
    refine ⟨hinit b h, ?_, ?_⟩
    · intro c hc
      simp at hc
    · intro i hi
      rw [h] at hi
      cases hi
      unfold FeeRate.le
      exact le_refl _
  | cons t rest ih =>
    intro init b hpos hinit h
    simp only [List.foldl_cons] at h
    have hpost : 0 < (ancestorFeeRate pool selected t).size := hpos t (List.mem_cons_self _ _)
    have hposrest : ∀ c ∈ rest, 0 < (ancestorFeeRate pool selected c).size :=
      fun c hc => hpos c (List.mem_cons_of_mem _ hc)
    cases init with
    | none =>
      simp only [pickBetter] at h
      obtain ⟨hb, hrest, hi⟩ := ih (some t) b hposrest (fun i hi => by cases hi; exact hpost) h
      refine ⟨hb, ?_, fun i hi => by cases hi⟩
      intro c hc
      rcases List.mem_cons.1 hc with h1 | h1
      · subst h1; exact hi c rfl
      · exact hrest c h1
    | some b0 =>
      have hpos0 := hinit b0 rfl
      simp only [pickBetter] at h
      by_cases hlt : (ancestorFeeRate pool selected b0).fees *
          (ancestorFeeRate pool selected t).size <
          (ancestorFeeRate pool selected t).fees * (ancestorFeeRate pool selected b0).size
      · rw [if_pos hlt] at h
        obtain ⟨hb, hrest, hi⟩ := ih (some t) b hposrest (fun i hi => by cases hi; exact hpost) h
        have htb := hi t rfl
        have h0t : (ancestorFeeRate pool selected b0).le (ancestorFeeRate pool selected t) :=
          le_of_lt hlt
        refine ⟨hb, ?_, ?_⟩
        · intro c hc
          rcases List.mem_cons.1 hc with h1 | h1
          · subst h1; exact htb
          · exact hrest c h1
        · intro i hi'
          cases hi'
          exact FeeRate.le_trans hpost h0t htb hpos0 hb
      · rw [if_neg hlt] at h
        obtain ⟨hb, hrest, hi⟩ := ih (some b0) b hposrest (fun i hi => by cases hi; exact hpos0) h
        have h0b := hi b0 rfl
        have ht0 : (ancestorFeeRate pool selected t).le (ancestorFeeRate pool selected b0) :=
          not_lt.mp hlt
        refine ⟨hb, ?_, ?_⟩
        · intro c hc
          rcases List.mem_cons.1 hc with h1 | h1
          · subst h1; exact FeeRate.le_trans hpos0 ht0 h0b hpost hb
          · exact hrest c h1
        · intro i hi'
          cases hi'
          exact h0b

/-- The best candidate has the highest ancestor fee rate of the candidates. -/
theorem bestCandidate_max {pool : Mempool} (hwf : pool.WellFormed)
    {selected failed : List Nat} {b : MempoolEntry}
    (h : bestCandidate pool selected failed = some b) :
    ∀ c ∈ candidates pool selected failed,
      (ancestorFeeRate pool selected c).le (ancestorFeeRate pool selected b) := by
  have hpos : ∀ c ∈ candidates pool selected failed,
      0 < (ancestorFeeRate pool selected c).size := by
    intro c hc
    obtain ⟨h1, h2, _⟩ := mem_candidates.1 hc
    exact packageSize_pos hwf h1 h2
  exact (foldl_pickBetter_max pool selected _ none b hpos (fun i hi => by cases hi) h).2.1

/-- The fold started from an entry keeps an entry. -/
theorem foldl_pickBetter_some (pool : Mempool) (selected : List Nat) :
    ∀ (l : List MempoolEntry) (x : MempoolEntry),
      ∃ b, l.foldl (pickBetter pool selected) (some x) = some b := by
  intro l
  induction l with
  | nil => intro x; exact ⟨x, rfl⟩
  | cons t rest ih =>
    intro x
    simp only [List.foldl_cons, pickBetter]
    split
    · exact ih t
    · exact ih x

/-- There is no best candidate only when there is no candidate. -/
theorem candidates_nil_of_bestCandidate_none {pool : Mempool} {selected failed : List Nat}
    (h : bestCandidate pool selected failed = none) : candidates pool selected failed = [] := by
  unfold bestCandidate at h
  cases hc : candidates pool selected failed with
  | nil => rfl
  | cons t rest =>
    rw [hc] at h
    simp only [List.foldl_cons, pickBetter] at h
    obtain ⟨b, hb⟩ := foldl_pickBetter_some pool selected rest t
    rw [hb] at h
    cases h

/-- A round of the assembler leaves fewer candidates. -/
theorem selectRound_candidates_lt {pool : Mempool} (opts : Options)
    {st st' : AssemblerState} (h : selectRound pool opts st = some st') :
    (candidates pool st'.selected st'.failed).length <
      (candidates pool st.selected st.failed).length := by
  unfold selectRound at h
  split at h
  · exact absurd h (by simp)
  · rename_i e hbest
    have hecand := bestCandidate_mem hbest
    obtain ⟨he, hens, _⟩ := mem_candidates.1 hecand
    have key : ∀ (selected' failed' : List Nat),
        (∀ x ∈ st.selected, x ∈ selected') → (∀ x ∈ st.failed, x ∈ failed') →
        (e.txid ∈ selected' ∨ e.txid ∈ failed') →
        (candidates pool selected' failed').length <
          (candidates pool st.selected st.failed).length := by
      intro selected' failed' hs hf hin
      have hfilter : candidates pool selected' failed' =
          (candidates pool st.selected st.failed).filter fun t =>
            !decide (t.txid ∈ selected') && !decide (t.txid ∈ failed') := by
        unfold candidates
        rw [List.filter_filter]
        apply List.filter_congr
        intro x _
        by_cases h1 : x.txid ∈ selected'
        · simp [h1]
        · by_cases h2 : x.txid ∈ failed'
          · simp [h2]
          · have h3 : x.txid ∉ st.selected := fun hx => h1 (hs _ hx)
            have h4 : x.txid ∉ st.failed := fun hx => h2 (hf _ hx)
            simp [h1, h2, h3, h4]
      rw [hfilter, List.length_filter_lt_length_iff_exists]
      refine ⟨e, hecand, ?_⟩
      rcases hin with h1 | h1 <;> simp [h1]
    split at h
    · simp only [Option.some.injEq] at h
      subst h
      apply key
      · intro x hx
        rw [selected_append]
        exact List.mem_append_left _ hx
      · intro x hx; exact hx
      · left
        rw [selected_append]
        apply List.mem_append_right
        exact List.mem_map.2 ⟨e, mem_package.2 ⟨he, Or.inl rfl, hens⟩, rfl⟩
    · simp only [Option.some.injEq] at h
      subst h
      apply key
      · intro x hx; exact hx
      · intro x hx; exact List.mem_cons_of_mem _ hx
      · right
        exact List.mem_cons_self _ _

/-- As many rounds as there are candidates reach the end of the selection. -/
theorem assemble_complete (pool : Mempool) (opts : Options) :
    ∀ (n : Nat) (st : AssemblerState),
      (candidates pool st.selected st.failed).length ≤ n →
      selectRound pool opts (assemble pool opts n st) = none := by
  intro n
  induction n with
  | zero =>
    intro st hlen
    unfold assemble
    cases hsel : selectRound pool opts st with
    | none => rfl
    | some st' =>
      have := selectRound_candidates_lt opts hsel
      omega
  | succ n ih =>
    intro st hlen
    unfold assemble
    split
    · rename_i hnone
      exact hnone
    · rename_i st' hst
      have := selectRound_candidates_lt opts hst
      exact ih st' (by omega)

/-- The assembly of a template ends because no selectable entry is left, never
because of the bound on the number of rounds. -/
theorem assembleAll_complete (pool : Mempool) (opts : Options) :
    selectRound pool opts (assembleAll pool opts) = none ∧
      candidates pool (assembleAll pool opts).selected (assembleAll pool opts).failed = [] := by
  have hlen : (candidates pool AssemblerState.init.selected AssemblerState.init.failed).length ≤
      pool.length := List.length_filter_le _ _
  have hnone := assemble_complete pool opts pool.length AssemblerState.init hlen
  refine ⟨hnone, ?_⟩
  unfold selectRound at hnone
  split at hnone
  · rename_i hbest
    exact candidates_nil_of_bestCandidate_none hbest
  · split at hnone <;> cases hnone

/-- Committing the package of a pool entry keeps the template in dependency order. -/
theorem commit_dependencyOrdered {pool : Mempool} (hwf : pool.WellFormed)
    {selected : List Nat} {e0 : MempoolEntry} (he0 : e0 ∈ pool)
    (hinv : DependencyOrdered pool selected) :
    DependencyOrdered pool
      (selected ++ (package pool selected e0).map MempoolEntry.txid) := by
  obtain ⟨hnodup, hclosed, hord⟩ := hinv
  have hpkg : ∀ y, y ∈ (package pool selected e0).map MempoolEntry.txid →
      ∃ t ∈ pool, t.txid = y ∧ (t.txid = e0.txid ∨ t.txid ∈ e0.ancestors) ∧
        t.txid ∉ selected := by
    intro y hy
    obtain ⟨t, ht, rfl⟩ := List.mem_map.1 hy
    obtain ⟨h1, h2, h3⟩ := mem_package.1 ht
    exact ⟨t, h1, rfl, h2, h3⟩
  refine ⟨?_, ?_, ?_⟩
  · rw [List.nodup_append]
    refine ⟨hnodup, ?_, ?_⟩
    · exact List.Nodup.sublist ((List.filter_sublist pool).map _) hwf.1
    · rw [List.disjoint_left]
      intro a ha hb
      obtain ⟨t, _, rfl, _, hns⟩ := hpkg a hb
      exact hns ha
  · intro e he hmem a ha
    rw [List.mem_append] at hmem ⊢
    rcases hmem with hsel | hin
    · exact Or.inl (hclosed e he hsel a ha)
    · obtain ⟨t, ht, hte, hrel, _⟩ := hpkg _ hin
      have hteq : t = e := hwf.eq_of_txid ht he hte
      subst hteq
      have ha0 : a ∈ e0.ancestors := by
        rcases hrel with h1 | h1
        · have : t = e0 := hwf.eq_of_txid he he0 h1
          rw [← this]; exact ha
        · obtain ⟨u, hu, hut, hsub⟩ := hwf.2.2.1 e0 he0 t.txid h1
          have : u = t := hwf.eq_of_txid hu he hut
          rw [this] at hsub
          exact hsub a ha
      obtain ⟨u, hu, hua, _⟩ := hwf.2.2.1 e0 he0 a ha0
      by_cases hsel : a ∈ selected
      · exact Or.inl hsel
      · right
        refine List.mem_map.2 ⟨u, mem_package.2 ⟨hu, Or.inr (hua ▸ ha0), hua ▸ hsel⟩, hua⟩
  · rw [List.pairwise_append]
    refine ⟨hord, ?_, ?_⟩
    · rw [List.pairwise_map]
      have hp : (package pool selected e0).Pairwise fun x y => y.txid ∉ x.ancestors :=
        List.Pairwise.filter _ hwf.2.2.2.1
      refine List.Pairwise.imp_of_mem ?_ hp
      intro x y hx _ hxy e he hte
      have hxpool : x ∈ pool := (mem_package.1 hx).1
      have : e = x := hwf.eq_of_txid he hxpool hte
      rw [this]
      exact hxy
    · intro x hx y hy e he hte hya
      obtain ⟨t, _, rfl, _, hns⟩ := hpkg y hy
      exact hns (hclosed e he (hte ▸ hx) _ hya)

/-- A round of the assembler keeps the template in dependency order. -/
theorem selectRound_dependencyOrdered {pool : Mempool} (hwf : pool.WellFormed)
    (opts : Options) {st st' : AssemblerState} (h : selectRound pool opts st = some st')
    (hinv : DependencyOrdered pool st.selected) : DependencyOrdered pool st'.selected := by
  unfold selectRound at h
  split at h
  · exact absurd h (by simp)
  · rename_i e hbest
    have he : e ∈ pool := (mem_candidates.1 (bestCandidate_mem hbest)).1
    split at h
    · simp only [Option.some.injEq] at h
      subst h
      rw [selected_append]
      exact commit_dependencyOrdered hwf he hinv
    · simp only [Option.some.injEq] at h
      subst h
      exact hinv

/-- Every number of rounds keeps the template in dependency order. -/
theorem assemble_dependencyOrdered {pool : Mempool} (hwf : pool.WellFormed) (opts : Options) :
    ∀ (n : Nat) (st : AssemblerState), DependencyOrdered pool st.selected →
      DependencyOrdered pool (assemble pool opts n st).selected := by
  intro n
  induction n with
  | zero => intro st h; exact h
  | succ n ih =>
    intro st h
    unfold assemble
    split
    · exact h
    · rename_i st' hst
      exact ih st' (selectRound_dependencyOrdered hwf opts hst h)

/-- In every template produced from a well-formed mempool each transaction appears
after all of its in-mempool ancestors. -/
theorem template_ancestors_first (pool : Mempool) (opts : Options)
    (hwf : pool.WellFormed) (before : List BlockTx) (t : Nat) (after : List BlockTx)
    (hsplit : CreateNewBlock pool opts = before ++ BlockTx.tx t :: after) :
    ∀ e ∈ pool, e.txid = t → ∀ a ∈ e.ancestors, BlockTx.tx a ∈ before := by
  intro e he het a ha
  have hinit : DependencyOrdered pool AssemblerState.init.selected := by
    simp [DependencyOrdered, AssemblerState.init, AssemblerState.selected]
  obtain ⟨hnodup, hclosed, hord⟩ :=
    assemble_dependencyOrdered hwf opts pool.length AssemblerState.init hinit
  have hsel : ∃ l1 l3, (assemble pool opts pool.length AssemblerState.init).selected =
      l1 ++ t :: l3 ∧ ∀ x ∈ l1, BlockTx.tx x ∈ before := by
    unfold CreateNewBlock assembleAll at hsplit
    cases before with
    | nil => simp at hsplit
    | cons b before' =>
      simp only [List.cons_append, List.cons.injEq] at hsplit
      obtain ⟨_, hmap⟩ := hsplit
      obtain ⟨l1, l2, hl, h1, h2⟩ := List.map_eq_append_iff.1 hmap
      cases l2 with
      | nil => simp at h2
      | cons t' l3 =>
        simp only [List.map_cons, List.cons.injEq, BlockTx.tx.injEq] at h2
        obtain ⟨ht', _⟩ := h2
        subst ht'
        refine ⟨l1, l3, hl, ?_⟩
        intro x hx
        rw [← h1]
        exact List.mem_cons_of_mem _ (List.mem_map_of_mem _ hx)
  obtain ⟨l1, l3, hl, hbefore⟩ := hsel
  rw [hl] at hnodup hclosed hord
  have hamem : a ∈ l1 ++ t :: l3 := hclosed e he (by rw [het]; simp) a ha
  rw [List.mem_append, List.mem_cons] at hamem
  rcases hamem with h1 | h1 | h1
  · exact hbefore a h1
  · exfalso
    rw [h1, ← het] at ha
    exact hwf.2.2.2.2 e he ha
  · exfalso
    have hcons := (List.pairwise_append.1 hord).2.1
    exact (List.pairwise_cons.1 hcons).1 a h1 e he het ha

/-- A parent, a child spending it and an unrelated transaction, in one of the three
admission orders that admit the parent before the child: the child's package, the
parent and the child, is selected first when its ancestor fee rate is above the fee
rate of the parent and above the fee rate of the unrelated transaction, and the
template is coinbase, parent, child, unrelated transaction. -/
theorem package_pulls_parent (pool : Mempool) (opts : Options) (hwf : pool.WellFormed)
    (P C M : MempoolEntry)
    (hpool : pool = [P, C, M] ∨ pool = [P, M, C] ∨ pool = [M, P, C])
    (hPa : P.ancestors = []) (hCa : C.ancestors = [P.txid]) (hMa : M.ancestors = [])
    (hfin : P.isFinal = true ∧ C.isFinal = true ∧ M.isFinal = true)
    (hw : P.weight + C.weight + M.weight ≤ opts.nBlockMaxWeight)
    (hso : P.sigOpCost + C.sigOpCost + M.sigOpCost ≤ opts.nBlockMaxSigOps)
    (hminPC : opts.blockMinFeeRate * ((P.vsize + C.vsize : Nat) : Int) / 1000 ≤
      P.modifiedFee + C.modifiedFee)
    (hminM : opts.blockMinFeeRate * (M.vsize : Int) / 1000 ≤ M.modifiedFee)
    (hlow : P.modifiedFee * ((P.vsize + C.vsize : Nat) : Int) <
      (P.modifiedFee + C.modifiedFee) * (P.vsize : Int))
    (hexceeds : M.modifiedFee * ((P.vsize + C.vsize : Nat) : Int) <
      (P.modifiedFee + C.modifiedFee) * (M.vsize : Int)) :
    CreateNewBlock pool opts =
      [BlockTx.coinbase, BlockTx.tx P.txid, BlockTx.tx C.txid, BlockTx.tx M.txid] := by
  obtain ⟨hfP, hfC, hfM⟩ := hfin
  -- the identifiers are distinct and the three entries are in the pool
  have hids : P.txid ≠ C.txid ∧ P.txid ≠ M.txid ∧ C.txid ≠ M.txid := by
    have hnd := hwf.1
    rcases hpool with rfl | rfl | rfl <;> simp at hnd <;> tauto
  obtain ⟨hPC, hPM, hCM⟩ := hids
  have hCP : C.txid ≠ P.txid := Ne.symm hPC
  have hMP : M.txid ≠ P.txid := Ne.symm hPM
  have hMC : M.txid ≠ C.txid := Ne.symm hCM
  have hmemP : P ∈ pool := by rcases hpool with rfl | rfl | rfl <;> simp
  have hmemC : C ∈ pool := by rcases hpool with rfl | rfl | rfl <;> simp
  have hmemM : M ∈ pool := by rcases hpool with rfl | rfl | rfl <;> simp
  have hmem : ∀ x ∈ pool, x = P ∨ x = C ∨ x = M := by
    intro x hx
    rcases hpool with rfl | rfl | rfl <;> simp at hx <;> tauto
  -- the packages
  have hpkP : package pool [] P = [P] := by
    rcases hpool with rfl | rfl | rfl <;> simp [package, hPa, hCP, hMP]
  have hpkC : package pool [] C = [P, C] := by
    rcases hpool with rfl | rfl | rfl <;> simp [package, hCa, hPC, hMP, hMC]
  have hpkM : package pool [] M = [M] := by
    rcases hpool with rfl | rfl | rfl <;> simp [package, hMa, hPM, hCM]
  have hpkM2 : package pool [P.txid, C.txid] M = [M] := by
    rcases hpool with rfl | rfl | rfl <;> simp [package, hMa, hPM, hCM, hMP, hMC]
  have hcand2 : candidates pool [P.txid, C.txid] [] = [M] := by
    rcases hpool with rfl | rfl | rfl <;> simp [candidates, hMP, hMC]
  have hcand3 : candidates pool [P.txid, C.txid, M.txid] [] = [] := by
    rcases hpool with rfl | rfl | rfl <;> simp [candidates]
  have hlen : pool.length = 3 := by rcases hpool with rfl | rfl | rfl <;> rfl
  -- the first round selects the child
  have hrP : ancestorFeeRate pool [] P = { fees := P.modifiedFee, size := P.vsize } := by
    simp [ancestorFeeRate, packageFees, packageSize, hpkP]
  have hrC : ancestorFeeRate pool [] C =
      { fees := P.modifiedFee + C.modifiedFee, size := P.vsize + C.vsize } := by
    simp [ancestorFeeRate, packageFees, packageSize, hpkC]
  have hrM : ancestorFeeRate pool [] M = { fees := M.modifiedFee, size := M.vsize } := by
    simp [ancestorFeeRate, packageFees, packageSize, hpkM]
  have hb1 : bestCandidate pool [] [] = some C := by
    cases hb : bestCandidate pool [] [] with
    | none =>
      have hnil := candidates_nil_of_bestCandidate_none hb
      have : C ∈ candidates pool [] [] := mem_candidates.2 ⟨hmemC, by simp, by simp⟩
      rw [hnil] at this
      simp at this
    | some b =>
      have hbmem := (mem_candidates.1 (bestCandidate_mem hb)).1
      have hmax := bestCandidate_max hwf hb C (mem_candidates.2 ⟨hmemC, by simp, by simp⟩)
      rcases hmem b hbmem with rfl | rfl | rfl
      · exfalso
        rw [hrC, hrP] at hmax
        unfold FeeRate.le at hmax
        simp only [] at hmax
        omega
      · rfl
      · exfalso
        rw [hrC, hrM] at hmax
        unfold FeeRate.le at hmax
        simp only [] at hmax
        omega
  have hr1 : selectRound pool opts AssemblerState.init = some
      { selections := [{ chosen := C.txid, package := [P.txid, C.txid],
                         feeRate := { fees := P.modifiedFee + C.modifiedFee,
                                      size := P.vsize + C.vsize } }]
        failed := [], nBlockWeight := P.weight + C.weight,
        nBlockSigOpsCost := P.sigOpCost + C.sigOpCost } := by
    unfold selectRound
    have h0 : AssemblerState.init.selected = [] := rfl
    have h0' : AssemblerState.init.failed = [] := rfl
    have hw2 : P.weight + C.weight ≤ opts.nBlockMaxWeight := by omega
    have hso2 : P.sigOpCost + C.sigOpCost ≤ opts.nBlockMaxSigOps := by omega
    rw [h0, h0', hb1]
    have hmin : opts.blockMinFeeRate * ((P.vsize : Int) + (C.vsize : Int)) / 1000 ≤
        P.modifiedFee + C.modifiedFee := by
      have : ((P.vsize + C.vsize : Nat) : Int) = (P.vsize : Int) + (C.vsize : Int) := by
        push_cast; rfl
      rw [← this]; exact hminPC
    simp [AssemblerState.init, AssemblerState.selected, testPackage, packageWeight,
      packageSigOps, packageFees, packageSize, hpkC, hrC, hw2, hso2, hfP, hfC, hmin]
  have hb2 : bestCandidate pool [P.txid, C.txid] [] = some M := by
    simp [bestCandidate, hcand2, pickBetter]
  have hr2 : selectRound pool opts
      { selections := [{ chosen := C.txid, package := [P.txid, C.txid],
                         feeRate := { fees := P.modifiedFee + C.modifiedFee,
                                      size := P.vsize + C.vsize } }]
        failed := [], nBlockWeight := P.weight + C.weight,
        nBlockSigOpsCost := P.sigOpCost + C.sigOpCost } = some
      { selections := [{ chosen := C.txid, package := [P.txid, C.txid],
                         feeRate := { fees := P.modifiedFee + C.modifiedFee,
                                      size := P.vsize + C.vsize } },
                       { chosen := M.txid, package := [M.txid],
                         feeRate := { fees := M.modifiedFee, size := M.vsize } }]
        failed := [], nBlockWeight := P.weight + C.weight + M.weight,
        nBlockSigOpsCost := P.sigOpCost + C.sigOpCost + M.sigOpCost } := by
    unfold selectRound
    have h0 : AssemblerState.selected
        { selections := [{ chosen := C.txid, package := [P.txid, C.txid],
                           feeRate := { fees := P.modifiedFee + C.modifiedFee,
                                        size := P.vsize + C.vsize } }]
          failed := [], nBlockWeight := P.weight + C.weight,
          nBlockSigOpsCost := P.sigOpCost + C.sigOpCost } = [P.txid, C.txid] := rfl
    simp only [h0, hb2]
    simp [testPackage, h0, packageWeight, packageSigOps, packageFees, packageSize, hpkM2,
      ancestorFeeRate, hw, hso, hfM, hminM]
  have hb3 : bestCandidate pool [P.txid, C.txid, M.txid] [] = none := by
    simp [bestCandidate, hcand3]
  have hr3 : selectRound pool opts
      { selections := [{ chosen := C.txid, package := [P.txid, C.txid],
                         feeRate := { fees := P.modifiedFee + C.modifiedFee,
                                      size := P.vsize + C.vsize } },
                       { chosen := M.txid, package := [M.txid],
                         feeRate := { fees := M.modifiedFee, size := M.vsize } }]
        failed := [], nBlockWeight := P.weight + C.weight + M.weight,
        nBlockSigOpsCost := P.sigOpCost + C.sigOpCost + M.sigOpCost } = none := by
    unfold selectRound
    have h0 : AssemblerState.selected
        { selections := [{ chosen := C.txid, package := [P.txid, C.txid],
                           feeRate := { fees := P.modifiedFee + C.modifiedFee,
                                        size := P.vsize + C.vsize } },
                         { chosen := M.txid, package := [M.txid],
                           feeRate := { fees := M.modifiedFee, size := M.vsize } }]
          failed := [], nBlockWeight := P.weight + C.weight + M.weight,
          nBlockSigOpsCost := P.sigOpCost + C.sigOpCost + M.sigOpCost } =
        [P.txid, C.txid, M.txid] := rfl
    simp only [h0, hb3]
  unfold CreateNewBlock assembleAll
  rw [hlen]
  simp only [assemble, hr1, hr2, hr3]
  rfl

/-- The same three transactions when the fee rate of the unrelated transaction is
above the ancestor fee rate of the child's package: the unrelated transaction is
selected first, and the template is coinbase, unrelated transaction, parent, child. -/
theorem unrelated_before_package (pool : Mempool) (opts : Options) (hwf : pool.WellFormed)
    (P C M : MempoolEntry)
    (hpool : pool = [P, C, M] ∨ pool = [P, M, C] ∨ pool = [M, P, C])
    (hPa : P.ancestors = []) (hCa : C.ancestors = [P.txid]) (hMa : M.ancestors = [])
    (hfin : P.isFinal = true ∧ C.isFinal = true ∧ M.isFinal = true)
    (hw : P.weight + C.weight + M.weight ≤ opts.nBlockMaxWeight)
    (hso : P.sigOpCost + C.sigOpCost + M.sigOpCost ≤ opts.nBlockMaxSigOps)
    (hminPC : opts.blockMinFeeRate * ((P.vsize + C.vsize : Nat) : Int) / 1000 ≤
      P.modifiedFee + C.modifiedFee)
    (hminM : opts.blockMinFeeRate * (M.vsize : Int) / 1000 ≤ M.modifiedFee)
    (hlow : P.modifiedFee * ((P.vsize + C.vsize : Nat) : Int) <
      (P.modifiedFee + C.modifiedFee) * (P.vsize : Int))
    (hbelow : (P.modifiedFee + C.modifiedFee) * (M.vsize : Int) <
      M.modifiedFee * ((P.vsize + C.vsize : Nat) : Int)) :
    CreateNewBlock pool opts =
      [BlockTx.coinbase, BlockTx.tx M.txid, BlockTx.tx P.txid, BlockTx.tx C.txid] := by
  obtain ⟨hfP, hfC, hfM⟩ := hfin
  have hids : P.txid ≠ C.txid ∧ P.txid ≠ M.txid ∧ C.txid ≠ M.txid := by
    have hnd := hwf.1
    rcases hpool with rfl | rfl | rfl <;> simp at hnd <;> tauto
  obtain ⟨hPC, hPM, hCM⟩ := hids
  have hCP : C.txid ≠ P.txid := Ne.symm hPC
  have hMP : M.txid ≠ P.txid := Ne.symm hPM
  have hMC : M.txid ≠ C.txid := Ne.symm hCM
  have hmemP : P ∈ pool := by rcases hpool with rfl | rfl | rfl <;> simp
  have hmemC : C ∈ pool := by rcases hpool with rfl | rfl | rfl <;> simp
  have hmemM : M ∈ pool := by rcases hpool with rfl | rfl | rfl <;> simp
  have hmem : ∀ x ∈ pool, x = P ∨ x = C ∨ x = M := by
    intro x hx
    rcases hpool with rfl | rfl | rfl <;> simp at hx <;> tauto
  have hsP : (0 : Int) < (P.vsize : Int) := by exact_mod_cast hwf.2.1 P hmemP
  have hsM : (0 : Int) < (M.vsize : Int) := by exact_mod_cast hwf.2.1 M hmemM
  have hsPC : (0 : Int) < ((P.vsize + C.vsize : Nat) : Int) := by
    have := hwf.2.1 P hmemP
    exact_mod_cast (by omega : 0 < P.vsize + C.vsize)
  -- the packages
  have hpkP : package pool [] P = [P] := by
    rcases hpool with rfl | rfl | rfl <;> simp [package, hPa, hCP, hMP]
  have hpkC : package pool [] C = [P, C] := by
    rcases hpool with rfl | rfl | rfl <;> simp [package, hCa, hPC, hMP, hMC]
  have hpkM : package pool [] M = [M] := by
    rcases hpool with rfl | rfl | rfl <;> simp [package, hMa, hPM, hCM]
  have hpkP2 : package pool [M.txid] P = [P] := by
    rcases hpool with rfl | rfl | rfl <;> simp [package, hPa, hCP, hMP, hPM]
  have hpkC2 : package pool [M.txid] C = [P, C] := by
    rcases hpool with rfl | rfl | rfl <;> simp [package, hCa, hPC, hMP, hMC, hPM, hCM]
  have hcand3 : candidates pool [M.txid, P.txid, C.txid] [] = [] := by
    rcases hpool with rfl | rfl | rfl <;> simp [candidates]
  have hlen : pool.length = 3 := by rcases hpool with rfl | rfl | rfl <;> rfl
  have hrP : ancestorFeeRate pool [] P = { fees := P.modifiedFee, size := P.vsize } := by
    simp [ancestorFeeRate, packageFees, packageSize, hpkP]
  have hrC : ancestorFeeRate pool [] C =
      { fees := P.modifiedFee + C.modifiedFee, size := P.vsize + C.vsize } := by
    simp [ancestorFeeRate, packageFees, packageSize, hpkC]
  have hrM : ancestorFeeRate pool [] M = { fees := M.modifiedFee, size := M.vsize } := by
    simp [ancestorFeeRate, packageFees, packageSize, hpkM]
  have hrP2 : ancestorFeeRate pool [M.txid] P = { fees := P.modifiedFee, size := P.vsize } := by
    simp [ancestorFeeRate, packageFees, packageSize, hpkP2]
  have hrC2 : ancestorFeeRate pool [M.txid] C =
      { fees := P.modifiedFee + C.modifiedFee, size := P.vsize + C.vsize } := by
    simp [ancestorFeeRate, packageFees, packageSize, hpkC2]
  -- the first round selects the unrelated transaction
  have hb1 : bestCandidate pool [] [] = some M := by
    cases hb : bestCandidate pool [] [] with
    | none =>
      have hnil := candidates_nil_of_bestCandidate_none hb
      have : M ∈ candidates pool [] [] := mem_candidates.2 ⟨hmemM, by simp, by simp⟩
      rw [hnil] at this
      simp at this
    | some b =>
      have hbmem := (mem_candidates.1 (bestCandidate_mem hb)).1
      have hmax := bestCandidate_max hwf hb M (mem_candidates.2 ⟨hmemM, by simp, by simp⟩)
      rcases hmem b hbmem with rfl | rfl | rfl
      · exfalso
        rw [hrM, hrP] at hmax
        unfold FeeRate.le at hmax
        simp only [] at hmax
        have h1 := mul_lt_mul_of_pos_right hlow hsM
        have h2 := mul_lt_mul_of_pos_right hbelow hsP
        have h3 := mul_le_mul_of_nonneg_right hmax (le_of_lt hsPC)
        nlinarith
      · exfalso
        rw [hrM, hrC] at hmax
        unfold FeeRate.le at hmax
        simp only [] at hmax
        omega
      · rfl
  have hr1 : selectRound pool opts AssemblerState.init = some
      { selections := [{ chosen := M.txid, package := [M.txid],
                         feeRate := { fees := M.modifiedFee, size := M.vsize } }]
        failed := [], nBlockWeight := M.weight, nBlockSigOpsCost := M.sigOpCost } := by
    unfold selectRound
    have h0 : AssemblerState.init.selected = [] := rfl
    have h0' : AssemblerState.init.failed = [] := rfl
    have hw1 : M.weight ≤ opts.nBlockMaxWeight := by omega
    have hso1 : M.sigOpCost ≤ opts.nBlockMaxSigOps := by omega
    rw [h0, h0', hb1]
    simp [AssemblerState.init, AssemblerState.selected, testPackage, packageWeight,
      packageSigOps, packageFees, packageSize, hpkM, hrM, hw1, hso1, hfM, hminM]
  -- the second round selects the child with its parent
  have hb2 : bestCandidate pool [M.txid] [] = some C := by
    cases hb : bestCandidate pool [M.txid] [] with
    | none =>
      have hnil := candidates_nil_of_bestCandidate_none hb
      have : C ∈ candidates pool [M.txid] [] :=
        mem_candidates.2 ⟨hmemC, by simp [hCM], by simp⟩
      rw [hnil] at this
      simp at this
    | some b =>
      obtain ⟨hbmem, hbsel, _⟩ := mem_candidates.1 (bestCandidate_mem hb)
      have hmax := bestCandidate_max hwf hb C (mem_candidates.2 ⟨hmemC, by simp [hCM], by simp⟩)
      rcases hmem b hbmem with rfl | rfl | rfl
      · exfalso
        rw [hrC2, hrP2] at hmax
        unfold FeeRate.le at hmax
        simp only [] at hmax
        omega
      · rfl
      · exfalso
        simp at hbsel
  have hr2 : selectRound pool opts
      { selections := [{ chosen := M.txid, package := [M.txid],
                         feeRate := { fees := M.modifiedFee, size := M.vsize } }]
        failed := [], nBlockWeight := M.weight, nBlockSigOpsCost := M.sigOpCost } = some
      { selections := [{ chosen := M.txid, package := [M.txid],
                         feeRate := { fees := M.modifiedFee, size := M.vsize } },
                       { chosen := C.txid, package := [P.txid, C.txid],
                         feeRate := { fees := P.modifiedFee + C.modifiedFee,
                                      size := P.vsize + C.vsize } }]
        failed := [], nBlockWeight := M.weight + (P.weight + C.weight),
        nBlockSigOpsCost := M.sigOpCost + (P.sigOpCost + C.sigOpCost) } := by
    unfold selectRound
    have h0 : AssemblerState.selected
        { selections := [{ chosen := M.txid, package := [M.txid],
                           feeRate := { fees := M.modifiedFee, size := M.vsize } }]
          failed := [], nBlockWeight := M.weight, nBlockSigOpsCost := M.sigOpCost } =
        [M.txid] := rfl
    have hw3 : M.weight + (P.weight + C.weight) ≤ opts.nBlockMaxWeight := by omega
    have hso3 : M.sigOpCost + (P.sigOpCost + C.sigOpCost) ≤ opts.nBlockMaxSigOps := by omega
    have hmin : opts.blockMinFeeRate * ((P.vsize : Int) + (C.vsize : Int)) / 1000 ≤
        P.modifiedFee + C.modifiedFee := by
      have : ((P.vsize + C.vsize : Nat) : Int) = (P.vsize : Int) + (C.vsize : Int) := by
        push_cast; rfl
      rw [← this]; exact hminPC
    simp only [h0, hb2]
    simp [testPackage, h0, packageWeight, packageSigOps, packageFees, packageSize, hpkC2,
      ancestorFeeRate, hw3, hso3, hfP, hfC, hmin]
  have hb3 : bestCandidate pool [M.txid, P.txid, C.txid] [] = none := by
    simp [bestCandidate, hcand3]
  have hr3 : selectRound pool opts
      { selections := [{ chosen := M.txid, package := [M.txid],
                         feeRate := { fees := M.modifiedFee, size := M.vsize } },
                       { chosen := C.txid, package := [P.txid, C.txid],
                         feeRate := { fees := P.modifiedFee + C.modifiedFee,
                                      size := P.vsize + C.vsize } }]
        failed := [], nBlockWeight := M.weight + (P.weight + C.weight),
        nBlockSigOpsCost := M.sigOpCost + (P.sigOpCost + C.sigOpCost) } = none := by
    unfold selectRound
    have h0 : AssemblerState.selected
        { selections := [{ chosen := M.txid, package := [M.txid],
                           feeRate := { fees := M.modifiedFee, size := M.vsize } },
                         { chosen := C.txid, package := [P.txid, C.txid],
                           feeRate := { fees := P.modifiedFee + C.modifiedFee,
                                        size := P.vsize + C.vsize } }]
          failed := [], nBlockWeight := M.weight + (P.weight + C.weight),
          nBlockSigOpsCost := M.sigOpCost + (P.sigOpCost + C.sigOpCost) } =
        [M.txid, P.txid, C.txid] := rfl
    simp only [h0, hb3]
  unfold CreateNewBlock assembleAll
  rw [hlen]
  simp only [assemble, hr1, hr2, hr3]
  rfl

/-- C16: in every template produced by `CreateNewBlock` from a well-formed mempool
each transaction appears after all of its in-mempool ancestors. For a mempool of a
parent, a child spending it and an unrelated transaction, admitted in any order that
admits the parent before the child, whose packages pass the limits of the template,
and with a parent whose own fee rate is below the ancestor fee rate of the
parent+child package: when that package rate exceeds the fee rate of the unrelated
transaction the template is coinbase, parent, child, unrelated transaction, and
when it is below that fee rate the template is coinbase, unrelated transaction,
parent, child. In particular, with the fees 1000 (parent), 50000 (child) and 10000
(unrelated) and equal sizes the template is coinbase, parent, child, medium. -/
theorem CreateNewBlock_ancestors_first (pool : Mempool) (opts : Options)
    (hwf : pool.WellFormed) :
    (∀ (before : List BlockTx) (t : Nat) (after : List BlockTx),
        CreateNewBlock pool opts = before ++ BlockTx.tx t :: after →
        ∀ e ∈ pool, e.txid = t → ∀ a ∈ e.ancestors, BlockTx.tx a ∈ before) ∧
      (∀ P C M : MempoolEntry,
        (pool = [P, C, M] ∨ pool = [P, M, C] ∨ pool = [M, P, C]) →
        P.ancestors = [] → C.ancestors = [P.txid] → M.ancestors = [] →
        (P.isFinal = true ∧ C.isFinal = true ∧ M.isFinal = true) →
        P.weight + C.weight + M.weight ≤ opts.nBlockMaxWeight →
        P.sigOpCost + C.sigOpCost + M.sigOpCost ≤ opts.nBlockMaxSigOps →
        opts.blockMinFeeRate * ((P.vsize + C.vsize : Nat) : Int) / 1000 ≤
          P.modifiedFee + C.modifiedFee →
        opts.blockMinFeeRate * (M.vsize : Int) / 1000 ≤ M.modifiedFee →
        P.modifiedFee * ((P.vsize + C.vsize : Nat) : Int) <
          (P.modifiedFee + C.modifiedFee) * (P.vsize : Int) →
        (M.modifiedFee * ((P.vsize + C.vsize : Nat) : Int) <
            (P.modifiedFee + C.modifiedFee) * (M.vsize : Int) →
          CreateNewBlock pool opts =
            [BlockTx.coinbase, BlockTx.tx P.txid, BlockTx.tx C.txid, BlockTx.tx M.txid]) ∧
        ((P.modifiedFee + C.modifiedFee) * (M.vsize : Int) <
            M.modifiedFee * ((P.vsize + C.vsize : Nat) : Int) →
          CreateNewBlock pool opts =
            [BlockTx.coinbase, BlockTx.tx M.txid, BlockTx.tx P.txid, BlockTx.tx C.txid])) ∧
      ∀ P C M : MempoolEntry,
        (pool = [P, C, M] ∨ pool = [P, M, C] ∨ pool = [M, P, C]) →
        P.ancestors = [] → C.ancestors = [P.txid] → M.ancestors = [] →
        (P.isFinal = true ∧ C.isFinal = true ∧ M.isFinal = true) →
        (P.nFee = 1000 ∧ C.nFee = 50000 ∧ M.nFee = 10000) →
        (P.feeDelta = 0 ∧ C.feeDelta = 0 ∧ M.feeDelta = 0) →
        (C.vsize = P.vsize ∧ M.vsize = P.vsize) →
        P.weight + C.weight + M.weight ≤ opts.nBlockMaxWeight →
        P.sigOpCost + C.sigOpCost + M.sigOpCost ≤ opts.nBlockMaxSigOps →
        opts.blockMinFeeRate * ((P.vsize + P.vsize : Nat) : Int) / 1000 ≤ 51000 →
        opts.blockMinFeeRate * (P.vsize : Int) / 1000 ≤ 10000 →
        CreateNewBlock pool opts =
          [BlockTx.coinbase, BlockTx.tx P.txid, BlockTx.tx C.txid, BlockTx.tx M.txid] := by
  refine ⟨fun before t after hsplit =>
      template_ancestors_first pool opts hwf before t after hsplit, ?_, ?_⟩
  · intro P C M hpool hPa hCa hMa hfin hw hso hminPC hminM hlow
    exact ⟨fun hex => package_pulls_parent pool opts hwf P C M hpool hPa hCa hMa hfin hw hso
        hminPC hminM hlow hex,
      fun hbelow => unrelated_before_package pool opts hwf P C M hpool hPa hCa hMa hfin hw
        hso hminPC hminM hlow hbelow⟩
  · intro P C M hpool hPa hCa hMa hfin hfee hdelta hsize hw hso hmin2 hmin1
    obtain ⟨hfP, hfC, hfM⟩ := hfee
    obtain ⟨hdP, hdC, hdM⟩ := hdelta
    obtain ⟨hsC, hsM⟩ := hsize
    have hmemP : P ∈ pool := by rcases hpool with rfl | rfl | rfl <;> simp
    have hpos : (0 : Int) < (P.vsize : Int) := by exact_mod_cast hwf.2.1 P hmemP
    have hmP : P.modifiedFee = 1000 := by simp [MempoolEntry.modifiedFee, hfP, hdP]
    have hmC : C.modifiedFee = 50000 := by simp [MempoolEntry.modifiedFee, hfC, hdC]
    have hmM : M.modifiedFee = 10000 := by simp [MempoolEntry.modifiedFee, hfM, hdM]
    apply package_pulls_parent pool opts hwf P C M hpool hPa hCa hMa hfin hw hso
    · rw [hmP, hmC, hsC]; exact hmin2
    · rw [hmM, hsM]; exact hmin1
    · rw [hmP, hmC, hsC]; push_cast; omega
    · rw [hmP, hmC, hmM, hsC, hsM]; push_cast; omega

/-- Instance of C16, the fixture of `TestPackageSelection` with the options of
`AssemblerForTest`, where the unrelated transaction is admitted between the parent
and the child: the template is coinbase, parent (1), child (3), medium (2), and the
ancestor 1 of transaction 3 stands before it. -/
theorem CreateNewBlock_ancestors_first_witness :
    CreateNewBlock packageSelectionPool testOptions =
        [BlockTx.coinbase, BlockTx.tx 1, BlockTx.tx 3, BlockTx.tx 2] ∧
      BlockTx.tx 1 ∈ [BlockTx.coinbase, BlockTx.tx 1] :=
  ⟨(CreateNewBlock_ancestors_first packageSelectionPool testOptions
      (by unfold Mempool.WellFormed; decide)).2.2 (testEntry 1 1000 0 [])
      (testEntry 3 50000 0 [1]) (testEntry 2 10000 0 []) (Or.inr (Or.inl rfl)) rfl rfl rfl
      (by decide) (by decide) (by decide) (by decide) (by decide) (by decide) (by decide)
      (by decide),
    (CreateNewBlock_ancestors_first packageSelectionPool testOptions
      (by unfold Mempool.WellFormed; decide)).1 [BlockTx.coinbase, BlockTx.tx 1] 3 [BlockTx.tx 2]
      (by decide) (testEntry 3 50000 0 [1]) (by decide) rfl 1 (by decide)⟩

/-- Selecting or marking more identifiers leaves fewer candidates. -/
theorem candidates_mono {pool : Mempool} {selected selected' failed failed' : List Nat}
    (hs : ∀ x ∈ selected, x ∈ selected') (hf : ∀ x ∈ failed, x ∈ failed')
    {c : MempoolEntry} (hc : c ∈ candidates pool selected' failed') :
    c ∈ candidates pool selected failed := by
  obtain ⟨h1, h2, h3⟩ := mem_candidates.1 hc
  exact mem_candidates.2 ⟨h1, fun h => h2 (hs _ h), fun h => h3 (hf _ h)⟩

/-- A round of the assembler keeps the invariant of greedy selection. -/
theorem selectRound_greedyLog {pool : Mempool} (hwf : pool.WellFormed) (opts : Options)
    {st st' : AssemblerState} (h : selectRound pool opts st = some st')
    (hinv : GreedyLog pool st) : GreedyLog pool st' := by
  unfold selectRound at h
  split at h
  · exact absurd h (by simp)
  · rename_i e hbest
    have hecand := bestCandidate_mem hbest
    have he : e ∈ pool := (mem_candidates.1 hecand).1
    split at h
    · simp only [Option.some.injEq] at h
      subst h
      intro pre r post hsplit
      simp only at hsplit
      have hcandsub : ∀ c ∈ candidates pool
          (AssemblerState.selected
            { selections := st.selections ++
                [{ chosen := e.txid
                   package := (package pool st.selected e).map MempoolEntry.txid
                   feeRate := ancestorFeeRate pool st.selected e }]
              failed := st.failed
              nBlockWeight := st.nBlockWeight + packageWeight pool st.selected e
              nBlockSigOpsCost := st.nBlockSigOpsCost + packageSigOps pool st.selected e })
          st.failed, c ∈ candidates pool st.selected st.failed := by
        intro c hc
        refine candidates_mono ?_ (fun x hx => hx) hc
        intro x hx
        rw [selected_append]
        exact List.mem_append_left _ hx
      rcases List.eq_nil_or_concat post with hpost | ⟨post0, x, hpost⟩
      · subst hpost
        obtain ⟨hpre, hr⟩ := List.append_inj' hsplit rfl
        simp only [List.cons.injEq, and_true] at hr
        subst hr
        have hpre' : pre.flatMap Selection.package = st.selected := by
          rw [← hpre]; rfl
        rw [hpre']
        refine ⟨⟨e, he, rfl, rfl⟩, ?_, fun r' hr' => by cases hr'⟩
        intro c hc
        exact bestCandidate_max hwf hbest c (hcandsub c hc)
      · rw [List.concat_eq_append] at hpost
        subst hpost
        have hassoc : pre ++ r :: (post0 ++ [x]) = (pre ++ r :: post0) ++ [x] := by simp
        rw [hassoc] at hsplit
        obtain ⟨hold, hx⟩ := List.append_inj' hsplit rfl
        simp only [List.cons.injEq, and_true] at hx
        obtain ⟨h1, h2, h3⟩ := hinv pre r post0 hold
        refine ⟨h1, fun c hc => h2 c (hcandsub c hc), ?_⟩
        intro r' hr' c hc hct
        rcases List.mem_append.1 hr' with hin | hin
        · exact h3 r' hin c hc hct
        · simp only [List.mem_singleton] at hin
          rw [hin, ← hx] at hct
          have hce : c = e := hwf.eq_of_txid hc he hct
          rw [hce]
          exact h2 e hecand
    · simp only [Option.some.injEq] at h
      subst h
      intro pre r post hsplit
      obtain ⟨h1, h2, h3⟩ := hinv pre r post hsplit
      refine ⟨h1, fun c hc => h2 c ?_, h3⟩
      exact candidates_mono (fun x hx => hx) (fun x hx => List.mem_cons_of_mem _ hx) hc

/-- Every number of rounds keeps the invariant of greedy selection. -/
theorem assemble_greedyLog {pool : Mempool} (hwf : pool.WellFormed) (opts : Options) :
    ∀ (n : Nat) (st : AssemblerState), GreedyLog pool st →
      GreedyLog pool (assemble pool opts n st) := by
  intro n
  induction n with
  | zero => intro st h; exact h
  | succ n ih =>
    intro st h
    unfold assemble
    split
    · exact h
    · rename_i st' hst
      exact ih st' (selectRound_greedyLog hwf opts hst h)

/-- C17 as stated fails: with a free parent (1) and two children of fee 10000 (2)
and 8000 (3), the package of the parent and transaction 2 is selected at the rate
10000 / 200; transaction 3, no longer charged for the committed parent, is selected
next at the higher rate 8000 / 100, and neither of 2 and 3 is an ancestor of the
other. -/
theorem CreateNewBlock_feerate_order_counterexample :
    ¬ ∀ (pool : Mempool) (opts : Options), pool.WellFormed →
      ∀ (pre : List Selection) (r : Selection) (mid : List Selection) (r' : Selection)
        (post : List Selection),
        (assembleAll pool opts).selections = pre ++ r :: (mid ++ r' :: post) →
        ∀ A ∈ pool, ∀ B ∈ pool, A.txid ∈ r.package → B.txid ∈ r'.package →
          A.txid ∉ B.ancestors → B.txid ∉ A.ancestors →
          (ancestorFeeRate pool ((pre ++ r :: mid).flatMap Selection.package) B).le
            (ancestorFeeRate pool (pre.flatMap Selection.package) A) := by
  intro h
  have := h siblingsPool testOptions (by unfold Mempool.WellFormed; decide) []
    { chosen := 2, package := [1, 2], feeRate := { fees := 10000, size := 200 } } []
    { chosen := 3, package := [3], feeRate := { fees := 8000, size := 100 } } []
    (by decide) (testEntry 2 10000 0 [1]) (by decide) (testEntry 3 8000 0 [1]) (by decide)
    (by decide) (by decide) (by decide) (by decide)
  revert this
  unfold FeeRate.le
  decide

/-- C17 (amended): in every assembly from a well-formed mempool each selection
records the ancestor fee rate its chosen entry had at the time of the selection, and
this rate is greater than or equal to the ancestor fee rate that the entry chosen by
any later selection had at that same time. -/
theorem CreateNewBlock_greedy (pool : Mempool) (opts : Options) (hwf : pool.WellFormed)
    (pre : List Selection) (r : Selection) (post : List Selection)
    (hsplit : (assembleAll pool opts).selections = pre ++ r :: post) :
    (∃ b ∈ pool, b.txid = r.chosen ∧
        r.feeRate = ancestorFeeRate pool (pre.flatMap Selection.package) b) ∧
      ∀ r' ∈ post, ∀ c ∈ pool, c.txid = r'.chosen →
        (ancestorFeeRate pool (pre.flatMap Selection.package) c).le r.feeRate := by
  have hinit : GreedyLog pool AssemblerState.init := by
    intro pre r post h
    simp [AssemblerState.init] at h
  obtain ⟨h1, _, h3⟩ :=
    assemble_greedyLog hwf opts pool.length AssemblerState.init hinit pre r post hsplit
  exact ⟨h1, h3⟩

/-- Instance of C17 (amended) on the fixture of `TestPackageSelection`: the package
of the child is selected at the rate 51000 / 200, and the medium-fee transaction
selected after it had the rate 10000 / 100 at that time. -/
theorem CreateNewBlock_greedy_witness :
    (ancestorFeeRate packageSelectionPool [] (testEntry 2 10000 0 [])).le
      { fees := 51000, size := 200 } :=
  (CreateNewBlock_greedy packageSelectionPool testOptions
    (by unfold Mempool.WellFormed; decide) []
    { chosen := 3, package := [1, 3], feeRate := { fees := 51000, size := 200 } }
    [{ chosen := 2, package := [2], feeRate := { fees := 10000, size := 100 } }]
    (by decide)).2 _ (List.mem_singleton.2 rfl) (testEntry 2 10000 0 []) (by decide) rfl

/-- Prioritisation changes no identifier and no ancestor set, so packages keep their
members. -/
theorem package_prioritise (pool : Mempool) (a : Nat) (δ : Int) (selected : List Nat)
    (e : MempoolEntry) :
    package (PrioritiseTransaction pool a δ) selected e =
      (package pool selected e).map fun t =>
        if t.txid = a then { t with feeDelta := t.feeDelta + δ } else t := by
  unfold package PrioritiseTransaction
  rw [List.filter_map]
  congr 1
  apply List.filter_congr
  intro x _
  by_cases hx : x.txid = a <;> simp [hx]

/-- Fees of a list of entries none of which is the prioritised one. -/
theorem sum_modifiedFee_bump_of_not_mem (a : Nat) (δ : Int) :
    ∀ l : List MempoolEntry, (∀ t ∈ l, t.txid ≠ a) →
      ((l.map fun t => if t.txid = a then { t with feeDelta := t.feeDelta + δ } else t).map
        MempoolEntry.modifiedFee).sum = (l.map MempoolEntry.modifiedFee).sum := by
  intro l
  induction l with
  | nil => intro _; rfl
  | cons x rest ih =>
    intro h
    have hx : x.txid ≠ a := h x (List.mem_cons_self _ _)
    have hrest := ih fun t ht => h t (List.mem_cons_of_mem _ ht)
    simp only [List.map_cons, List.sum_cons, if_neg hx, hrest]

/-- Fees of a list of entries with distinct identifiers one of which is the
prioritised one: the delta is counted once. -/
theorem sum_modifiedFee_bump_of_mem (a : Nat) (δ : Int) :
    ∀ l : List MempoolEntry, (l.map MempoolEntry.txid).Nodup → (∃ u ∈ l, u.txid = a) →
      ((l.map fun t => if t.txid = a then { t with feeDelta := t.feeDelta + δ } else t).map
        MempoolEntry.modifiedFee).sum = (l.map MempoolEntry.modifiedFee).sum + δ := by
  intro l
  induction l with
  | nil => rintro _ ⟨u, hu, _⟩; cases hu
  | cons x rest ih =>
    intro hnodup hex
    simp only [List.map_cons, List.nodup_cons] at hnodup
    obtain ⟨hxnot, hnodup'⟩ := hnodup
    by_cases hx : x.txid = a
    · have hrest : ∀ t ∈ rest, t.txid ≠ a := by
        intro t ht hta
        exact hxnot (List.mem_map.2 ⟨t, ht, by rw [hta, hx]⟩)
      simp only [List.map_cons, List.sum_cons, if_pos hx,
        sum_modifiedFee_bump_of_not_mem a δ rest hrest, MempoolEntry.modifiedFee]
      ring
    · have hex' : ∃ u ∈ rest, u.txid = a := by
        obtain ⟨u, hu, hua⟩ := hex
        rcases List.mem_cons.1 hu with h1 | h1
        · subst h1; exact absurd hua hx
        · exact ⟨u, h1, hua⟩
      simp only [List.map_cons, List.sum_cons, if_neg hx, ih hnodup' hex']
      ring

/-- C18: a prioritisation delta counts only for the prioritised entry itself. Once
the prioritised transaction `a` has been committed to the template, its fee delta is
no part of the package fee of any entry; while `a` is not committed, the delta is
part, exactly once, of the package fee of `a` and of its descendants; and it is no
part of the package fee of an entry that is neither `a` nor a descendant of `a`. -/
theorem prioritisation_counts_once (pool : Mempool) (hwf : pool.WellFormed)
    (selected : List Nat) (a : Nat) (δ : Int) (e : MempoolEntry) :
    (a ∈ selected →
        packageFees (PrioritiseTransaction pool a δ) selected e =
          packageFees pool selected e) ∧
      (a ∉ selected → (∃ u ∈ pool, u.txid = a) → (a = e.txid ∨ a ∈ e.ancestors) →
        packageFees (PrioritiseTransaction pool a δ) selected e =
          packageFees pool selected e + δ) ∧
      (a ≠ e.txid → a ∉ e.ancestors →
        packageFees (PrioritiseTransaction pool a δ) selected e =
          packageFees pool selected e) := by
  unfold packageFees
  rw [package_prioritise]
  refine ⟨?_, ?_, ?_⟩
  · intro ha
    apply sum_modifiedFee_bump_of_not_mem
    intro t ht hta
    exact (mem_package.1 ht).2.2 (hta ▸ ha)
  · rintro ha ⟨u, hu, hua⟩ hrel
    apply sum_modifiedFee_bump_of_mem
    · exact List.Nodup.sublist ((List.filter_sublist pool).map _) hwf.1
    · refine ⟨u, mem_package.2 ⟨hu, ?_, hua ▸ ha⟩, hua⟩
      rw [hua]
      exact hrel
  · intro h1 h2
    apply sum_modifiedFee_bump_of_not_mem
    intro t ht hta
    rcases (mem_package.1 ht).2.1 with h | h
    · exact h1 (hta ▸ h)
    · exact h2 (hta ▸ h)

/-- Instance of C18, the fixture of `TestPrioritisedMining`: the template is
FreeParent (5), the transaction prioritised by `5 * COIN` (1), the parent (2), its
prioritised child (4) and FreeChild (6), without FreeGrandchild (7) and without the
de-prioritised transaction (3), which is in the template when its delta of
`-5 * COIN` is taken back; and once FreeParent is committed the package fee of
FreeChild does not depend on the delta of FreeParent. -/
theorem prioritisation_counts_once_witness :
    CreateNewBlock prioritisedPool testOptions =
        [BlockTx.coinbase, BlockTx.tx 5, BlockTx.tx 1, BlockTx.tx 2, BlockTx.tx 4,
          BlockTx.tx 6] ∧
      BlockTx.tx 3 ∈
        CreateNewBlock (PrioritiseTransaction prioritisedPool 3 (5 * COIN)) testOptions ∧
      packageFees (PrioritiseTransaction prioritisedPool 5 (-10 * COIN)) [5]
          (testEntry 6 0 (1 * COIN) [5]) =
        packageFees prioritisedPool [5] (testEntry 6 0 (1 * COIN) [5]) :=
  ⟨by decide, by decide,
    (prioritisation_counts_once prioritisedPool (by unfold Mempool.WellFormed; decide) [5] 5
      (-10 * COIN) (testEntry 6 0 (1 * COIN) [5])).1 (by decide)⟩

/-! ### ethash: FNV mixing and rotations -/

/-- C21: for all 32-bit `u` and `v`, `fnv1(u, v)` is
`((u * 0x01000193) mod 2^32) xor v` and `fnv1a(u, v)` is
`((u xor v) * 0x01000193) mod 2^32`, and both results are 32-bit values. -/
theorem fnv_wraparound (u v : Nat) (_hu : u < 2 ^ 32) (hv : v < 2 ^ 32) :
    fnv1 u v = ((u * 0x01000193) % 2 ^ 32) ^^^ v ∧
      fnv1a u v = ((u ^^^ v) * 0x01000193) % 2 ^ 32 ∧
      fnv1 u v < 2 ^ 32 ∧ fnv1a u v < 2 ^ 32 := by
  unfold fnv1 fnv1a mul32 fnv_prime UINT32_MOD
  refine ⟨rfl, rfl, ?_, ?_⟩
  · exact Nat.xor_lt_two_pow (Nat.mod_lt _ (by norm_num)) hv
  · exact Nat.mod_lt _ (by norm_num)

/-- Instance of C21 where both products pass `2^32`: `u = 0xffffffff`, `v = 1`. -/
theorem fnv_wraparound_witness :
    fnv1 0xffffffff 1 = 0xfefffe6c ∧ fnv1a 0xffffffff 1 = 0xfdfffcda :=
  ⟨(fnv_wraparound 0xffffffff 1 (by decide) (by decide)).1.trans (by decide),
    (fnv_wraparound 0xffffffff 1 (by decide) (by decide)).2.1.trans (by decide)⟩

/-- The masked count is the count modulo 32. -/
theorem mask31 (c : Nat) : c &&& 31 = c % 32 :=
  Nat.and_pow_two_sub_one_eq_mod c 5

/-- The masked negation of a count below 32. -/
theorem neg_c_mask (k : Nat) (hk : k < 32) : neg_c k &&& 31 = (32 - k) % 32 := by
  rw [mask31]
  unfold neg_c
  omega

/-- A 32-bit number has no bit from position 32 on. -/
theorem testBit_u32_high (n j : Nat) (hn : n < 2 ^ 32) (hj : 32 ≤ j) : n.testBit j = false :=
  Nat.testBit_lt_two_pow (lt_of_lt_of_le hn (Nat.pow_le_pow_right (by norm_num) hj))

/-- Left rotation: both shifts are defined and bit `i` of the result is bit
`i - c` (modulo 32) of the argument. -/
theorem rotl32_spec (n c : Nat) (hn : n < 2 ^ 32) :
    ∃ l, rotl32 n c = some l ∧ l < 2 ^ 32 ∧
      ∀ i, i < 32 → l.testBit i = n.testBit ((i + 32 - c % 32) % 32) := by
  have hk : c % 32 < 32 := Nat.mod_lt _ (by norm_num)
  have hm : (32 - c % 32) % 32 < 32 := Nat.mod_lt _ (by norm_num)
  unfold rotl32
  simp only []
  rw [mask31, neg_c_mask _ hk]
  unfold shl32 shr32 UINT32_MOD
  rw [if_pos hk, if_pos hm]
  generalize c % 32 = k at hk hm
  refine ⟨_, rfl, ?_, ?_⟩
  · apply Nat.or_lt_two_pow (Nat.mod_lt _ (by norm_num))
    rw [Nat.shiftRight_eq_div_pow]
    exact lt_of_le_of_lt (Nat.div_le_self _ _) hn
  · intro i hi
    rw [Nat.testBit_or, Nat.testBit_mod_two_pow, Nat.testBit_shiftLeft, Nat.testBit_shiftRight]
    simp only [hi, decide_True, Bool.true_and]
    by_cases hk0 : k = 0
    · subst hk0
      have e1 : (32 - 0) % 32 + i = i := by omega
      have e2 : (i + 32 - 0) % 32 = i := by omega
      simp [e1, e2, Nat.mod_eq_of_lt hi]
    · by_cases hik : k ≤ i
      · have e1 : (i + 32 - k) % 32 = i - k := by omega
        have e2 : n.testBit ((32 - k) % 32 + i) = false :=
          testBit_u32_high n _ hn (by omega)
        simp [e1, e2, hik]
      · have e1 : (i + 32 - k) % 32 = (32 - k) % 32 + i := by omega
        simp [e1, hik]

/-- Right rotation: both shifts are defined and bit `i` of the result is bit
`i + c` (modulo 32) of the argument. -/
theorem rotr32_spec (n c : Nat) (hn : n < 2 ^ 32) :
    ∃ r, rotr32 n c = some r ∧ r < 2 ^ 32 ∧
      ∀ i, i < 32 → r.testBit i = n.testBit ((i + c % 32) % 32) := by
  have hk : c % 32 < 32 := Nat.mod_lt _ (by norm_num)
  have hm : (32 - c % 32) % 32 < 32 := Nat.mod_lt _ (by norm_num)
  unfold rotr32
  simp only []
  rw [mask31, neg_c_mask _ hk]
  unfold shl32 shr32 UINT32_MOD
  rw [if_pos hk, if_pos hm]
  generalize c % 32 = k at hk hm
  refine ⟨_, rfl, ?_, ?_⟩
  · apply Nat.or_lt_two_pow _ (Nat.mod_lt _ (by norm_num))
    rw [Nat.shiftRight_eq_div_pow]
    exact lt_of_le_of_lt (Nat.div_le_self _ _) hn
  · intro i hi
    rw [Nat.testBit_or, Nat.testBit_mod_two_pow, Nat.testBit_shiftLeft, Nat.testBit_shiftRight]
    simp only [hi, decide_True, Bool.true_and]
    by_cases hk0 : k = 0
    · subst hk0
      simp [Nat.mod_eq_of_lt hi]
    · by_cases hik : i + k < 32
      · have e1 : (i + k) % 32 = k + i := by omega
        have e2 : ¬ (i ≥ (32 - k) % 32) := by omega
        simp [e1, e2]
      · have e1 : (i + k) % 32 = i - (32 - k) % 32 := by omega
        have e2 : i ≥ (32 - k) % 32 := by omega
        have e3 : n.testBit (k + i) = false := testBit_u32_high n _ hn (by omega)
        simp [e1, e2, e3]

/-- C22: for every 32-bit `n` and every count `c`, both shifts of `rotl32(n, c)` and
of `rotr32(n, c)` are by less than 32 positions, so both functions return; bit `i` of
`rotl32(n, c)` is bit `(i - c) mod 32` of `n`, bit `i` of `rotr32(n, c)` is bit
`(i + c) mod 32` of `n`, both results are 32-bit values, and
`rotr32(rotl32(n, c), c) = n`. -/
theorem rotl32_rotr32_spec (n c : Nat) (hn : n < 2 ^ 32) :
    ∃ l r, rotl32 n c = some l ∧ rotr32 n c = some r ∧ l < 2 ^ 32 ∧ r < 2 ^ 32 ∧
      (∀ i, i < 32 → l.testBit i = n.testBit ((i + 32 - c % 32) % 32)) ∧
      (∀ i, i < 32 → r.testBit i = n.testBit ((i + c % 32) % 32)) ∧
      rotr32 l c = some n := by
  obtain ⟨l, hl, hl32, hlb⟩ := rotl32_spec n c hn
  obtain ⟨r, hr, hr32, hrb⟩ := rotr32_spec n c hn
  obtain ⟨m, hm, hm32, hmb⟩ := rotr32_spec l c hl32
  refine ⟨l, r, hl, hr, hl32, hr32, hlb, hrb, ?_⟩
  rw [hm]
  congr 1
  apply Nat.eq_of_testBit_eq
  intro i
  have hk : c % 32 < 32 := Nat.mod_lt _ (by norm_num)
  by_cases hi : i < 32
  · rw [hmb i hi, hlb _ (Nat.mod_lt _ (by norm_num))]
    congr 1
    omega
  · rw [testBit_u32_high m i hm32 (by omega), testBit_u32_high n i hn (by omega)]

/-- Instance of C22: `0x80000001` rotated left by 33 positions (one position) is
`0x00000003`, rotated right by 32 positions it is unchanged, and rotating back gives
the argument. -/
theorem rotl32_rotr32_spec_witness :
    rotl32 0x80000001 33 = some 0x00000003 ∧ rotr32 0x80000001 32 = some 0x80000001 ∧
      rotr32 0x00000003 33 = some 0x80000001 ∧
      ∃ l r, rotl32 0x80000001 33 = some l ∧ rotr32 0x80000001 33 = some r ∧
        l < 2 ^ 32 ∧ r < 2 ^ 32 ∧
        (∀ i, i < 32 → l.testBit i = (0x80000001 : Nat).testBit ((i + 32 - 33 % 32) % 32)) ∧
        (∀ i, i < 32 → r.testBit i = (0x80000001 : Nat).testBit ((i + 33 % 32) % 32)) ∧
        rotr32 l 33 = some 0x80000001 :=
  ⟨by decide, by decide, by decide, rotl32_rotr32_spec 0x80000001 33 (by decide)⟩

/-! ### Relations between the functions of pow.cpp -/

/-- C28: `CheckProofOfWork` is monotone in the hash: when it accepts `hash` for
`nBits` and `params`, it accepts every `hash2 <= hash` for the same `nBits` and
`params`. -/
theorem CheckProofOfWork_monotone (hash hash2 nBits : Nat) (params : Params)
    (h : CheckProofOfWork hash nBits params = true) (hle : hash2 ≤ hash) :
    CheckProofOfWork hash2 nBits params = true := by
  unfold CheckProofOfWork UintToArith256 at h ⊢
  simp only [] at h ⊢
  generalize SetCompact nBits = t at h ⊢
  by_cases hr : (t.fNegative || decide (t.value = 0) || t.fOverflow ||
      decide (t.value > params.powLimit)) = true
  · rw [if_pos hr] at h
    exact absurd h (by simp)
  · rw [if_neg hr] at h ⊢
    by_cases hh : hash > t.value
    · rw [if_pos hh] at h
      exact absurd h (by simp)
    · have : ¬ hash2 > t.value := by omega
      rw [if_neg this]

/-- Instance of C28 on the main network: the target `0x0affff * 2^224` itself is
accepted for `nBits = 0x1f0affff`, hence so is the hash 1. -/
theorem CheckProofOfWork_monotone_witness :
    CheckProofOfWork 1 0x1f0affff mainParams = true :=
  CheckProofOfWork_monotone (0x0affff * 2 ^ 224) 1 0x1f0affff mainParams (by decide) (by decide)

/-- C29: for a non-negative target spacing, when `fPowNoRetargeting` is clear and
either `fPowAllowMinDifficultyBlocks` is clear or the time of `pblock` is at most
the time of `pindexLast` plus `5 * nPowTargetSpacing`, `GetNextWorkRequired` equals
`CalculateNextWorkRequired(pindexLast, params)`; with both flags clear the result is
that value for every `pblock`. -/
theorem GetNextWorkRequired_eq_Calculate (last : CBlockIndex) (pprev : Chain)
    (blk : CBlockHeader) (params : Params)
    (hno : params.fPowNoRetargeting = false) (hS : 0 ≤ params.nPowTargetSpacing)
    (h : params.fPowAllowMinDifficultyBlocks = false ∨
      blk.GetBlockTime ≤ last.GetBlockTime + 5 * params.nPowTargetSpacing) :
    GetNextWorkRequired (last :: pprev) (some blk) params =
        CalculateNextWorkRequired (last :: pprev) params ∧
      (params.fPowAllowMinDifficultyBlocks = false →
        ∀ blk2 : CBlockHeader, GetNextWorkRequired (last :: pprev) (some blk2) params =
          CalculateNextWorkRequired (last :: pprev) params) := by
  constructor
  · rcases h with hmin | ht
    · simp [GetNextWorkRequired, hno, hmin]
    · have h5 : ¬ blk.GetBlockTime > last.GetBlockTime + params.nPowTargetSpacing * 5 := by
        omega
      have h30 : ¬ blk.GetBlockTime > last.GetBlockTime + params.nPowTargetSpacing * 30 := by
        omega
      simp only [GetNextWorkRequired, hno, h5, h30, if_false, Bool.false_eq_true]
      split <;> rfl
  · intro hmin blk2
    simp [GetNextWorkRequired, hno, hmin]

/-- Instance of C29 on the test network, where min-difficulty blocks are allowed: a
block exactly `5 * 60` seconds after the last header of the test window gets the
result of `CalculateNextWorkRequired`. -/
theorem GetNextWorkRequired_eq_Calculate_witness :
    GetNextWorkRequired testWindow (some { nTime := 1712232000 + 20 * 30 + 300, nBits := 0 })
        testnetParams = CalculateNextWorkRequired testWindow testnetParams :=
  (GetNextWorkRequired_eq_Calculate
    { nHeight := 20, nTime := 1712232000 + 20 * 30, nBits := 0x1f0affff }
    (uniformChain 1712232000 30 0x1f0affff 19) { nTime := 1712232000 + 20 * 30 + 300, nBits := 0 }
    testnetParams rfl (by decide) (Or.inr (by decide))).1

/-- The averaging loop reads the chain only through the `nBits` of the headers it
visits and hands on the header it stops at: on two chains that agree on the `nBits`
of the `n` headers still to visit and on the time of the last of them, it fails on
both or returns the same average and headers with the same time. -/
theorem windowLoop_congr (W : Int) :
    ∀ (n k : Nat) (l1 l2 : Chain) (avg : Nat), 1 ≤ n → (k : Int) + n = W + 1 →
      (l1.take n).map CBlockIndex.nBits = (l2.take n).map CBlockIndex.nBits →
      l1[n - 1]?.map CBlockIndex.nTime = l2[n - 1]?.map CBlockIndex.nTime →
      (windowLoop W n k l1 avg).map (fun r => (r.1, r.2.head?.map CBlockIndex.nTime)) =
        (windowLoop W n k l2 avg).map (fun r => (r.1, r.2.head?.map CBlockIndex.nTime)) := by
  intro n
  induction n with
  | zero => intro k l1 l2 avg h; omega
  | succ n ih =>
    intro k l1 l2 avg _ hk hbits htime
    cases l1 with
    | nil =>
      cases l2 with
      | nil => rfl
      | cons b2 p2 => simp at hbits
    | cons b1 p1 =>
      cases l2 with
      | nil => simp at hbits
      | cons b2 p2 =>
        simp only [List.take_succ_cons, List.map_cons, List.cons.injEq] at hbits
        obtain ⟨hb, hrest⟩ := hbits
        simp only [windowLoop, hb]
        by_cases hlast : (k : Int) = W
        · have hn0 : n = 0 := by omega
          subst hn0
          simp only [Nat.zero_add, Nat.sub_self, List.getElem?_cons_zero, Option.map_some',
            Option.some.injEq] at htime
          simp [hlast, windowLoop, htime]
        · have hn1 : 1 ≤ n := by omega
          simp only [ne_eq, hlast, not_false_eq_true, if_true]
          have htime2 : p1[n - 1]?.map CBlockIndex.nTime = p2[n - 1]?.map CBlockIndex.nTime := by
            obtain ⟨m, rfl⟩ : ∃ m, n = m + 1 := ⟨n - 1, by omega⟩
            simpa using htime
          cases p1 with
          | nil =>
            cases p2 with
            | nil => rfl
            | cons c2 q2 =>
              obtain ⟨m, rfl⟩ : ∃ m, n = m + 1 := ⟨n - 1, by omega⟩
              simp at hrest
          | cons c1 q1 =>
            cases p2 with
            | nil =>
              obtain ⟨m, rfl⟩ : ∃ m, n = m + 1 := ⟨n - 1, by omega⟩
              simp at hrest
            | cons c2 q2 =>
              simp only []
              exact ih (k + 1) (c1 :: q1) (c2 :: q2) _ hn1 (by push_cast; omega) hrest htime2

/-- C26: `CalculateNextWorkRequired` depends on the timestamps only through the two
ends of the window: two chains with `pindexLast->nHeight >= W` that agree on the
`nBits` of `pindexLast` and of its first `W - 1` ancestors, on the time of
`pindexLast` and on the time of the `(W-1)`-th ancestor give the same result,
whatever the other timestamps and whatever lies before the window. -/
theorem CalculateNextWorkRequired_timestamps (last1 last2 : CBlockIndex) (pprev1 pprev2 : Chain)
    (params : Params)
    (hH1 : params.nPowTargetWindow ≤ last1.nHeight)
    (hH2 : params.nPowTargetWindow ≤ last2.nHeight)
    (hbits : ((last1 :: pprev1).take params.nPowTargetWindow.toNat).map CBlockIndex.nBits =
      ((last2 :: pprev2).take params.nPowTargetWindow.toNat).map CBlockIndex.nBits)
    (hlast : last1.nTime = last2.nTime)
    (hfirst : (last1 :: pprev1)[params.nPowTargetWindow.toNat - 1]?.map CBlockIndex.nTime =
      (last2 :: pprev2)[params.nPowTargetWindow.toNat - 1]?.map CBlockIndex.nTime) :
    CalculateNextWorkRequired (last1 :: pprev1) params =
      CalculateNextWorkRequired (last2 :: pprev2) params := by
  unfold CalculateNextWorkRequired
  simp only [if_neg (not_lt.mpr hH1), if_neg (not_lt.mpr hH2)]
  by_cases hW : params.nPowTargetWindow.toNat = 0
  · rw [hW]
    simp only [windowLoop, CBlockIndex.GetBlockTime, hlast]
  · have hWpos : 0 < params.nPowTargetWindow := by omega
    have hloop := windowLoop_congr params.nPowTargetWindow params.nPowTargetWindow.toNat 1
      (last1 :: pprev1) (last2 :: pprev2) 0 (by omega) (by push_cast; omega) hbits hfirst
    generalize windowLoop params.nPowTargetWindow params.nPowTargetWindow.toNat 1
      (last1 :: pprev1) 0 = r1 at hloop
    generalize windowLoop params.nPowTargetWindow params.nPowTargetWindow.toNat 1
      (last2 :: pprev2) 0 = r2 at hloop
    rcases r1 with _ | ⟨a1, _ | ⟨f1, t1⟩⟩ <;> rcases r2 with _ | ⟨a2, _ | ⟨f2, t2⟩⟩ <;>
      simp at hloop <;> try rfl
    obtain ⟨ha, hf⟩ := hloop
    simp only [CBlockIndex.GetBlockTime, hlast, ha, hf]

/-- Instance of C26 on the main network: `testWindow` and `skewedWindow` give the
same result, `0x1f053999`. -/
theorem CalculateNextWorkRequired_timestamps_witness :
    CalculateNextWorkRequired testWindow mainParams =
        CalculateNextWorkRequired skewedWindow mainParams ∧
      CalculateNextWorkRequired skewedWindow mainParams = some 0x1f053999 :=
  ⟨CalculateNextWorkRequired_timestamps
    { nHeight := 20, nTime := 1712232000 + 20 * 30, nBits := 0x1f0affff }
    { nHeight := 25, nTime := 1712232000 + 20 * 30, nBits := 0x1f0affff }
    (uniformChain 1712232000 30 0x1f0affff 19) skewedPrev mainParams
    (by decide) (by decide) (by decide) (by decide) (by decide), by decide⟩

/-! ### The weights of the running average -/

/-- Without 256-bit overflow the wrapped recurrence is the recurrence over the
unbounded integers. -/
theorem wrappedAverage_eq_exactAverage (chain : Chain) (W : Nat)
    (hno : ∀ k, k < W - 1 →
      exactAverage chain (k + 1) * (k + 2) + windowTarget chain (k + 2) < 2 ^ 256) :
    ∀ j, j ≤ W → wrappedAverage chain j = exactAverage chain j := by
  intro j
  induction j with
  | zero => intro _; rfl
  | succ j ih =>
    intro hj
    cases j with
    | zero => rfl
    | succ j =>
      have h := ih (by omega)
      simp only [wrappedAverage, exactAverage]
      rw [h, Nat.mod_eq_of_lt (hno j (by omega))]

/-- The recurrence `A_k = floor((A_(k-1) * k + t_k) / (k + 1))` against the weighted
sum: `A_W * (W + 1)` is at most the sum and falls short of it by at most
`W * (W + 1) / 2 - 1`. -/
theorem exactAverage_bounds (chain : Chain) :
    ∀ W, 1 ≤ W →
      exactAverage chain W * (W + 1) ≤ weightedSum chain W ∧
        2 * weightedSum chain W + 2 ≤ 2 * (exactAverage chain W * (W + 1)) + W * (W + 1) := by
  intro W
  induction W with
  | zero => intro h; omega
  | succ W ih =>
    intro _
    cases W with
    | zero =>
      simp only [exactAverage, weightedSum]
      omega
    | succ k =>
      obtain ⟨h1, h2⟩ := ih (by omega)
      simp only [exactAverage, weightedSum]
      generalize exactAverage chain (k + 1) = A at h1 h2 ⊢
      generalize weightedSum chain (k + 1) = S at h1 h2 ⊢
      generalize windowTarget chain (k + 2) = t
      have hq := Nat.div_add_mod (A * (k + 2) + t) (k + 3)
      have hr := Nat.mod_lt (A * (k + 2) + t) (show 0 < k + 3 by omega)
      generalize (A * (k + 2) + t) / (k + 3) = q at hq ⊢
      generalize (A * (k + 2) + t) % (k + 3) = r at hq hr
      have e1 : k + 1 + 1 = k + 2 := rfl
      have e2 : k + 2 + 1 = k + 3 := rfl
      simp only [e1, e2] at h1 h2 ⊢
      constructor
      · nlinarith
      · nlinarith

/-- When every division of the recurrence is exact, `A_W * (W + 1)` is the weighted
sum. -/
theorem exactAverage_exact (chain : Chain) (W : Nat)
    (hdiv : ∀ k, k < W - 1 →
      (k + 3) ∣ exactAverage chain (k + 1) * (k + 2) + windowTarget chain (k + 2)) :
    ∀ j, 1 ≤ j → j ≤ W → exactAverage chain j * (j + 1) = weightedSum chain j := by
  intro j
  induction j with
  | zero => intro h; omega
  | succ j ih =>
    intro _ hj
    cases j with
    | zero =>
      simp only [exactAverage, weightedSum]
      omega
    | succ k =>
      have h := ih (by omega) (by omega)
      simp only [exactAverage, weightedSum]
      rw [Nat.div_mul_cancel (hdiv k (by omega)), ← h]

/-- C24 as stated fails for a window of one header: the loop returns `A_1 = t_1`,
and `E = 2 * t_1 / 2 = t_1`, so `E - (W - 1) < A_W` reads `t_1 < t_1`. -/
theorem windowLoop_weighting_counterexample :
    ¬ ∀ (chain : Chain) (W : Nat), 1 ≤ W → W < 2 ^ 32 → W ≤ chain.length →
      (∀ k, k < W - 1 →
        exactAverage chain (k + 1) * (k + 2) + windowTarget chain (k + 2) < 2 ^ 256) →
      ∀ a tail, windowLoop (W : Int) W 1 chain 0 = some (a, tail) →
        ((weightedSum chain W : ℚ) / ((W : ℚ) + 1) - ((W : ℚ) - 1) < (a : ℚ) ∧
          (a : ℚ) ≤ (weightedSum chain W : ℚ) / ((W : ℚ) + 1)) := by
  intro h
  have h1 := (h (uniformChain 1712232000 60 0x1f0affff 1) 1 (by decide) (by decide) (by decide)
    (by decide) (0x0affff * 2 ^ 224) (uniformChain 1712232000 60 0x1f0affff 1) (by decide)).1
  have hs : weightedSum (uniformChain 1712232000 60 0x1f0affff 1) 1 =
      2 * (0x0affff * 2 ^ 224) := by decide
  rw [hs] at h1
  norm_num at h1

/-- C24 (amended): for a window of `W >= 2` headers held by the chain, when no
`A_(k-1) * k + t_k` reaches `2^256`, the loop of `CalculateNextWorkRequired` ends
with the average `A_W` of the recurrence `A_1 = t_1`,
`A_k = floor((A_(k-1) * k + t_k) / (k + 1))`, which satisfies
`E - (W - 1) < A_W <= E` for `E = (2 * t_1 + t_2 + ... + t_W) / (W + 1)`, and
`A_W = E` when every division of the recurrence is exact. -/
theorem windowLoop_weighting (chain : Chain) (W : Nat) (hW : 2 ≤ W) (hW32 : W < 2 ^ 32)
    (hlen : W ≤ chain.length)
    (hno : ∀ k, k < W - 1 →
      exactAverage chain (k + 1) * (k + 2) + windowTarget chain (k + 2) < 2 ^ 256) :
    ∃ a, windowLoop (W : Int) W 1 chain 0 = some (a, chain.drop (W - 1)) ∧
      a = exactAverage chain W ∧
      (weightedSum chain W : ℚ) / ((W : ℚ) + 1) - ((W : ℚ) - 1) < (a : ℚ) ∧
      (a : ℚ) ≤ (weightedSum chain W : ℚ) / ((W : ℚ) + 1) ∧
      ((∀ k, k < W - 1 →
          (k + 3) ∣ exactAverage chain (k + 1) * (k + 2) + windowTarget chain (k + 2)) →
        (a : ℚ) = (weightedSum chain W : ℚ) / ((W : ℚ) + 1)) := by
  obtain ⟨a, hloop, hspec⟩ := windowLoop_spec chain W hlen W 1 0 (by omega) (le_refl 1) (by omega)
  simp only [Nat.sub_self, List.drop_zero] at hloop
  have ha : a = exactAverage chain W := by
    rw [hspec hW32 rfl]
    exact wrappedAverage_eq_exactAverage chain W hno W (le_refl W)
  obtain ⟨h1, h2⟩ := exactAverage_bounds chain W (by omega)
  rw [← ha] at h1 h2
  have hpos : (0 : ℚ) < (W : ℚ) + 1 := by positivity
  have hWq : (2 : ℚ) ≤ (W : ℚ) := by exact_mod_cast hW
  have h1q : (a : ℚ) * ((W : ℚ) + 1) ≤ (weightedSum chain W : ℚ) := by exact_mod_cast h1
  have h2q : 2 * (weightedSum chain W : ℚ) + 2 ≤
      2 * ((a : ℚ) * ((W : ℚ) + 1)) + (W : ℚ) * ((W : ℚ) + 1) := by exact_mod_cast h2
  refine ⟨a, hloop, ha, ?_, ?_, ?_⟩
  · rw [sub_lt_iff_lt_add, div_lt_iff₀ hpos]
    nlinarith
  · rw [le_div_iff₀ hpos]
    exact h1q
  · intro hdiv
    rw [eq_div_iff (ne_of_gt hpos)]
    have := exactAverage_exact chain W hdiv W (by omega) (le_refl W)
    rw [← ha] at this
    exact_mod_cast this

/-- Instance of C24 (amended): on the twenty headers of `testWindow`, which all carry
the target `0x0affff * 2^224`, every division is exact and the loop ends with that
target, which is `E`. -/
theorem windowLoop_weighting_witness :
    ∃ a, windowLoop ((20 : Nat) : Int) 20 1 testWindow 0 = some (a, testWindow.drop (20 - 1)) ∧
      a = exactAverage testWindow 20 ∧
      (weightedSum testWindow 20 : ℚ) / (((20 : Nat) : ℚ) + 1) - (((20 : Nat) : ℚ) - 1) < (a : ℚ) ∧
      (a : ℚ) ≤ (weightedSum testWindow 20 : ℚ) / (((20 : Nat) : ℚ) + 1) ∧
      ((∀ k, k < 20 - 1 →
          (k + 3) ∣ exactAverage testWindow (k + 1) * (k + 2) + windowTarget testWindow (k + 2)) →
        (a : ℚ) = (weightedSum testWindow 20 : ℚ) / (((20 : Nat) : ℚ) + 1)) :=
  windowLoop_weighting testWindow 20 (by decide) (by decide) (by decide) (by decide)

/-! ### Monotonicity of the compact codec -/

/-- Encoding a 256-bit number and decoding the result truncates the number to a
multiple of `256^j`, where `j` is the least number with `x < 2^(23 + 8 * j)`. -/
theorem compact_truncation (x : Nat) (hx : x < 2 ^ 256) :
    ∃ j, (SetCompact (GetCompact x false)).value = x / 2 ^ (8 * j) * 2 ^ (8 * j) ∧
      x < 2 ^ (23 + 8 * j) ∧ (j = 0 ∨ 2 ^ (15 + 8 * j) ≤ x) := by
  by_cases hx0 : x = 0
  · subst hx0
    have h0 := SetCompact_GetCompact_le 0 hx
    exact ⟨0, by omega, by norm_num, Or.inl rfl⟩
  obtain ⟨hform, hm24⟩ := GetCompact_form x hx
  obtain ⟨hn32, hhi, hlo⟩ := nSize_bounds x hx
  obtain ⟨hnpos, hxlo⟩ := hlo (Nat.pos_of_ne_zero hx0)
  generalize hn : (bits x + 7) / 8 = n at hform hm24 hn32 hhi hnpos hxlo
  generalize hm : (if n ≤ 3 then x * 2 ^ (8 * (3 - n)) else x / 2 ^ (8 * (n - 3))) = m
    at hform hm24
  obtain ⟨c, s, hcs, hc, hs, hc33, hcase⟩ := encodeMantissa_parts n m hn32 hm24
  obtain ⟨_, _, _, h4⟩ := SetCompact_parts c s hc hs hc33
  rw [hform, hcs, h4]
  by_cases hn3 : n ≤ 3
  · rw [if_pos hn3] at hm
    have hcancel : m / 2 ^ (8 * (3 - n)) = x := by
      rw [← hm]
      exact Nat.mul_div_cancel x (Nat.pos_pow_of_pos _ (by norm_num))
    have hx24 : x < 2 ^ 24 :=
      lt_of_lt_of_le hhi (Nat.pow_le_pow_right (by norm_num) (by omega))
    have hxm : x ≤ m := by
      rw [← hm]
      exact Nat.le_mul_of_pos_right _ (Nat.pos_pow_of_pos _ (by norm_num))
    rcases hcase with ⟨hb, hceq, hseq⟩ | ⟨hb, hceq, hseq⟩
    · subst hceq hseq
      by_cases hn2 : n + 1 ≤ 3
      · refine ⟨0, ?_, ?_, Or.inl rfl⟩
        · unfold compactNumber
          rw [if_pos hn2, Nat.div_div_eq_div_mul, ← pow_add]
          have : 8 + 8 * (3 - (n + 1)) = 8 * (3 - n) := by omega
          rw [this, hcancel]
          simp
        · have : x < 2 ^ 16 :=
            lt_of_lt_of_le hhi (Nat.pow_le_pow_right (by norm_num) (by omega))
          omega
      · have hn3' : n = 3 := by omega
        subst hn3'
        simp only [Nat.sub_self, Nat.mul_zero, pow_zero, Nat.mul_one] at hm
        subst hm
        refine ⟨1, ?_, by omega, Or.inr (by omega)⟩
        simp [compactNumber]
    · subst hceq hseq
      refine ⟨0, ?_, by omega, Or.inl rfl⟩
      unfold compactNumber
      rw [if_pos hn3, hcancel]
      simp
  · rw [if_neg hn3] at hm
    have hP : 0 < 2 ^ (8 * (n - 3)) := Nat.pos_pow_of_pos _ (by norm_num)
    have hmP : m * 2 ^ (8 * (n - 3)) ≤ x := by
      rw [← hm]; exact Nat.div_mul_le_self _ _
    rcases hcase with ⟨hb, hceq, hseq⟩ | ⟨hb, hceq, hseq⟩
    · subst hceq hseq
      refine ⟨n - 2, ?_, ?_, Or.inr ?_⟩
      · unfold compactNumber
        have hn2 : ¬ n + 1 ≤ 3 := by omega
        rw [if_neg hn2, ← hm, Nat.div_div_eq_div_mul, ← pow_add]
        have e1 : 8 * (n - 3) + 8 = 8 * (n - 2) := by omega
        have e2 : 8 * (n + 1 - 3) = 8 * (n - 2) := by omega
        rw [e1, e2]
      · exact lt_of_lt_of_le hhi (Nat.pow_le_pow_right (by norm_num) (by omega))
      · have hm23 : 2 ^ 23 ≤ m := by omega
        calc 2 ^ (15 + 8 * (n - 2)) = 2 ^ 23 * 2 ^ (8 * (n - 3)) := by
              rw [← pow_add]; congr 1; omega
          _ ≤ m * 2 ^ (8 * (n - 3)) := Nat.mul_le_mul_right _ hm23
          _ ≤ x := hmP
    · subst hceq hseq
      refine ⟨s - 3, ?_, ?_, Or.inr ?_⟩
      · unfold compactNumber
        rw [if_neg hn3, ← hm]
      · rw [pow_add, ← Nat.div_lt_iff_lt_mul hP, hm]
        exact hb
      · exact le_trans (Nat.pow_le_pow_right (by norm_num) (by omega)) hxlo

/-- Encoding followed by decoding is monotone on 256-bit numbers. -/
theorem compact_roundtrip_mono (x y : Nat) (hxy : x ≤ y) (hy : y < 2 ^ 256) :
    (SetCompact (GetCompact x false)).value ≤ (SetCompact (GetCompact y false)).value := by
  obtain ⟨j, hvx, hxhi, hxlo⟩ := compact_truncation x (lt_of_le_of_lt hxy hy)
  obtain ⟨k, hvy, hyhi, hylo⟩ := compact_truncation y hy
  rw [hvx, hvy]
  rcases Nat.lt_trichotomy j k with hjk | hjk | hjk
  · -- the truncation of `y` is at least `2^(15 + 8 * k)`, which is above `x`
    have hk : 2 ^ (15 + 8 * k) ≤ y := by
      rcases hylo with h | h
      · omega
      · exact h
    have h1 : x / 2 ^ (8 * j) * 2 ^ (8 * j) ≤ x := Nat.div_mul_le_self _ _
    have h2 : x < 2 ^ (15 + 8 * k) :=
      lt_of_lt_of_le hxhi (Nat.pow_le_pow_right (by norm_num) (by omega))
    have h3 : 2 ^ 15 ≤ y / 2 ^ (8 * k) := by
      rw [Nat.le_div_iff_mul_le (Nat.pos_pow_of_pos _ (by norm_num)), ← pow_add]
      exact hk
    have h4 : 2 ^ (15 + 8 * k) ≤ y / 2 ^ (8 * k) * 2 ^ (8 * k) := by
      rw [pow_add]
      exact Nat.mul_le_mul_right _ h3
    omega
  · subst hjk
    exact Nat.mul_le_mul_right _ (Nat.div_le_div_right hxy)
  · exfalso
    have hj : 2 ^ (15 + 8 * j) ≤ x := by
      rcases hxlo with h | h
      · omega
      · exact h
    have : y < 2 ^ (15 + 8 * j) :=
      lt_of_lt_of_le hyhi (Nat.pow_le_pow_right (by norm_num) (by omega))
    omega

/-! ### The retargeting computation without overflow -/

/-- On a window held by the chain, with `0 < W`, `0 < S` and `3 * W * S < 2^32`, the
clamped timespan lies in `[0, 3 * W * S]` and the result is
`GetCompact(min(powLimit, floor(((A_W * ts) mod 2^256) / (W * S))))` for the wrapped
average `A_W` and the clamped timespan `ts`. -/
theorem CalculateNextWorkRequired_formula (last : CBlockIndex) (pprev : Chain) (params : Params)
    (hW : 0 < params.nPowTargetWindow) (hS : 0 < params.nPowTargetSpacing)
    (hT : params.nPowTargetWindow * params.nPowTargetSpacing * 3 < 2 ^ 32)
    (hH : params.nPowTargetWindow ≤ last.nHeight)
    (hlen : params.nPowTargetWindow ≤ ((last :: pprev).length : Int)) :
    0 ≤ clampTimespan (rawTimespan (last :: pprev) params.nPowTargetWindow.toNat)
        (params.nPowTargetWindow * params.nPowTargetSpacing) ∧
      clampTimespan (rawTimespan (last :: pprev) params.nPowTargetWindow.toNat)
        (params.nPowTargetWindow * params.nPowTargetSpacing) ≤
          params.nPowTargetWindow * params.nPowTargetSpacing * 3 ∧
      CalculateNextWorkRequired (last :: pprev) params =
        some (GetCompact (min (UintToArith256 params.powLimit)
          ((wrappedAverage (last :: pprev) params.nPowTargetWindow.toNat *
                (clampTimespan (rawTimespan (last :: pprev) params.nPowTargetWindow.toNat)
                  (params.nPowTargetWindow * params.nPowTargetSpacing)).toNat) % 2 ^ 256 /
            (params.nPowTargetWindow * params.nPowTargetSpacing).toNat)) false) := by
  have hWT : params.nPowTargetWindow ≤ params.nPowTargetWindow * params.nPowTargetSpacing :=
    le_mul_of_one_le_right (le_of_lt hW) hS
  have hT0 : 0 < params.nPowTargetWindow * params.nPowTargetSpacing := mul_pos hW hS
  obtain ⟨a, tail, _, ha, hcalc⟩ := CalculateNextWorkRequired_window last pprev params hW hH hlen
  rw [hcalc, scaleTarget_some params _ _ hT0 (by omega), ha (by omega)]
  obtain ⟨hlo, hhi, _⟩ := clampTimespan_bounds
    (rawTimespan (last :: pprev) params.nPowTargetWindow.toNat)
    (params.nPowTargetWindow * params.nPowTargetSpacing) (le_of_lt hT0)
  generalize clampTimespan (rawTimespan (last :: pprev) params.nPowTargetWindow.toNat)
    (params.nPowTargetWindow * params.nPowTargetSpacing) = ts at hlo hhi
  have hts : ts % 2 ^ 32 = ts := Int.emod_eq_of_lt (by omega) (by omega)
  refine ⟨by omega, hhi, ?_⟩
  unfold arith_mul32 UINT256_MOD
  rw [hts]

/-- The average of targets that are all at most `M` is at most `M`. -/
theorem exactAverage_le (chain : Chain) (M W : Nat)
    (hM : ∀ k, k < W → windowTarget chain (k + 1) ≤ M) :
    ∀ j, j ≤ W → exactAverage chain j ≤ M := by
  intro j
  induction j with
  | zero => intro _; exact Nat.zero_le _
  | succ j ih =>
    intro hj
    cases j with
    | zero => exact hM 0 (by omega)
    | succ k =>
      have hA := ih (by omega)
      have ht : windowTarget chain (k + 2) ≤ M := hM (k + 1) (by omega)
      simp only [exactAverage]
      apply Nat.div_le_of_le_mul
      have : exactAverage chain (k + 1) * (k + 2) ≤ M * (k + 2) := Nat.mul_le_mul_right _ hA
      have e : (k + 3) * M = M * (k + 2) + M := by ring
      omega

/-- When the targets of the window are at most `M` and `M * (W + 1) < 2^256`, no
`A_(k-1) * k + t_k` reaches `2^256`. -/
theorem exactAverage_no_overflow (chain : Chain) (M W : Nat)
    (hM : ∀ k, k < W → windowTarget chain (k + 1) ≤ M) (hb : M * (W + 1) < 2 ^ 256) :
    ∀ k, k < W - 1 →
      exactAverage chain (k + 1) * (k + 2) + windowTarget chain (k + 2) < 2 ^ 256 := by
  intro k hk
  have hA := exactAverage_le chain M W hM (k + 1) (by omega)
  have ht : windowTarget chain (k + 2) ≤ M := hM (k + 1) (by omega)
  have h1 : exactAverage chain (k + 1) * (k + 2) ≤ M * (k + 2) := Nat.mul_le_mul_right _ hA
  have h2 : M * (k + 3) ≤ M * (W + 1) := Nat.mul_le_mul_left _ (by omega)
  have e : M * (k + 3) = M * (k + 2) + M := by ring
  omega

/-- When the targets of the window are at most `M`, `M * (W + 1) < 2^256` and
`M * 3 * W * S < 2^256`, the result is the computation over the unbounded
integers. -/
theorem CalculateNextWorkRequired_of_bound (last : CBlockIndex) (pprev : Chain)
    (params : Params) (M : Nat)
    (hW : 0 < params.nPowTargetWindow) (hS : 0 < params.nPowTargetSpacing)
    (hT : params.nPowTargetWindow * params.nPowTargetSpacing * 3 < 2 ^ 32)
    (hH : params.nPowTargetWindow ≤ last.nHeight)
    (hlen : params.nPowTargetWindow ≤ ((last :: pprev).length : Int))
    (hM : ∀ k, k < params.nPowTargetWindow.toNat → windowTarget (last :: pprev) (k + 1) ≤ M)
    (hb1 : M * (params.nPowTargetWindow.toNat + 1) < 2 ^ 256)
    (hb2 : M * (params.nPowTargetWindow * params.nPowTargetSpacing * 3).toNat < 2 ^ 256) :
    (∀ ts : Nat, ts ≤ (params.nPowTargetWindow * params.nPowTargetSpacing * 3).toNat →
        exactAverage (last :: pprev) params.nPowTargetWindow.toNat * ts < 2 ^ 256) ∧
      CalculateNextWorkRequired (last :: pprev) params =
        some (GetCompact (min (UintToArith256 params.powLimit)
          (exactAverage (last :: pprev) params.nPowTargetWindow.toNat *
              (clampTimespan (rawTimespan (last :: pprev) params.nPowTargetWindow.toNat)
                (params.nPowTargetWindow * params.nPowTargetSpacing)).toNat /
            (params.nPowTargetWindow * params.nPowTargetSpacing).toNat)) false) := by
  have hA := exactAverage_le (last :: pprev) M _ hM _ (le_refl _)
  have hprod : ∀ ts : Nat,
      ts ≤ (params.nPowTargetWindow * params.nPowTargetSpacing * 3).toNat →
        exactAverage (last :: pprev) params.nPowTargetWindow.toNat * ts < 2 ^ 256 := by
    intro ts hts
    exact lt_of_le_of_lt (Nat.mul_le_mul hA hts) hb2
  obtain ⟨h0, h3, hcalc⟩ := CalculateNextWorkRequired_formula last pprev params hW hS hT hH hlen
  refine ⟨hprod, ?_⟩
  rw [hcalc, wrappedAverage_eq_exactAverage _ _
    (exactAverage_no_overflow _ M _ hM hb1) _ (le_refl _),
    Nat.mod_eq_of_lt (hprod _ (by omega))]

/-- C25: under the main-net and the testnet parameters (window 20, spacing 60, power
limit `0x000affff...ff`), when every target of the window is at most the power
limit, no `A_(k-1) * k + t_k` for `k <= 20` and no product of the average with a
timespan of at most 3600 reaches `2^256`, the clamped timespan is at most 3600, and
the result is `GetCompact(min(powLimit, floor(A_20 * ts / 1200)))` computed over the
unbounded integers; and the power limit is below `(2^256 - 1) / (20 * 3)`, the bound
of the parameter sanity test. -/
theorem CalculateNextWorkRequired_no_overflow (params : Params)
    (hp : params = mainParams ∨ params = testnetParams)
    (last : CBlockIndex) (pprev : Chain) (hH : 20 ≤ last.nHeight)
    (hlen : 20 ≤ (last :: pprev).length)
    (hM : ∀ k, k < 20 → windowTarget (last :: pprev) (k + 1) ≤ params.powLimit) :
    (∀ k, k < 19 →
        exactAverage (last :: pprev) (k + 1) * (k + 2) + windowTarget (last :: pprev) (k + 2) <
          2 ^ 256) ∧
      (∀ ts : Nat, ts ≤ 3600 → exactAverage (last :: pprev) 20 * ts < 2 ^ 256) ∧
      0 ≤ clampTimespan (rawTimespan (last :: pprev) 20) 1200 ∧
      clampTimespan (rawTimespan (last :: pprev) 20) 1200 ≤ 3600 ∧
      CalculateNextWorkRequired (last :: pprev) params =
        some (GetCompact (min (UintToArith256 params.powLimit)
          (exactAverage (last :: pprev) 20 *
            (clampTimespan (rawTimespan (last :: pprev) 20) 1200).toNat / 1200)) false) ∧
      arith_div64 (2 ^ 256 - 1) (params.nPowTargetWindow * 3) = some ((2 ^ 256 - 1) / 60) ∧
      UintToArith256 params.powLimit < (2 ^ 256 - 1) / 60 := by
  have hlenZ : (20 : Int) ≤ ((last :: pprev).length : Int) := by exact_mod_cast hlen
  have hpar : params.powLimit = mainParams.powLimit ∧ params.nPowTargetWindow = 20 ∧
      params.nPowTargetSpacing = 60 := by
    rcases hp with rfl | rfl <;> exact ⟨rfl, rfl, rfl⟩
  obtain ⟨hpl, hWv, hSv⟩ := hpar
  have hWn : params.nPowTargetWindow.toNat = 20 := by rw [hWv]; rfl
  have hlim : params.powLimit * 21 < 2 ^ 256 := by rw [hpl]; decide
  have hlim2 : params.powLimit * 3600 < 2 ^ 256 := by rw [hpl]; decide
  have hbound := CalculateNextWorkRequired_of_bound last pprev params params.powLimit
    (by rw [hWv]; decide) (by rw [hSv]; decide) (by rw [hWv, hSv]; decide)
    (by rw [hWv]; exact hH) (by rw [hWv]; exact hlenZ)
    (by rw [hWn]; exact hM) (by rw [hWn]; exact hlim)
    (by rw [hWv, hSv]; exact hlim2)
  obtain ⟨h0, h3, _⟩ := CalculateNextWorkRequired_formula last pprev params
    (by rw [hWv]; decide) (by rw [hSv]; decide) (by rw [hWv, hSv]; decide)
    (by rw [hWv]; exact hH) (by rw [hWv]; exact hlenZ)
  rw [hWn, hWv, hSv] at hbound h0 h3
  refine ⟨?_, hbound.1, h0, h3, hbound.2, ?_, ?_⟩
  · exact exactAverage_no_overflow _ params.powLimit 20 hM hlim
  · rw [hWv]; decide
  · rw [hpl]; decide

/-- Instance of C25: the test vector of `pow_tests.cpp` on the main network, whose
clamped timespan is 570 seconds. -/
theorem CalculateNextWorkRequired_no_overflow_witness :
    CalculateNextWorkRequired testWindow mainParams =
      some (GetCompact (min (UintToArith256 mainParams.powLimit)
        (exactAverage testWindow 20 *
          (clampTimespan (rawTimespan testWindow 20) 1200).toNat / 1200)) false) :=
  (CalculateNextWorkRequired_no_overflow mainParams (Or.inl rfl)
    { nHeight := 20, nTime := 1712232000 + 20 * 30, nBits := 0x1f0affff }
    (uniformChain 1712232000 30 0x1f0affff 19) (by decide) (by decide) (by decide)).2.2.2.2.1

/-! ### Windows of equal targets on schedule -/

/-- The average of equal targets is that target. -/
theorem exactAverage_uniform (chain : Chain) (T W : Nat)
    (hT : ∀ k, k < W → windowTarget chain (k + 1) = T) :
    ∀ j, 1 ≤ j → j ≤ W → exactAverage chain j = T := by
  intro j
  induction j with
  | zero => intro h; omega
  | succ j ih =>
    intro _ hj
    cases j with
    | zero => exact hT 0 (by omega)
    | succ k =>
      have hA := ih (by omega) (by omega)
      have ht : windowTarget chain (k + 2) = T := hT (k + 1) (by omega)
      simp only [exactAverage]
      rw [hA, ht]
      have e : T * (k + 2) + T = T * (k + 3) := by ring
      rw [e]
      exact Nat.mul_div_cancel _ (by omega)

/-- When consecutive headers of the window are `S` seconds apart, the raw timespan of
the window is `(W - 1) * S`. -/
theorem rawTimespan_uniform (chain : Chain) (W : Nat) (S : Int) (hW : 1 ≤ W)
    (hlen : W ≤ chain.length)
    (hstep : ∀ k, k < W - 1 → chain[k]?.map CBlockIndex.GetBlockTime =
      chain[k + 1]?.map (fun b => b.GetBlockTime + S)) :
    rawTimespan chain W = ((W - 1 : Nat) : Int) * S := by
  have hdiff : ∀ j, j < W → ∀ a b, chain[0]? = some a → chain[j]? = some b →
      a.GetBlockTime - b.GetBlockTime = (j : Int) * S := by
    intro j
    induction j with
    | zero =>
      intro _ a b ha hb
      rw [ha] at hb
      simp only [Option.some.injEq] at hb
      subst hb
      simp
    | succ j ih =>
      intro hj a b ha hb
      have hjlt : j < chain.length := by omega
      have h1 := ih (by omega) a chain[j] ha (List.getElem?_eq_getElem hjlt)
      have h2 := hstep j (by omega)
      rw [List.getElem?_eq_getElem hjlt, hb] at h2
      simp only [Option.map_some', Option.some.injEq] at h2
      push_cast
      rw [← sub_add_sub_cancel a.GetBlockTime chain[j].GetBlockTime b.GetBlockTime, h1, h2]
      ring
  have h0 : 0 < chain.length := by omega
  have hl : W - 1 < chain.length := by omega
  unfold rawTimespan
  rw [List.getElem?_eq_getElem h0, List.getElem?_eq_getElem hl]
  exact hdiff (W - 1) (by omega) _ _ (List.getElem?_eq_getElem h0) (List.getElem?_eq_getElem hl)

/-- C23 as stated fails for a target spacing of one second: with the power limit of
the regression-test network, window 20 and twenty-one headers of
`nBits = 0x200d0000` (target `T = 0x0d0000 * 2^232`) one second apart,
`T * 19 * 1 < 2^256`, but `A_19 * 20 + T = 21 * T` passes `2^256`; the function
returns `0x2000c4e0` and not `GetCompact(floor(T * 19 / 20)) = 0x200c5999`. -/
theorem CalculateNextWorkRequired_uniform_counterexample :
    ¬ ∀ (last : CBlockIndex) (pprev : Chain) (params : Params) (T : Nat),
      2 ≤ params.nPowTargetWindow → 0 < params.nPowTargetSpacing →
      params.nPowTargetWindow * params.nPowTargetSpacing * 3 < 2 ^ 32 →
      params.powLimit < 2 ^ 256 →
      params.nPowTargetWindow ≤ last.nHeight →
      params.nPowTargetWindow ≤ ((last :: pprev).length : Int) →
      (∀ k, k < params.nPowTargetWindow.toNat → windowTarget (last :: pprev) (k + 1) = T) →
      1 ≤ T → T ≤ params.powLimit →
      T * (params.nPowTargetWindow.toNat - 1) * params.nPowTargetSpacing.toNat < 2 ^ 256 →
      (∀ k, k < params.nPowTargetWindow.toNat - 1 →
        (last :: pprev)[k]?.map CBlockIndex.GetBlockTime =
          (last :: pprev)[k + 1]?.map (fun b => b.GetBlockTime + params.nPowTargetSpacing)) →
      CalculateNextWorkRequired (last :: pprev) params =
        some (GetCompact
          (T * (params.nPowTargetWindow.toNat - 1) / params.nPowTargetWindow.toNat) false) := by
  intro h
  have := h { nHeight := 20, nTime := 1712232000 + 20 * 1, nBits := 0x200d0000 }
    (uniformChain 1712232000 1 0x200d0000 19) oneSecondParams (0x0d0000 * 2 ^ 232)
    (by decide) (by decide) (by decide) (by decide) (by decide) (by decide) (by decide)
    (by decide) (by decide) (by decide) (by decide)
  revert this
  decide

/-- C23 (amended): for a window (`pindexLast->nHeight >= W`, `W >= 2`, `S > 0`,
`3 * W * S < 2^32`) whose `W` headers all decode to the same target `T` with
`1 <= T <= powLimit` and `T * (W - 1) * S < 2^256`, and with `T * (W + 1) < 2^256`
(which follows when `S >= 3`), whose consecutive timestamps differ by exactly `S`,
the average computed by the loop is `T` and `CalculateNextWorkRequired` returns
`GetCompact(floor(T * (W - 1) / W))`, a value strictly below `T` before encoding. -/
theorem CalculateNextWorkRequired_uniform (last : CBlockIndex) (pprev : Chain)
    (params : Params) (T : Nat)
    (hW : 2 ≤ params.nPowTargetWindow) (hS : 0 < params.nPowTargetSpacing)
    (hT32 : params.nPowTargetWindow * params.nPowTargetSpacing * 3 < 2 ^ 32)
    (hH : params.nPowTargetWindow ≤ last.nHeight)
    (hlen : params.nPowTargetWindow ≤ ((last :: pprev).length : Int))
    (hT : ∀ k, k < params.nPowTargetWindow.toNat → windowTarget (last :: pprev) (k + 1) = T)
    (hT1 : 1 ≤ T) (hTpl : T ≤ params.powLimit)
    (hov : T * (params.nPowTargetWindow.toNat + 1) < 2 ^ 256 ∨ 3 ≤ params.nPowTargetSpacing)
    (hprod : T * (params.nPowTargetWindow.toNat - 1) * params.nPowTargetSpacing.toNat < 2 ^ 256)
    (hstep : ∀ k, k < params.nPowTargetWindow.toNat - 1 →
      (last :: pprev)[k]?.map CBlockIndex.GetBlockTime =
        (last :: pprev)[k + 1]?.map (fun b => b.GetBlockTime + params.nPowTargetSpacing)) :
    (∃ tail, windowLoop params.nPowTargetWindow params.nPowTargetWindow.toNat 1
        (last :: pprev) 0 = some (T, tail)) ∧
      CalculateNextWorkRequired (last :: pprev) params =
        some (GetCompact
          (T * (params.nPowTargetWindow.toNat - 1) / params.nPowTargetWindow.toNat) false) ∧
      T * (params.nPowTargetWindow.toNat - 1) / params.nPowTargetWindow.toNat < T := by
  obtain ⟨Wn, hWn⟩ : ∃ Wn : Nat, params.nPowTargetWindow = (Wn : Int) :=
    ⟨params.nPowTargetWindow.toNat, (Int.toNat_of_nonneg (by omega)).symm⟩
  obtain ⟨Sn, hSn⟩ : ∃ Sn : Nat, params.nPowTargetSpacing = (Sn : Int) :=
    ⟨params.nPowTargetSpacing.toNat, (Int.toNat_of_nonneg (by omega)).symm⟩
  have hWtoNat : params.nPowTargetWindow.toNat = Wn := by omega
  have hStoNat : params.nPowTargetSpacing.toNat = Sn := by omega
  have hW2 : 2 ≤ Wn := by omega
  have hW32 : Wn < 2 ^ 32 := by
    have : params.nPowTargetWindow ≤ params.nPowTargetWindow * params.nPowTargetSpacing :=
      le_mul_of_one_le_right (by omega) hS
    omega
  have hS1 : 1 ≤ Sn := by omega
  have hlenN : Wn ≤ (last :: pprev).length := by
    rw [hWn] at hlen
    exact_mod_cast hlen
  rw [hWtoNat] at hT hov hprod hstep ⊢
  rw [hStoNat] at hprod
  -- no overflow in the averaging loop
  have hb1 : T * (Wn + 1) < 2 ^ 256 := by
    rcases hov with h | h
    · exact h
    · have h3 : 3 ≤ Sn := by omega
      have e1 : T * (Wn + 1) ≤ T * ((Wn - 1) * 3) := Nat.mul_le_mul_left _ (by omega)
      have e2 : T * ((Wn - 1) * 3) ≤ T * ((Wn - 1) * Sn) :=
        Nat.mul_le_mul_left _ (Nat.mul_le_mul_left _ h3)
      have e3 : T * ((Wn - 1) * Sn) = T * (Wn - 1) * Sn := by ring
      omega
  have hM : ∀ k, k < Wn → windowTarget (last :: pprev) (k + 1) ≤ T :=
    fun k hk => le_of_eq (hT k hk)
  have hexact : exactAverage (last :: pprev) Wn = T :=
    exactAverage_uniform _ T Wn hT Wn (by omega) (le_refl _)
  have hwrap : wrappedAverage (last :: pprev) Wn = T := by
    rw [wrappedAverage_eq_exactAverage _ Wn (exactAverage_no_overflow _ T Wn hM hb1) Wn
      (le_refl _), hexact]
  -- the loop
  obtain ⟨a, tail, hloop, ha, _⟩ := CalculateNextWorkRequired_window last pprev params
    (by omega) hH hlen
  rw [hWtoNat] at hloop ha
  have haT : a = T := by rw [ha hW32, hwrap]
  -- the timespan
  have hraw : rawTimespan (last :: pprev) Wn = ((Wn - 1 : Nat) : Int) * (Sn : Int) := by
    rw [← hSn]
    exact rawTimespan_uniform _ Wn _ (by omega) hlenN hstep
  have hT0 : (0 : Int) ≤ (Wn : Int) * (Sn : Int) := by positivity
  have hcast : ((Wn - 1 : Nat) : Int) = (Wn : Int) - 1 := by omega
  have hclamp : clampTimespan (rawTimespan (last :: pprev) Wn) ((Wn : Int) * (Sn : Int)) =
      ((Wn - 1 : Nat) : Int) * (Sn : Int) := by
    rw [hraw]
    apply (clampTimespan_bounds _ _ hT0).2.2.2.2
    · apply Int.ediv_le_of_le_mul (by norm_num)
      rw [hcast]
      nlinarith
    · rw [hcast]
      nlinarith
  obtain ⟨_, _, hcalc⟩ := CalculateNextWorkRequired_formula last pprev params (by omega) hS
    hT32 hH hlen
  rw [hWtoNat, hWn, hSn, hclamp, hwrap] at hcalc
  have htn : (((Wn - 1 : Nat) : Int) * (Sn : Int)).toNat = (Wn - 1) * Sn := by
    rw [← Nat.cast_mul, Int.toNat_ofNat]
  have hwn : ((Wn : Int) * (Sn : Int)).toNat = Wn * Sn := by
    rw [← Nat.cast_mul, Int.toNat_ofNat]
  have hdivlt : T * (Wn - 1) / Wn < T := by
    apply Nat.div_lt_of_lt_mul
    have : T * (Wn - 1) < T * Wn := Nat.mul_lt_mul_of_pos_left (by omega) (by omega)
    rw [Nat.mul_comm Wn T]
    exact this
  refine ⟨⟨tail, by rw [← haT]; rw [hWn] at hloop ⊢; exact hloop⟩, ?_, hdivlt⟩
  rw [hcalc, htn, hwn]
  have e : T * ((Wn - 1) * Sn) = T * (Wn - 1) * Sn := by ring
  rw [e, Nat.mod_eq_of_lt hprod, Nat.mul_div_mul_right _ _ (by omega : 0 < Sn)]
  unfold UintToArith256
  rw [Nat.min_eq_right (by omega)]

/-- Instance of C23 (amended) on the main network: twenty-one headers with
`nBits = 0x1f0affff` exactly 60 seconds apart give the encoding of `19/20` of the
target `0x0affff * 2^224`. -/
theorem CalculateNextWorkRequired_uniform_witness :
    CalculateNextWorkRequired (uniformChain 1712232000 60 0x1f0affff 20) mainParams =
      some (GetCompact (0x0affff * 2 ^ 224 * (20 - 1) / 20) false) :=
  (CalculateNextWorkRequired_uniform
    { nHeight := 20, nTime := 1712232000 + 20 * 60, nBits := 0x1f0affff }
    (uniformChain 1712232000 60 0x1f0affff 19) mainParams (0x0affff * 2 ^ 224)
    (by decide) (by decide) (by decide) (by decide) (by decide) (by decide) (by decide)
    (by decide) (Or.inr (by decide)) (by decide) (by decide)).2.1

/-! ### Monotonicity in the elapsed time -/

/-- Chains that agree on the `nBits` of the window have the same window targets. -/
theorem windowTarget_congr (c1 c2 : Chain) (W : Nat)
    (hbits : (c1.take W).map CBlockIndex.nBits = (c2.take W).map CBlockIndex.nBits) :
    ∀ k, 1 ≤ k → k ≤ W → windowTarget c1 k = windowTarget c2 k := by
  intro k h1 hk
  have h := congrArg (fun l => l[k - 1]?) hbits
  have hlt : k - 1 < W := by omega
  simp only [List.getElem?_map, List.getElem?_take, hlt, if_true] at h
  unfold windowTarget
  cases h1 : c1[k - 1]? <;> cases h2 : c2[k - 1]? <;> simp [h1, h2] at h ⊢
  rw [h]

/-- Chains that agree on the `nBits` of the window have the same wrapped average. -/
theorem wrappedAverage_congr (c1 c2 : Chain) (W : Nat)
    (hbits : (c1.take W).map CBlockIndex.nBits = (c2.take W).map CBlockIndex.nBits) :
    ∀ j, j ≤ W → wrappedAverage c1 j = wrappedAverage c2 j := by
  intro j
  induction j with
  | zero => intro _; rfl
  | succ j ih =>
    intro hj
    cases j with
    | zero =>
      simp only [wrappedAverage]
      exact windowTarget_congr c1 c2 W hbits 1 (le_refl 1) hj
    | succ k =>
      simp only [wrappedAverage]
      rw [ih (by omega), windowTarget_congr c1 c2 W hbits (k + 2) (by omega) hj]

/-- The clamped timespan is monotone in the raw timespan. -/
theorem clampTimespan_mono (r1 r2 T : Int) (h : r1 ≤ r2) :
    clampTimespan r1 T ≤ clampTimespan r2 T := by
  unfold clampTimespan
  simp only []
  generalize Int.tdiv T 3 = lo
  split_ifs <;> omega

/-- C27: for two windows with the same `nBits` sequence (`0 < W`, `0 < S`,
`3 * W * S < 2^32`, both chains holding their window), when the product of the
average with the clamped timespan of the second window does not reach `2^256` and
the raw timespan of the first window is at most that of the second, both calls of
`CalculateNextWorkRequired` return, and the target decoded from the first result is
at most the target decoded from the second. -/
theorem CalculateNextWorkRequired_monotone (last1 last2 : CBlockIndex) (pprev1 pprev2 : Chain)
    (params : Params)
    (hW : 0 < params.nPowTargetWindow) (hS : 0 < params.nPowTargetSpacing)
    (hT : params.nPowTargetWindow * params.nPowTargetSpacing * 3 < 2 ^ 32)
    (hpl : params.powLimit < 2 ^ 256)
    (hH1 : params.nPowTargetWindow ≤ last1.nHeight)
    (hH2 : params.nPowTargetWindow ≤ last2.nHeight)
    (hlen1 : params.nPowTargetWindow ≤ ((last1 :: pprev1).length : Int))
    (hlen2 : params.nPowTargetWindow ≤ ((last2 :: pprev2).length : Int))
    (hbits : ((last1 :: pprev1).take params.nPowTargetWindow.toNat).map CBlockIndex.nBits =
      ((last2 :: pprev2).take params.nPowTargetWindow.toNat).map CBlockIndex.nBits)
    (hno : wrappedAverage (last2 :: pprev2) params.nPowTargetWindow.toNat *
      (clampTimespan (rawTimespan (last2 :: pprev2) params.nPowTargetWindow.toNat)
        (params.nPowTargetWindow * params.nPowTargetSpacing)).toNat < 2 ^ 256)
    (hraw : rawTimespan (last1 :: pprev1) params.nPowTargetWindow.toNat ≤
      rawTimespan (last2 :: pprev2) params.nPowTargetWindow.toNat) :
    ∃ r1 r2, CalculateNextWorkRequired (last1 :: pprev1) params = some r1 ∧
      CalculateNextWorkRequired (last2 :: pprev2) params = some r2 ∧
      (SetCompact r1).value ≤ (SetCompact r2).value := by
  obtain ⟨h10, _, hc1⟩ := CalculateNextWorkRequired_formula last1 pprev1 params hW hS hT hH1 hlen1
  obtain ⟨h20, _, hc2⟩ := CalculateNextWorkRequired_formula last2 pprev2 params hW hS hT hH2 hlen2
  have hclamp := clampTimespan_mono _ _ (params.nPowTargetWindow * params.nPowTargetSpacing) hraw
  rw [wrappedAverage_congr _ _ _ hbits _ (le_refl _)] at hc1
  generalize wrappedAverage (last2 :: pprev2) params.nPowTargetWindow.toNat = A at hc1 hc2 hno
  generalize clampTimespan (rawTimespan (last1 :: pprev1) params.nPowTargetWindow.toNat)
    (params.nPowTargetWindow * params.nPowTargetSpacing) = ts1 at hc1 h10 hclamp
  generalize clampTimespan (rawTimespan (last2 :: pprev2) params.nPowTargetWindow.toNat)
    (params.nPowTargetWindow * params.nPowTargetSpacing) = ts2 at hc2 h20 hclamp hno
  have hts : ts1.toNat ≤ ts2.toNat := by omega
  have hprod : A * ts1.toNat ≤ A * ts2.toNat := Nat.mul_le_mul_left _ hts
  refine ⟨_, _, hc1, hc2, ?_⟩
  apply compact_roundtrip_mono
  · rw [Nat.mod_eq_of_lt (lt_of_le_of_lt hprod hno), Nat.mod_eq_of_lt hno]
    exact min_le_min (le_refl _) (Nat.div_le_div_right hprod)
  · exact lt_of_le_of_lt (min_le_left _ _) hpl

/-- Instance of C27 on the main network: headers of `nBits = 0x1f0affff` 30 seconds
apart (raw timespan 570) against the same headers 60 seconds apart (raw timespan
1140). -/
theorem CalculateNextWorkRequired_monotone_witness :
    ∃ r1 r2,
      CalculateNextWorkRequired (uniformChain 1712232000 30 0x1f0affff 20) mainParams = some r1 ∧
      CalculateNextWorkRequired (uniformChain 1712232000 60 0x1f0affff 20) mainParams = some r2 ∧
      (SetCompact r1).value ≤ (SetCompact r2).value :=
  CalculateNextWorkRequired_monotone
    { nHeight := 20, nTime := 1712232000 + 20 * 30, nBits := 0x1f0affff }
    { nHeight := 20, nTime := 1712232000 + 20 * 60, nBits := 0x1f0affff }
    (uniformChain 1712232000 30 0x1f0affff 19) (uniformChain 1712232000 60 0x1f0affff 19)
    mainParams (by decide) (by decide) (by decide) (by decide) (by decide) (by decide)
    (by decide) (by decide) (by decide) (by decide) (by decide)

/-! ### Termination of the prime search -/

/-- On a number from 3 on the trial division returns, and it returns the same value
under every larger bound on the number of evaluations. -/
theorem is_odd_prime_fuel (number : Int) (hn : 3 ≤ number) :
    (∃ b, is_odd_prime number = some b) ∧
      ∀ fuel, number.toNat ≤ fuel → is_odd_prime_loop number fuel 3 = is_odd_prime number := by
  have hspec : ∀ fuel : Nat, number.toNat ≤ fuel →
      ∃ b, is_odd_prime_loop number fuel 3 = some b ∧
        (b = true ↔ ∀ k : Int, 3 ≤ k → k % 2 = 1 → k * k ≤ number → ¬ k ∣ number) := by
    intro fuel hfuel
    have hf : number ≤ (fuel : Int) := by omega
    apply is_odd_prime_loop_spec number hn fuel 3 (le_refl 3) (by norm_num)
      (fun k hk3 _ hklt => by omega) (by omega)
    nlinarith
  obtain ⟨b, hb, hbspec⟩ := hspec (number.toNat + 1) (by omega)
  refine ⟨⟨b, hb⟩, fun fuel hfuel => ?_⟩
  obtain ⟨b2, hb2, hb2spec⟩ := hspec fuel hfuel
  unfold is_odd_prime
  rw [hb, hb2]
  congr 1
  rw [Bool.eq_iff_iff, hbspec, hb2spec]

/-- Every divisor tried by the trial division on a number below `2^31` is at least 3
and either is 3 or follows a divisor whose square is at most the number. -/
theorem is_odd_prime_divisors_inv (number : Int) :
    ∀ (fuel : Nat) (d : Int), 3 ≤ d → (d = 3 ∨ (d - 2) * (d - 2) ≤ number) →
      ∀ e ∈ is_odd_prime_divisors number fuel d,
        3 ≤ e ∧ (e = 3 ∨ (e - 2) * (e - 2) ≤ number) := by
  intro fuel
  induction fuel with
  | zero => intro d _ _ e he; simp [is_odd_prime_divisors] at he
  | succ fuel ih =>
    intro d hd hinv e he
    unfold is_odd_prime_divisors at he
    rcases List.mem_cons.1 he with h | h
    · subst h
      exact ⟨hd, hinv⟩
    · by_cases hdd : d * d ≤ number
      · rw [if_pos hdd] at h
        by_cases hdiv : Int.tmod number d = 0
        · rw [if_pos hdiv] at h
          simp at h
        · rw [if_neg hdiv] at h
          exact ih (d + 2) (by omega) (Or.inr (by simpa using hdd)) e h
      · rw [if_neg hdd] at h
        simp at h

/-- The candidates tested by the descending search started at an odd number from 3
on are odd numbers between 3 and the start. -/
theorem find_prime_candidates_spec :
    ∀ (fuel n : Nat), 3 ≤ n → n % 2 = 1 →
      ∀ c ∈ find_prime_candidates fuel (n : Int), 3 ≤ c ∧ c ≤ (n : Int) ∧ c % 2 = 1 := by
  intro fuel
  induction fuel with
  | zero => intro n _ _ c hc; simp [find_prime_candidates] at hc
  | succ fuel ih =>
    intro n h3 hodd c hc
    unfold find_prime_candidates at hc
    rw [is_odd_prime_eq n h3 hodd] at hc
    rcases List.mem_cons.1 hc with h | h
    · subst h
      omega
    · by_cases hp : n.Prime
      · simp [hp] at h
      · simp only [hp, decide_False] at h
        have hn3 : n ≠ 3 := fun h => hp (h ▸ Nat.prime_three)
        have hcast : (n : Int) - 2 = ((n - 2 : Nat) : Int) := by omega
        rw [hcast] at h
        obtain ⟨h1, h2, h3⟩ := ih (n - 2) (by omega) (by omega) c h
        omega

/-- The descending search started at an odd number from 3 on returns the same prime
under every bound on the number of tests that is large enough. -/
theorem find_prime_loop_fuel (n : Nat) (h3 : 3 ≤ n) (hodd : n % 2 = 1) :
    ∃ p : Nat, 3 ≤ p ∧ ∀ fuel, n ≤ 2 * fuel + 1 → find_prime_loop fuel (n : Int) = some (p : Int) := by
  obtain ⟨p, _, hpp, hp3, hple, hmax⟩ := find_prime_loop_spec n n h3 hodd (by omega)
  refine ⟨p, hp3, fun fuel hfuel => ?_⟩
  obtain ⟨q, hq, hqp, _, hqle, hqmax⟩ := find_prime_loop_spec fuel n h3 hodd hfuel
  rw [hq]
  have : q = p := by
    rcases Nat.lt_trichotomy q p with h | h | h
    · exact absurd hple (hqmax p hpp h)
    · exact h
    · exact absurd hqle (hmax q hqp h)
  rw [this]

/-- C30: `ethash_find_largest_prime` returns for every `int` input. For an input from
3 on the descending search, entered with the largest odd number `n` up to the input,
returns a prime from 3 on under every bound of at least `n` tests; every candidate it
passes to `is_odd_prime` lies between 3 and the input; on each candidate the trial
division returns, with the same value under every larger bound on its evaluations;
and every divisor `d` it tries satisfies `3 <= d`, `d * d < 2^63` and
`d + 2 < 2^31`, so neither the 64-bit product nor the increment overflows. -/
theorem ethash_find_largest_prime_terminates (upper_bound : Int)
    (hint : upper_bound < 2 ^ 31) :
    (∃ r, ethash_find_largest_prime upper_bound = some r) ∧
      (3 ≤ upper_bound →
        ∃ p : Nat, 3 ≤ p ∧ ethash_find_largest_prime upper_bound = some (p : Int) ∧
          (∀ fuel, (if Int.tmod upper_bound 2 = 0 then upper_bound - 1 else upper_bound).toNat ≤
              fuel →
            find_prime_loop fuel
              (if Int.tmod upper_bound 2 = 0 then upper_bound - 1 else upper_bound) =
                some (p : Int)) ∧
          ∀ n ∈ find_prime_candidates
              (if Int.tmod upper_bound 2 = 0 then upper_bound - 1 else upper_bound).toNat
              (if Int.tmod upper_bound 2 = 0 then upper_bound - 1 else upper_bound),
            3 ≤ n ∧ n ≤ upper_bound ∧ (∃ b, is_odd_prime n = some b) ∧
              (∀ fuel, n.toNat ≤ fuel → is_odd_prime_loop n fuel 3 = is_odd_prime n) ∧
              ∀ d ∈ is_odd_prime_divisors n n.toNat 3,
                3 ≤ d ∧ d * d < 2 ^ 63 ∧ d + 2 < 2 ^ 31) := by
  have hmain : 3 ≤ upper_bound →
      ∃ p : Nat, 3 ≤ p ∧ ethash_find_largest_prime upper_bound = some (p : Int) ∧
          (∀ fuel, (if Int.tmod upper_bound 2 = 0 then upper_bound - 1 else upper_bound).toNat ≤
              fuel →
            find_prime_loop fuel
              (if Int.tmod upper_bound 2 = 0 then upper_bound - 1 else upper_bound) =
                some (p : Int)) ∧
          ∀ n ∈ find_prime_candidates
              (if Int.tmod upper_bound 2 = 0 then upper_bound - 1 else upper_bound).toNat
              (if Int.tmod upper_bound 2 = 0 then upper_bound - 1 else upper_bound),
            3 ≤ n ∧ n ≤ upper_bound ∧ (∃ b, is_odd_prime n = some b) ∧
              (∀ fuel, n.toNat ≤ fuel → is_odd_prime_loop n fuel 3 = is_odd_prime n) ∧
              ∀ d ∈ is_odd_prime_divisors n n.toNat 3,
                3 ≤ d ∧ d * d < 2 ^ 63 ∧ d + 2 < 2 ^ 31 := by
    intro h3
    have hdef : ethash_find_largest_prime upper_bound =
        find_prime_loop
          (if Int.tmod upper_bound 2 = 0 then upper_bound - 1 else upper_bound).toNat
          (if Int.tmod upper_bound 2 = 0 then upper_bound - 1 else upper_bound) := by
      unfold ethash_find_largest_prime
      simp only []
      rw [if_neg (by omega), if_neg (by omega)]
    have htmod : Int.tmod upper_bound 2 = upper_bound % 2 :=
      Int.tmod_eq_emod (by omega) (by norm_num)
    obtain ⟨s, hs, hs3, hsodd, hsle⟩ : ∃ s : Nat,
        (if Int.tmod upper_bound 2 = 0 then upper_bound - 1 else upper_bound) = (s : Int) ∧
          3 ≤ s ∧ s % 2 = 1 ∧ (s : Int) ≤ upper_bound := by
      rw [htmod]
      by_cases heven : upper_bound % 2 = 0
      · rw [if_pos heven]
        exact ⟨(upper_bound - 1).toNat, by omega, by omega, by omega, by omega⟩
      · rw [if_neg heven]
        exact ⟨upper_bound.toNat, by omega, by omega, by omega, by omega⟩
    rw [hdef, hs, Int.toNat_ofNat]
    obtain ⟨p, hp3, hp⟩ := find_prime_loop_fuel s hs3 hsodd
    refine ⟨p, hp3, hp s (by omega), fun fuel hfuel => hp fuel (by omega), ?_⟩
    intro n hn
    obtain ⟨hn3, hnle, _⟩ := find_prime_candidates_spec s s hs3 hsodd n hn
    obtain ⟨hsome, hfuel⟩ := is_odd_prime_fuel n hn3
    refine ⟨hn3, by omega, hsome, hfuel, ?_⟩
    intro d hd
    obtain ⟨hd3, hdinv⟩ := is_odd_prime_divisors_inv n n.toNat 3 (le_refl 3) (Or.inl rfl) d hd
    have hd16 : d < 2 ^ 16 := by
      rcases hdinv with h | h
      · omega
      · by_contra hge
        have hge2 : (2 : Int) ^ 16 - 2 ≤ d - 2 := by omega
        have : ((2 : Int) ^ 16 - 2) * ((2 : Int) ^ 16 - 2) ≤ (d - 2) * (d - 2) :=
          mul_le_mul hge2 hge2 (by norm_num) (by omega)
        norm_num at this
        omega
    refine ⟨hd3, ?_, by omega⟩
    have : d * d < 2 ^ 16 * 2 ^ 16 := mul_lt_mul'' hd16 hd16 (by omega) (by omega)
    norm_num at this ⊢
    omega
  refine ⟨?_, hmain⟩
  by_cases h3 : 3 ≤ upper_bound
  · obtain ⟨p, _, hp, _⟩ := hmain h3
    exact ⟨_, hp⟩
  · unfold ethash_find_largest_prime
    simp only []
    by_cases h2 : upper_bound < 2
    · exact ⟨0, by rw [if_pos h2]⟩
    · have : upper_bound = 2 := by omega
      exact ⟨2, by rw [if_neg h2, if_pos this]⟩

/-- Instance of C30 for the input 100: the search is entered with 99, tests 99 and
97, and returns 97. -/
theorem ethash_find_largest_prime_terminates_witness :
    ethash_find_largest_prime 100 = some 97 ∧
      find_prime_candidates 99 99 = [99, 97] ∧
      ∃ r, ethash_find_largest_prime 100 = some r :=
  ⟨by decide, by decide, (ethash_find_largest_prime_terminates 100 (by decide)).1⟩

/-- On a number below 9, and so on every number that is not positive, the loop of
`is_odd_prime` is not entered and the function returns 1. -/
theorem is_odd_prime_below_nine (number : Int) (h : number < 9) :
    is_odd_prime number = some true := by
  unfold is_odd_prime is_odd_prime_loop
  rw [if_neg (by omega)]

end BetGenius
